import Mathlib

/-!
Verification development for the TASM TriCore assembler/linker.
Each Python function the claims touch is embedded shallowly as an
executable Lean definition over `List Char` (strings) and `Nat`/`Int`
(Python integers), and each claim is settled by a theorem about those
definitions.
-/

set_option maxHeartbeats 1000000

namespace TASM

/-- Strings are modelled as lists of characters. -/
abbrev Str := List Char

/-- ASCII lowercasing of one character, as Python str.lower acts on ASCII. -/
def lowerCh (c : Char) : Char :=
  if 'A' ≤ c ∧ c ≤ 'Z' then Char.ofNat (c.toNat + 32) else c

/-- Python str.strip whitespace set (space, tab, newline, CR, VT, FF). -/
def isPySpace (c : Char) : Bool :=
  c == ' ' || c == '\t' || c == '\n' || c == '\r' || c == '\x0b' || c == '\x0c'

/-- Python str.strip: drop whitespace from both ends. -/
def pyStrip (s : Str) : Str :=
  ((s.dropWhile isPySpace).reverse.dropWhile isPySpace).reverse

/-- Value of one digit character as Python int() accepts it (0-9, a-f, A-F). -/
def digitVal (c : Char) : Option Nat :=
  if '0' ≤ c ∧ c ≤ '9' then some (c.toNat - 48)
  else if 'a' ≤ c ∧ c ≤ 'f' then some (c.toNat - 87)
  else if 'A' ≤ c ∧ c ≤ 'F' then some (c.toNat - 55)
  else none

/-- Digit value restricted to base `b`. -/
def digitValB (b : Nat) (c : Char) : Option Nat :=
  match digitVal c with
  | some v => if v < b then some v else none
  | none => none

/-- Accumulating value of a run of base-`b` digit characters. -/
def digitsValAux (b : Nat) : Str → Nat → Option Nat
  | [], acc => some acc
  | c :: r, acc =>
    match digitValB b c with
    | some d => digitsValAux b r (acc * b + d)
    | none => none

/-- Value of a nonempty, all-valid base-`b` digit string; `none` otherwise. -/
def digitsVal (b : Nat) (s : Str) : Option Nat :=
  match s with
  | [] => none
  | _ => digitsValAux b s 0

/-- The base marker letter Python int() accepts after a leading `0`. -/
def baseMarkCh (b : Nat) : Option Char :=
  if b = 16 then some 'x' else if b = 2 then some 'b' else if b = 8 then some 'o' else none

/-- Strip an optional `0x`/`0b`/`0o` marker (case-insensitive) for base `b`. -/
def stripBaseMark (b : Nat) (s : Str) : Str :=
  match s, baseMarkCh b with
  | c0 :: c1 :: r, some p => if c0 = '0' ∧ lowerCh c1 = p then r else c0 :: c1 :: r
  | t, _ => t

/-- Python `int(s, b)` on a whitespace-free, underscore-free string:
an optional sign, an optional base marker, then a nonempty digit run. -/
def pyInt (b : Nat) (s : Str) : Option Int :=
  match s with
  | [] => none
  | c :: r =>
    if c = '+' then (digitsVal b (stripBaseMark b r)).map (fun v => (v : Int))
    else if c = '-' then (digitsVal b (stripBaseMark b r)).map (fun v => -(v : Int))
    else (digitsVal b (stripBaseMark b (c :: r))).map (fun v => (v : Int))

/-- Does the lowered string start with the two characters `a`, `b`? -/
def startsLower2 (s : Str) (a b : Char) : Bool :=
  match s with
  | x :: y :: _ => lowerCh x == a && lowerCh y == b
  | _ => false

/-- The `len > 2 and s[0] == '0' and s[1].lower() == p` test of the parser. -/
def markGt2 (s : Str) (p : Char) : Bool :=
  match s with
  | x :: y :: _ :: _ => x == '0' && lowerCh y == p
  | _ => false

/-- Does the lowered string end with character `p`? -/
def endsLower (s : Str) (p : Char) : Bool :=
  match s.getLast? with
  | some c => lowerCh c == p
  | none => false

/-- Is `c` one of the letters a-f (either case)? -/
def isHexLetter (c : Char) : Bool :=
  decide ('a' ≤ lowerCh c ∧ lowerCh c ≤ 'f')

/-- The branch chain of NumericParser.parse after stripping and underscore
removal (src/src/numeric_parser.py lines 43-162). -/
def parseCore (v : Str) : Option Int :=
  if startsLower2 v '0' 'x' then pyInt 16 v
  else if markGt2 v 'h' then pyInt 16 (v.drop 2)
  else if endsLower v 'h' then
    match v.dropLast with
    | [] => pyInt 16 []
    | c :: r => if isHexLetter c then none else pyInt 16 (c :: r)
  else if v.head? == some '$' then
    match v.drop 1 with
    | [] => none
    | c :: r => if isHexLetter c then none else pyInt 16 (c :: r)
  else if startsLower2 v '0' 'b' then pyInt 2 (v.drop 2)
  else if markGt2 v 'y' then pyInt 2 (v.drop 2)
  else if endsLower v 'b' then pyInt 2 v.dropLast
  else if endsLower v 'y' then pyInt 2 v.dropLast
  else if startsLower2 v '0' 'o' then pyInt 8 (v.drop 2)
  else if markGt2 v 'q' then pyInt 8 (v.drop 2)
  else if endsLower v 'q' then pyInt 8 v.dropLast
  else if endsLower v 'o' then pyInt 8 v.dropLast
  else if markGt2 v 'd' then pyInt 10 (v.drop 2)
  else if endsLower v 'd' then pyInt 10 v.dropLast
  else pyInt 10 v

/-- NumericParser.parse: strip, reject empty, drop underscores, then the chain. -/
def nparse (s : Str) : Option Int :=
  let v := pyStrip s
  if v = [] then none
  else parseCore (v.filter (fun c => c != '_'))

/-- NumericParser.parse_with_sign (also the module-level parse_numeric). -/
def nparseSigned (s : Str) : Option Int :=
  match pyStrip s with
  | [] => nparse []
  | c :: r =>
    if c = '+' then nparse r
    else if c = '-' then (nparse r).map (fun z => -z)
    else nparse (c :: r)

/-- Character of digit value `n` (0-9 then a-f), as used when rendering. -/
def digitCh (n : Nat) : Char :=
  if n < 10 then Char.ofNat (48 + n) else Char.ofNat (87 + n)

/-- Fuelled most-significant-first digit expansion. -/
def natDigitsAux (b : Nat) : Nat → Nat → Str → Str
  | 0, n, acc => digitCh n :: acc
  | fuel + 1, n, acc =>
    if n < b then digitCh n :: acc
    else natDigitsAux b fuel (n / b) (digitCh (n % b) :: acc)

/-- Minimal base-`b` digit string of `n`, most significant digit first. -/
def natDigits (b n : Nat) : Str := natDigitsAux b n n []

/-- The numeric literal formats the specification lists. -/
inductive NumFmt
  | hexPre0x | hexPre0X | hexPre0h | hexSuffH | hexDollar
  | binPre0b | binPre0y | binSuffB | binSuffY
  | octPre0o | octPre0q | octSuffQ | octSuffO
  | decPre0d | decSuffD | decPlain
  deriving DecidableEq, Repr

/-- Pad a hex digit string with a leading zero when it starts with a-f,
as the trailing-h form requires. -/
def padHex (ds : Str) : Str :=
  match ds with
  | c :: r => if isHexLetter c then '0' :: c :: r else c :: r
  | [] => []

/-- Canonical rendering of a magnitude in a given format. -/
def renderMag (f : NumFmt) (m : Nat) : Str :=
  match f with
  | .hexPre0x => '0' :: 'x' :: natDigits 16 m
  | .hexPre0X => '0' :: 'X' :: natDigits 16 m
  | .hexPre0h => '0' :: 'h' :: natDigits 16 m
  | .hexSuffH => padHex (natDigits 16 m) ++ ['h']
  | .hexDollar => '$' :: '0' :: natDigits 16 m
  | .binPre0b => '0' :: 'b' :: natDigits 2 m
  | .binPre0y => '0' :: 'y' :: natDigits 2 m
  | .binSuffB => natDigits 2 m ++ ['b']
  | .binSuffY => natDigits 2 m ++ ['y']
  | .octPre0o => '0' :: 'o' :: natDigits 8 m
  | .octPre0q => '0' :: 'q' :: natDigits 8 m
  | .octSuffQ => natDigits 8 m ++ ['q']
  | .octSuffO => natDigits 8 m ++ ['o']
  | .decPre0d => '0' :: 'd' :: natDigits 10 m
  | .decSuffD => natDigits 10 m ++ ['d']
  | .decPlain => natDigits 10 m

/-- Canonical rendering of a signed integer: a single leading `-` for
negative values, the bare magnitude otherwise. -/
def render (f : NumFmt) (n : Int) : Str :=
  if n < 0 then '-' :: renderMag f n.natAbs else renderMag f n.natAbs

end TASM


namespace TASM

theorem digitCh_facts16 : ∀ k, k < 16 → lowerCh (digitCh k) = digitCh k ∧
    digitCh k ≠ '+' ∧ digitCh k ≠ '-' ∧ digitCh k ≠ '_' ∧ digitCh k ≠ '$' ∧
    digitCh k ≠ 'x' ∧ digitCh k ≠ 'h' ∧ isPySpace (digitCh k) = false ∧
    digitVal (digitCh k) = some k ∧ (digitCh k = '0' ↔ k = 0) := by decide

theorem digitCh_facts10 : ∀ k, k < 10 → digitCh k ≠ 'b' ∧ digitCh k ≠ 'y' ∧
    digitCh k ≠ 'o' ∧ digitCh k ≠ 'q' ∧ digitCh k ≠ 'd' ∧
    isHexLetter (digitCh k) = false := by decide

theorem digitCh_zero : digitCh 0 = '0' := by decide

theorem digitValB_digitCh {b k : Nat} (hk : k < b) (hb16 : b ≤ 16) :
    digitValB b (digitCh k) = some k := by
  have h := (digitCh_facts16 k (lt_of_lt_of_le hk hb16)).2.2.2.2.2.2.2.2.1
  unfold digitValB
  rw [h]
  simp [hk]

theorem digitsValAux_cons (b : Nat) (c : Char) (r : Str) (a : Nat) :
    digitsValAux b (c :: r) a =
      match digitValB b c with
      | some d => digitsValAux b r (a * b + d)
      | none => none := rfl

theorem digitsValAux_append (b : Nat) : ∀ (xs ys : Str) (a : Nat),
    digitsValAux b (xs ++ ys) a = (digitsValAux b xs a).bind (fun v => digitsValAux b ys v) := by
  intro xs
  induction xs with
  | nil => intro ys a; rfl
  | cons c r ih =>
    intro ys a
    rw [List.cons_append, digitsValAux_cons, digitsValAux_cons]
    cases h : digitValB b c with
    | none => rfl
    | some d =>
      show digitsValAux b (r ++ ys) (a * b + d) = (digitsValAux b r (a * b + d)).bind _
      exact ih ys _

theorem natDigitsAux_spec (b : Nat) (hb : 2 ≤ b) (hb16 : b ≤ 16) :
    ∀ fuel n acc, n ≤ fuel →
    ∃ ds, natDigitsAux b fuel n acc = ds ++ acc ∧ ds ≠ [] ∧
      (∀ c ∈ ds, ∃ k, k < b ∧ c = digitCh k) ∧
      (∀ a, digitsValAux b ds a = some (a * b ^ ds.length + n)) ∧
      (0 < n → ∀ c, ds.head? = some c → c ≠ '0') ∧
      (n = 0 → ds = ['0']) := by
  intro fuel
  induction fuel with
  | zero =>
    intro n acc hn
    have hn0 : n = 0 := Nat.le_zero.mp hn
    subst hn0
    refine ⟨['0'], ?_, by simp, ?_, ?_, by simp, fun _ => rfl⟩
    · show digitCh 0 :: acc = '0' :: acc
      rw [digitCh_zero]
    · intro c hc
      simp only [List.mem_singleton] at hc
      subst hc
      exact ⟨0, by omega, digitCh_zero.symm⟩
    · intro a
      rw [← digitCh_zero, digitsValAux_cons, digitValB_digitCh (by omega) hb16]
      show digitsValAux b [] (a * b + 0) = _
      unfold digitsValAux
      norm_num [pow_one]
  | succ fuel ih =>
    intro n acc hn
    by_cases hlt : n < b
    · have hk16 : n < 16 := lt_of_lt_of_le hlt hb16
      refine ⟨[digitCh n], ?_, by simp, ?_, ?_, ?_, ?_⟩
      · show (if n < b then digitCh n :: acc else _) = _
        rw [if_pos hlt]; rfl
      · intro c hc
        simp only [List.mem_singleton] at hc
        exact ⟨n, hlt, hc⟩
      · intro a
        rw [digitsValAux_cons, digitValB_digitCh hlt hb16]
        show digitsValAux b [] (a * b + n) = _
        unfold digitsValAux
        norm_num [pow_one]
      · intro hpos c hc
        simp only [List.head?_cons, Option.some.injEq] at hc
        subst hc
        intro h0
        have := ((digitCh_facts16 n hk16).2.2.2.2.2.2.2.2.2).mp h0
        omega
      · intro h0
        subst h0
        rw [digitCh_zero]
    · have hble : b ≤ n := Nat.le_of_not_lt hlt
      have hdiv2 : n / b ≤ n / 2 := Nat.div_le_div_left hb (by omega)
      have hfuel : n / b ≤ fuel := by omega
      obtain ⟨ds', heq, hne, hchars, hval, hhead, hzero⟩ :=
        ih (n / b) (digitCh (n % b) :: acc) hfuel
      have hmod : n % b < b := Nat.mod_lt _ (by omega)
      refine ⟨ds' ++ [digitCh (n % b)], ?_, by simp, ?_, ?_, ?_, ?_⟩
      · show (if n < b then _ else natDigitsAux b fuel (n / b) (digitCh (n % b) :: acc)) = _
        rw [if_neg hlt, heq, List.append_assoc]
        rfl
      · intro c hc
        rcases List.mem_append.mp hc with h | h
        · exact hchars c h
        · simp only [List.mem_singleton] at h
          exact ⟨n % b, hmod, h⟩
      · intro a
        rw [digitsValAux_append, hval a]
        show digitsValAux b [digitCh (n % b)] _ = _
        rw [digitsValAux_cons, digitValB_digitCh hmod hb16]
        show digitsValAux b [] _ = _
        unfold digitsValAux
        have hdm : b * (n / b) + n % b = n := Nat.div_add_mod n b
        have hkey : (a * b ^ ds'.length + n / b) * b + n % b = a * b ^ (ds'.length + 1) + n := by
          calc (a * b ^ ds'.length + n / b) * b + n % b
              = a * (b ^ ds'.length * b) + (b * (n / b) + n % b) := by ring
            _ = a * b ^ (ds'.length + 1) + n := by rw [hdm, pow_succ]
        rw [List.length_append, List.length_singleton, hkey]
      · intro _ c hc
        have hpos' : 0 < n / b := Nat.div_pos hble (by omega)
        cases ds' with
        | nil => exact absurd rfl hne
        | cons x xs =>
          simp only [List.cons_append, List.head?_cons, Option.some.injEq] at hc
          exact hc ▸ hhead hpos' x (by simp)
      · intro h0
        omega


/-- Bundled facts about the minimal digit rendering. -/
theorem natDigits_props (b n : Nat) (hb : 2 ≤ b) (hb16 : b ≤ 16) :
    natDigits b n ≠ [] ∧
    (∀ c ∈ natDigits b n, ∃ k, k < b ∧ c = digitCh k) ∧
    (∀ a, digitsValAux b (natDigits b n) a = some (a * b ^ (natDigits b n).length + n)) ∧
    (0 < n → ∀ c, (natDigits b n).head? = some c → c ≠ '0') ∧
    (n = 0 → natDigits b n = ['0']) := by
  obtain ⟨ds, heq, hne, hchars, hval, hhead, hzero⟩ :=
    natDigitsAux_spec b hb hb16 n n [] (le_refl n)
  unfold natDigits
  rw [heq, List.append_nil]
  exact ⟨hne, hchars, hval, hhead, hzero⟩

theorem digitsVal_of_ne_nil (b : Nat) (s : Str) (h : s ≠ []) :
    digitsVal b s = digitsValAux b s 0 := by
  cases s with
  | nil => exact absurd rfl h
  | cons c r => rfl

theorem digitsVal_natDigits (b n : Nat) (hb : 2 ≤ b) (hb16 : b ≤ 16) :
    digitsVal b (natDigits b n) = some n := by
  obtain ⟨hne, _, hval, _, _⟩ := natDigits_props b n hb hb16
  rw [digitsVal_of_ne_nil b _ hne, hval 0]
  norm_num

theorem stripBaseMark_cons2_some {b : Nat} {p : Char} (h : baseMarkCh b = some p)
    (c0 c1 : Char) (r : Str) :
    stripBaseMark b (c0 :: c1 :: r) =
      if c0 = '0' ∧ lowerCh c1 = p then r else c0 :: c1 :: r := by
  unfold stripBaseMark
  rw [h]

theorem stripBaseMark_cons2_none {b : Nat} (h : baseMarkCh b = none)
    (c0 c1 : Char) (r : Str) :
    stripBaseMark b (c0 :: c1 :: r) = c0 :: c1 :: r := by
  unfold stripBaseMark
  rw [h]

theorem stripBaseMark_short (b : Nat) (s : Str) (h : s.length ≤ 1) :
    stripBaseMark b s = s := by
  match s, h with
  | [], _ => unfold stripBaseMark; cases baseMarkCh b <;> rfl
  | [c], _ => unfold stripBaseMark; cases baseMarkCh b <;> rfl

theorem pyInt_cons (b : Nat) (c : Char) (r : Str) : pyInt b (c :: r) =
    if c = '+' then (digitsVal b (stripBaseMark b r)).map (fun v => (v : Int))
    else if c = '-' then (digitsVal b (stripBaseMark b r)).map (fun v => -(v : Int))
    else (digitsVal b (stripBaseMark b (c :: r))).map (fun v => (v : Int)) := rfl

/-- The head of a rendered digit run is a digit character. -/
theorem natDigits_head (b n : Nat) (hb : 2 ≤ b) (hb16 : b ≤ 16) :
    ∃ k r, k < b ∧ natDigits b n = digitCh k :: r := by
  obtain ⟨hne, hchars, _, _, _⟩ := natDigits_props b n hb hb16
  cases hd : natDigits b n with
  | nil => exact absurd hd hne
  | cons c r =>
    obtain ⟨k, hk, hck⟩ := hchars c (by rw [hd]; simp)
    exact ⟨k, r, hk, by rw [hck]⟩

/-- stripBaseMark is the identity on a rendered digit run: the run either
has a nonzero first digit or is the single digit 0. -/
theorem stripBaseMark_natDigits (b b' n : Nat) (hb : 2 ≤ b) (hb16 : b ≤ 16) :
    stripBaseMark b' (natDigits b n) = natDigits b n := by
  obtain ⟨hne, hchars, _, hhead, hzero⟩ := natDigits_props b n hb hb16
  cases hd : natDigits b n with
  | nil => exact absurd hd hne
  | cons c r =>
    cases r with
    | nil =>
      show stripBaseMark b' [c] = [c]
      unfold stripBaseMark
      cases baseMarkCh b' <;> rfl
    | cons c1 r1 =>
      cases hm : baseMarkCh b' with
      | none => exact stripBaseMark_cons2_none hm c c1 r1
      | some p =>
        rw [stripBaseMark_cons2_some hm, if_neg]
        rintro ⟨hc0, _⟩
        rcases Nat.eq_zero_or_pos n with h0 | hpos
        · have := hzero h0
          rw [hd] at this
          simp at this
        · exact hhead hpos c (by rw [hd]; rfl) hc0

/-- Python int() reads back a rendered digit run. -/
theorem pyInt_natDigits (b n : Nat) (hb : 2 ≤ b) (hb16 : b ≤ 16) :
    pyInt b (natDigits b n) = some (n : Int) := by
  obtain ⟨k, r, hk, hd⟩ := natDigits_head b n hb hb16
  have hf := digitCh_facts16 k (lt_of_lt_of_le hk hb16)
  rw [hd, pyInt_cons, if_neg hf.2.1, if_neg hf.2.2.1, ← hd,
    stripBaseMark_natDigits b b n hb hb16, digitsVal_natDigits b n hb hb16]
  rfl

end TASM

namespace TASM

theorem startsLower2_cc (x y : Char) (t : Str) (a b : Char) :
    startsLower2 (x :: y :: t) a b = (lowerCh x == a && lowerCh y == b) := rfl

theorem markGt2_ccc (x y z : Char) (t : Str) (p : Char) :
    markGt2 (x :: y :: z :: t) p = (x == '0' && lowerCh y == p) := rfl

theorem endsLower_concat (xs : Str) (c : Char) (p : Char) :
    endsLower (xs ++ [c]) p = (lowerCh c == p) := by
  unfold endsLower
  rw [List.getLast?_concat]

theorem getLast_digit (b : Nat) (s : Str) (hs : s ≠ [])
    (hchars : ∀ c ∈ s, ∃ k, k < b ∧ c = digitCh k) :
    ∃ k, k < b ∧ s.getLast? = some (digitCh k) := by
  have hmem : s.getLast hs ∈ s := List.getLast_mem hs
  obtain ⟨k, hk, hck⟩ := hchars _ hmem
  exact ⟨k, hk, by rw [List.getLast?_eq_getLast s hs, hck]⟩

theorem digitBeq10 : ∀ k, k < 10 → (lowerCh (digitCh k) == 'x') = false ∧
    (lowerCh (digitCh k) == 'h') = false ∧ (lowerCh (digitCh k) == 'b') = false ∧
    (lowerCh (digitCh k) == 'y') = false ∧ (lowerCh (digitCh k) == 'o') = false ∧
    (lowerCh (digitCh k) == 'q') = false ∧ (lowerCh (digitCh k) == 'd') = false ∧
    (digitCh k == '$') = false ∧ (digitCh k == '0') = decide (k = 0) ∧
    (lowerCh (digitCh k) == '0') = decide (k = 0) ∧
    isHexLetter (digitCh k) = false := by decide

theorem digitBeq16 : ∀ k, k < 16 → (lowerCh (digitCh k) == 'x') = false ∧
    (lowerCh (digitCh k) == 'h') = false ∧ (digitCh k == '$') = false ∧
    (digitCh k == '0') = decide (k = 0) ∧ (lowerCh (digitCh k) == '0') = decide (k = 0) ∧
    isHexLetter (digitCh k) = decide (10 ≤ k) := by decide

/-- The early prefix-marker and dollar branches all fail when the first
character is neither `0` nor `$`. -/
theorem frontFalse (c0 : Char) (t : Str)
    (h0 : (c0 == '0') = false) (h0l : (lowerCh c0 == '0') = false)
    (hd : (c0 == '$') = false) :
    startsLower2 (c0 :: t) '0' 'x' = false ∧ markGt2 (c0 :: t) 'h' = false ∧
    ((c0 :: t).head? == some '$') = false ∧
    startsLower2 (c0 :: t) '0' 'b' = false ∧ markGt2 (c0 :: t) 'y' = false ∧
    startsLower2 (c0 :: t) '0' 'o' = false ∧ markGt2 (c0 :: t) 'q' = false ∧
    markGt2 (c0 :: t) 'd' = false := by
  have hsl : ∀ p : Char, startsLower2 (c0 :: t) '0' p = false := by
    intro p
    cases t with
    | nil => rfl
    | cons c1 t1 => rw [startsLower2_cc]; simp [h0l]
  have hmk : ∀ p : Char, markGt2 (c0 :: t) p = false := by
    intro p
    cases t with
    | nil => rfl
    | cons c1 t1 =>
      cases t1 with
      | nil => rfl
      | cons c2 t2 => rw [markGt2_ccc]; simp [h0]
  have hdl : ((c0 :: t).head? == some '$') = false := by
    show (some c0 == some '$') = false
    show (c0 == '$') = false
    exact hd
  exact ⟨hsl 'x', hmk 'h', hdl, hsl 'b', hmk 'y', hsl 'o', hmk 'q', hmk 'd'⟩

/-- natDigits splits into the zero rendering or a nonzero-headed digit run. -/
theorem natDigits_cases (b m : Nat) (hb : 2 ≤ b) (hb16 : b ≤ 16) :
    (m = 0 ∧ natDigits b m = ['0']) ∨
    (0 < m ∧ ∃ k0 rest, 0 < k0 ∧ k0 < b ∧ natDigits b m = digitCh k0 :: rest) := by
  obtain ⟨hne, hchars, _, hhead, hzero⟩ := natDigits_props b m hb hb16
  rcases Nat.eq_zero_or_pos m with h0 | hpos
  · exact Or.inl ⟨h0, hzero h0⟩
  · obtain ⟨k0, rest, hk0, hd⟩ := natDigits_head b m hb hb16
    refine Or.inr ⟨hpos, k0, rest, ?_, hk0, hd⟩
    by_contra hk
    have hk00 : k0 = 0 := by omega
    subst hk00
    exact hhead hpos '0' (by rw [hd, digitCh_zero]; rfl) rfl

/-- Reading back a hex rendering behind an explicit 0x/0X marker. -/
theorem pyInt16_marked (x : Char) (hx : lowerCh x = 'x')
    (n : Nat) : pyInt 16 ('0' :: x :: natDigits 16 n) = some (n : Int) := by
  rw [pyInt_cons, if_neg (by decide), if_neg (by decide),
    stripBaseMark_cons2_some (by rfl) '0' x (natDigits 16 n),
    if_pos ⟨rfl, hx⟩, digitsVal_natDigits 16 n (by omega) (by omega)]
  rfl

/-- Reading back a zero-padded hex digit run. -/
theorem pyInt16_zeroPad (n : Nat) : pyInt 16 ('0' :: natDigits 16 n) = some (n : Int) := by
  obtain ⟨k, r, hk, hd⟩ := natDigits_head 16 n (by omega) (by omega)
  obtain ⟨hne, hchars, hval, _, _⟩ := natDigits_props 16 n (by omega) (by omega)
  have hb16 := digitBeq16 k hk
  rw [pyInt_cons, if_neg (by decide), if_neg (by decide), hd,
    stripBaseMark_cons2_some (by rfl) '0' (digitCh k) r, if_neg]
  · have : digitsVal 16 ('0' :: digitCh k :: r) = some n := by
      rw [digitsVal_of_ne_nil 16 _ (by simp), digitsValAux_cons]
      have h0 : digitValB 16 '0' = some 0 := by decide
      rw [h0]
      show digitsValAux 16 (digitCh k :: r) 0 = some n
      rw [← hd, hval 0]
      norm_num
    rw [this]
    rfl
  · rintro ⟨-, hxl⟩
    have := (digitCh_facts16 k hk).1
    rw [this] at hxl
    have := (digitCh_facts16 k hk).2.2.2.2.2.1
    exact this hxl

end TASM

namespace TASM

theorem neTrue {c : Bool} (h : c = false) : ¬ (c = true) := by simp [h]

theorem endsLower_digitLast10 (s : Str) (kl : Nat) (hkl : kl < 10)
    (hlast : s.getLast? = some (digitCh kl)) :
    endsLower s 'h' = false ∧ endsLower s 'b' = false ∧ endsLower s 'y' = false ∧
    endsLower s 'q' = false ∧ endsLower s 'o' = false ∧ endsLower s 'd' = false := by
  have hq := digitBeq10 kl hkl
  unfold endsLower
  rw [hlast]
  exact ⟨hq.2.1, hq.2.2.1, hq.2.2.2.1, hq.2.2.2.2.2.1, hq.2.2.2.2.1, hq.2.2.2.2.2.2.1⟩

theorem endsLower_digitLast16 (s : Str) (kl : Nat) (hkl : kl < 16)
    (hlast : s.getLast? = some (digitCh kl)) : endsLower s 'h' = false := by
  have hq := digitBeq16 kl hkl
  unfold endsLower
  rw [hlast]
  exact hq.2.1

theorem getLast?_cc (a b : Char) (l : Str) (hl : l ≠ []) :
    (a :: b :: l).getLast? = l.getLast? := by
  rw [List.getLast?_cons_cons]
  cases l with
  | nil => exact absurd rfl hl
  | cons x xs => rw [List.getLast?_cons_cons]

theorem padHex_cons (c : Char) (r : Str) :
    padHex (c :: r) = if isHexLetter c then '0' :: c :: r else c :: r := rfl

/-- Rendering an integer magnitude in any spec-listed format and running the
parser branch chain reads the magnitude back, except the two broken zero
renderings 0b / 0o, which are excluded. -/
theorem parseCore_renderMag : ∀ (f : NumFmt) (m : Nat),
    ¬(m = 0 ∧ (f = NumFmt.binSuffB ∨ f = NumFmt.octSuffO)) →
    parseCore (renderMag f m) = some (m : Int) := by
  intro f m hexcl
  cases f with
  | hexPre0x =>
    show parseCore ('0' :: 'x' :: natDigits 16 m) = _
    unfold parseCore
    rw [startsLower2_cc, if_pos (by decide)]
    exact pyInt16_marked 'x' rfl m
  | hexPre0X =>
    show parseCore ('0' :: 'X' :: natDigits 16 m) = _
    unfold parseCore
    rw [startsLower2_cc, if_pos (by decide)]
    exact pyInt16_marked 'X' (by decide) m
  | hexPre0h =>
    obtain ⟨k0, rest, hk0, hd⟩ := natDigits_head 16 m (by omega) (by omega)
    show parseCore ('0' :: 'h' :: natDigits 16 m) = _
    rw [hd]
    unfold parseCore
    rw [startsLower2_cc, if_neg (by decide), markGt2_ccc, if_pos (by decide)]
    rw [show List.drop 2 ('0' :: 'h' :: digitCh k0 :: rest) = digitCh k0 :: rest from rfl, ← hd]
    exact pyInt_natDigits 16 m (by omega) (by omega)
  | hexSuffH =>
    rcases natDigits_cases 16 m (by omega) (by omega) with ⟨h0, hds⟩ | ⟨hpos, k0, rest, hk0p, hk0, hd⟩
    · show parseCore (padHex (natDigits 16 m) ++ ['h']) = _
      rw [hds, h0]
      decide
    · obtain ⟨hne, hchars, _, _, _⟩ := natDigits_props 16 m (by omega) (by omega)
      have hbq := digitBeq16 k0 hk0
      show parseCore (padHex (natDigits 16 m) ++ ['h']) = _
      rw [hd, padHex_cons]
      rcases hhl : isHexLetter (digitCh k0) with _ | _
      · -- unpadded: first digit 0-9 and nonzero
        have hk010 : k0 < 10 := by
          by_contra hcon
          rw [hbq.2.2.2.2.2, decide_eq_true (by omega : 10 ≤ k0)] at hhl
          exact absurd hhl (by decide)
        have hq0 := digitBeq10 k0 hk010
        have h00 : (digitCh k0 == '0') = false := by
          rw [hq0.2.2.2.2.2.2.2.2.1]
          exact decide_eq_false (by omega)
        have h00l : (lowerCh (digitCh k0) == '0') = false := by
          rw [hq0.2.2.2.2.2.2.2.2.2.1]
          exact decide_eq_false (by omega)
        rw [if_neg (by decide : ¬ (false = true)), List.cons_append]
        obtain ⟨hf1, hf2, hf3, hf4, hf5, hf6, hf7, hf8⟩ :=
          frontFalse (digitCh k0) (rest ++ ['h']) h00 h00l hq0.2.2.2.2.2.2.2.1
        unfold parseCore
        rw [if_neg (neTrue hf1), if_neg (neTrue hf2), ← List.cons_append,
          endsLower_concat, if_pos (by decide), List.dropLast_concat]
        show (if isHexLetter (digitCh k0) = true then none
          else pyInt 16 (digitCh k0 :: rest)) = _
        rw [if_neg (neTrue hhl), ← hd]
        exact pyInt_natDigits 16 m (by omega) (by omega)
      · -- padded with a leading zero
        rw [if_pos (rfl : (true : Bool) = true), List.cons_append, List.cons_append]
        obtain ⟨z, t1, hzt⟩ : ∃ z t1, rest ++ ['h'] = z :: t1 := by
          cases rest with
          | nil => exact ⟨'h', [], rfl⟩
          | cons a l => exact ⟨a, l ++ ['h'], rfl⟩
        unfold parseCore
        rw [hzt, startsLower2_cc, if_neg (by simp [hbq.1]), markGt2_ccc,
          if_neg (by simp [hbq.2.1]), ← hzt, ← List.cons_append, ← List.cons_append,
          endsLower_concat, if_pos (by decide), List.dropLast_concat]
        show (if isHexLetter '0' = true then none
          else pyInt 16 ('0' :: digitCh k0 :: rest)) = _
        rw [if_neg (by decide), ← hd]
        exact pyInt16_zeroPad m
  | hexDollar =>
    obtain ⟨k0, rest, hk0, hd⟩ := natDigits_head 16 m (by omega) (by omega)
    obtain ⟨hne, hchars, _, _, _⟩ := natDigits_props 16 m (by omega) (by omega)
    obtain ⟨kl, hkl, hlast⟩ := getLast_digit 16 _ hne hchars
    show parseCore ('$' :: '0' :: natDigits 16 m) = _
    have hendh : endsLower ('$' :: '0' :: natDigits 16 m) 'h' = false := by
      apply endsLower_digitLast16 _ kl hkl
      rw [getLast?_cc _ _ _ hne]
      exact hlast
    rw [hd]
    unfold parseCore
    rw [startsLower2_cc, if_neg (by decide), markGt2_ccc, if_neg (by decide)]
    rw [← hd, if_neg (neTrue hendh), hd]
    have hdt : (('$' :: '0' :: digitCh k0 :: rest).head? == some '$') = true := rfl
    rw [if_pos hdt]
    show (if isHexLetter '0' = true then none
      else pyInt 16 ('0' :: digitCh k0 :: rest)) = _
    rw [if_neg (by decide), ← hd]
    exact pyInt16_zeroPad m
  | binPre0b =>
    obtain ⟨k0, rest, hk0, hd⟩ := natDigits_head 2 m (by omega) (by omega)
    obtain ⟨hne, hchars, _, _, _⟩ := natDigits_props 2 m (by omega) (by omega)
    obtain ⟨kl, hkl, hlast⟩ := getLast_digit 2 _ hne hchars
    show parseCore ('0' :: 'b' :: natDigits 2 m) = _
    have hendh : endsLower ('0' :: 'b' :: natDigits 2 m) 'h' = false := by
      refine (endsLower_digitLast10 _ kl (by omega) ?_).1
      rw [getLast?_cc _ _ _ hne]
      exact hlast
    rw [hd]
    unfold parseCore
    rw [startsLower2_cc, if_neg (by decide), markGt2_ccc, if_neg (by decide)]
    rw [← hd, if_neg (neTrue hendh), hd]
    have hdf : (('0' :: 'b' :: digitCh k0 :: rest).head? == some '$') = false := rfl
    rw [if_neg (neTrue hdf), startsLower2_cc, if_pos (by decide)]
    rw [show List.drop 2 ('0' :: 'b' :: digitCh k0 :: rest) = digitCh k0 :: rest from rfl, ← hd]
    exact pyInt_natDigits 2 m (by omega) (by omega)
  | binPre0y =>
    obtain ⟨k0, rest, hk0, hd⟩ := natDigits_head 2 m (by omega) (by omega)
    obtain ⟨hne, hchars, _, _, _⟩ := natDigits_props 2 m (by omega) (by omega)
    obtain ⟨kl, hkl, hlast⟩ := getLast_digit 2 _ hne hchars
    show parseCore ('0' :: 'y' :: natDigits 2 m) = _
    have hendh : endsLower ('0' :: 'y' :: natDigits 2 m) 'h' = false := by
      refine (endsLower_digitLast10 _ kl (by omega) ?_).1
      rw [getLast?_cc _ _ _ hne]
      exact hlast
    rw [hd]
    unfold parseCore
    rw [startsLower2_cc, if_neg (by decide), markGt2_ccc, if_neg (by decide)]
    rw [← hd, if_neg (neTrue hendh), hd]
    have hdf : (('0' :: 'y' :: digitCh k0 :: rest).head? == some '$') = false := rfl
    rw [if_neg (neTrue hdf), startsLower2_cc, if_neg (by decide), markGt2_ccc,
      if_pos (by decide)]
    rw [show List.drop 2 ('0' :: 'y' :: digitCh k0 :: rest) = digitCh k0 :: rest from rfl, ← hd]
    exact pyInt_natDigits 2 m (by omega) (by omega)
  | binSuffB =>
    have hpos : 0 < m := by
      rcases Nat.eq_zero_or_pos m with h0 | h
      · exact absurd ⟨h0, Or.inl rfl⟩ hexcl
      · exact h
    rcases natDigits_cases 2 m (by omega) (by omega) with ⟨h0, _⟩ | ⟨_, k0, rest, hk0p, hk0, hd⟩
    · omega
    · have hq0 := digitBeq10 k0 (by omega)
      have h00 : (digitCh k0 == '0') = false := by
        rw [hq0.2.2.2.2.2.2.2.2.1]; exact decide_eq_false (by omega)
      have h00l : (lowerCh (digitCh k0) == '0') = false := by
        rw [hq0.2.2.2.2.2.2.2.2.2.1]; exact decide_eq_false (by omega)
      show parseCore (natDigits 2 m ++ ['b']) = _
      rw [hd, List.cons_append]
      obtain ⟨hf1, hf2, hf3, hf4, hf5, hf6, hf7, hf8⟩ :=
        frontFalse (digitCh k0) (rest ++ ['b']) h00 h00l hq0.2.2.2.2.2.2.2.1
      unfold parseCore
      rw [if_neg (neTrue hf1), if_neg (neTrue hf2), ← List.cons_append, endsLower_concat,
        if_neg (by decide), List.cons_append, if_neg (neTrue hf3), if_neg (neTrue hf4),
        if_neg (neTrue hf5), ← List.cons_append, endsLower_concat, if_pos (by decide),
        List.dropLast_concat, ← hd]
      exact pyInt_natDigits 2 m (by omega) (by omega)
  | binSuffY =>
    rcases natDigits_cases 2 m (by omega) (by omega) with ⟨h0, hds⟩ | ⟨_, k0, rest, hk0p, hk0, hd⟩
    · show parseCore (natDigits 2 m ++ ['y']) = _
      rw [hds, h0]
      decide
    · have hq0 := digitBeq10 k0 (by omega)
      have h00 : (digitCh k0 == '0') = false := by
        rw [hq0.2.2.2.2.2.2.2.2.1]; exact decide_eq_false (by omega)
      have h00l : (lowerCh (digitCh k0) == '0') = false := by
        rw [hq0.2.2.2.2.2.2.2.2.2.1]; exact decide_eq_false (by omega)
      show parseCore (natDigits 2 m ++ ['y']) = _
      rw [hd, List.cons_append]
      obtain ⟨hf1, hf2, hf3, hf4, hf5, hf6, hf7, hf8⟩ :=
        frontFalse (digitCh k0) (rest ++ ['y']) h00 h00l hq0.2.2.2.2.2.2.2.1
      unfold parseCore
      rw [if_neg (neTrue hf1), if_neg (neTrue hf2), ← List.cons_append, endsLower_concat,
        if_neg (by decide), List.cons_append, if_neg (neTrue hf3), if_neg (neTrue hf4),
        if_neg (neTrue hf5), ← List.cons_append, endsLower_concat, if_neg (by decide),
        List.cons_append, ← List.cons_append, endsLower_concat, if_pos (by decide),
        List.dropLast_concat, ← hd]
      exact pyInt_natDigits 2 m (by omega) (by omega)
  | octPre0o =>
    obtain ⟨k0, rest, hk0, hd⟩ := natDigits_head 8 m (by omega) (by omega)
    obtain ⟨hne, hchars, _, _, _⟩ := natDigits_props 8 m (by omega) (by omega)
    obtain ⟨kl, hkl, hlast⟩ := getLast_digit 8 _ hne hchars
    have hl10 := endsLower_digitLast10 ('0' :: 'o' :: natDigits 8 m) kl (by omega)
      (by rw [getLast?_cc _ _ _ hne]; exact hlast)
    show parseCore ('0' :: 'o' :: natDigits 8 m) = _
    rw [hd] at hl10 ⊢
    unfold parseCore
    rw [startsLower2_cc, if_neg (by decide), markGt2_ccc, if_neg (by decide),
      if_neg (neTrue hl10.1),
      if_neg (neTrue (rfl : (('0' :: 'o' :: digitCh k0 :: rest).head? == some '$') = false)),
      startsLower2_cc, if_neg (by decide),
      markGt2_ccc, if_neg (by decide), if_neg (neTrue hl10.2.1), if_neg (neTrue hl10.2.2.1),
      startsLower2_cc, if_pos (by decide)]
    rw [show List.drop 2 ('0' :: 'o' :: digitCh k0 :: rest) = digitCh k0 :: rest from rfl, ← hd]
    exact pyInt_natDigits 8 m (by omega) (by omega)
  | octPre0q =>
    obtain ⟨k0, rest, hk0, hd⟩ := natDigits_head 8 m (by omega) (by omega)
    obtain ⟨hne, hchars, _, _, _⟩ := natDigits_props 8 m (by omega) (by omega)
    obtain ⟨kl, hkl, hlast⟩ := getLast_digit 8 _ hne hchars
    have hl10 := endsLower_digitLast10 ('0' :: 'q' :: natDigits 8 m) kl (by omega)
      (by rw [getLast?_cc _ _ _ hne]; exact hlast)
    show parseCore ('0' :: 'q' :: natDigits 8 m) = _
    rw [hd] at hl10 ⊢
    unfold parseCore
    rw [startsLower2_cc, if_neg (by decide), markGt2_ccc, if_neg (by decide),
      if_neg (neTrue hl10.1),
      if_neg (neTrue (rfl : (('0' :: 'q' :: digitCh k0 :: rest).head? == some '$') = false)),
      startsLower2_cc, if_neg (by decide),
      markGt2_ccc, if_neg (by decide), if_neg (neTrue hl10.2.1), if_neg (neTrue hl10.2.2.1),
      startsLower2_cc, if_neg (by decide), markGt2_ccc, if_pos (by decide)]
    rw [show List.drop 2 ('0' :: 'q' :: digitCh k0 :: rest) = digitCh k0 :: rest from rfl, ← hd]
    exact pyInt_natDigits 8 m (by omega) (by omega)
  | octSuffQ =>
    rcases natDigits_cases 8 m (by omega) (by omega) with ⟨h0, hds⟩ | ⟨_, k0, rest, hk0p, hk0, hd⟩
    · show parseCore (natDigits 8 m ++ ['q']) = _
      rw [hds, h0]
      decide
    · have hq0 := digitBeq10 k0 (by omega)
      have h00 : (digitCh k0 == '0') = false := by
        rw [hq0.2.2.2.2.2.2.2.2.1]; exact decide_eq_false (by omega)
      have h00l : (lowerCh (digitCh k0) == '0') = false := by
        rw [hq0.2.2.2.2.2.2.2.2.2.1]; exact decide_eq_false (by omega)
      show parseCore (natDigits 8 m ++ ['q']) = _
      rw [hd, List.cons_append]
      obtain ⟨hf1, hf2, hf3, hf4, hf5, hf6, hf7, hf8⟩ :=
        frontFalse (digitCh k0) (rest ++ ['q']) h00 h00l hq0.2.2.2.2.2.2.2.1
      unfold parseCore
      rw [if_neg (neTrue hf1), if_neg (neTrue hf2), ← List.cons_append, endsLower_concat,
        if_neg (by decide), List.cons_append, if_neg (neTrue hf3), if_neg (neTrue hf4),
        if_neg (neTrue hf5), ← List.cons_append, endsLower_concat, if_neg (by decide),
        List.cons_append, ← List.cons_append, endsLower_concat, if_neg (by decide),
        List.cons_append, if_neg (neTrue hf6), if_neg (neTrue hf7), ← List.cons_append,
        endsLower_concat, if_pos (by decide), List.dropLast_concat, ← hd]
      exact pyInt_natDigits 8 m (by omega) (by omega)
  | octSuffO =>
    have hpos : 0 < m := by
      rcases Nat.eq_zero_or_pos m with h0 | h
      · exact absurd ⟨h0, Or.inr rfl⟩ hexcl
      · exact h
    rcases natDigits_cases 8 m (by omega) (by omega) with ⟨h0, _⟩ | ⟨_, k0, rest, hk0p, hk0, hd⟩
    · omega
    · have hq0 := digitBeq10 k0 (by omega)
      have h00 : (digitCh k0 == '0') = false := by
        rw [hq0.2.2.2.2.2.2.2.2.1]; exact decide_eq_false (by omega)
      have h00l : (lowerCh (digitCh k0) == '0') = false := by
        rw [hq0.2.2.2.2.2.2.2.2.2.1]; exact decide_eq_false (by omega)
      show parseCore (natDigits 8 m ++ ['o']) = _
      rw [hd, List.cons_append]
      obtain ⟨hf1, hf2, hf3, hf4, hf5, hf6, hf7, hf8⟩ :=
        frontFalse (digitCh k0) (rest ++ ['o']) h00 h00l hq0.2.2.2.2.2.2.2.1
      unfold parseCore
      rw [if_neg (neTrue hf1), if_neg (neTrue hf2), ← List.cons_append, endsLower_concat,
        if_neg (by decide), List.cons_append, if_neg (neTrue hf3), if_neg (neTrue hf4),
        if_neg (neTrue hf5), ← List.cons_append, endsLower_concat, if_neg (by decide),
        List.cons_append, ← List.cons_append, endsLower_concat, if_neg (by decide),
        List.cons_append, if_neg (neTrue hf6), if_neg (neTrue hf7), ← List.cons_append,
        endsLower_concat, if_neg (by decide), List.cons_append, ← List.cons_append,
        endsLower_concat, if_pos (by decide), List.dropLast_concat, ← hd]
      exact pyInt_natDigits 8 m (by omega) (by omega)
  | decPre0d =>
    obtain ⟨k0, rest, hk0, hd⟩ := natDigits_head 10 m (by omega) (by omega)
    obtain ⟨hne, hchars, _, _, _⟩ := natDigits_props 10 m (by omega) (by omega)
    obtain ⟨kl, hkl, hlast⟩ := getLast_digit 10 _ hne hchars
    have hl10 := endsLower_digitLast10 ('0' :: 'd' :: natDigits 10 m) kl hkl
      (by rw [getLast?_cc _ _ _ hne]; exact hlast)
    show parseCore ('0' :: 'd' :: natDigits 10 m) = _
    rw [hd] at hl10 ⊢
    unfold parseCore
    rw [startsLower2_cc, if_neg (by decide), markGt2_ccc, if_neg (by decide),
      if_neg (neTrue hl10.1),
      if_neg (neTrue (rfl : (('0' :: 'd' :: digitCh k0 :: rest).head? == some '$') = false)),
      startsLower2_cc, if_neg (by decide),
      markGt2_ccc, if_neg (by decide), if_neg (neTrue hl10.2.1), if_neg (neTrue hl10.2.2.1),
      startsLower2_cc, if_neg (by decide), markGt2_ccc, if_neg (by decide),
      if_neg (neTrue hl10.2.2.2.1), if_neg (neTrue hl10.2.2.2.2.1), markGt2_ccc,
      if_pos (by decide)]
    rw [show List.drop 2 ('0' :: 'd' :: digitCh k0 :: rest) = digitCh k0 :: rest from rfl, ← hd]
    exact pyInt_natDigits 10 m (by omega) (by omega)
  | decSuffD =>
    rcases natDigits_cases 10 m (by omega) (by omega) with ⟨h0, hds⟩ | ⟨_, k0, rest, hk0p, hk0, hd⟩
    · show parseCore (natDigits 10 m ++ ['d']) = _
      rw [hds, h0]
      decide
    · have hq0 := digitBeq10 k0 hk0
      have h00 : (digitCh k0 == '0') = false := by
        rw [hq0.2.2.2.2.2.2.2.2.1]; exact decide_eq_false (by omega)
      have h00l : (lowerCh (digitCh k0) == '0') = false := by
        rw [hq0.2.2.2.2.2.2.2.2.2.1]; exact decide_eq_false (by omega)
      show parseCore (natDigits 10 m ++ ['d']) = _
      rw [hd, List.cons_append]
      obtain ⟨hf1, hf2, hf3, hf4, hf5, hf6, hf7, hf8⟩ :=
        frontFalse (digitCh k0) (rest ++ ['d']) h00 h00l hq0.2.2.2.2.2.2.2.1
      unfold parseCore
      rw [if_neg (neTrue hf1), if_neg (neTrue hf2), ← List.cons_append, endsLower_concat,
        if_neg (by decide), List.cons_append, if_neg (neTrue hf3), if_neg (neTrue hf4),
        if_neg (neTrue hf5), ← List.cons_append, endsLower_concat, if_neg (by decide),
        List.cons_append, ← List.cons_append, endsLower_concat, if_neg (by decide),
        List.cons_append, if_neg (neTrue hf6), if_neg (neTrue hf7), ← List.cons_append,
        endsLower_concat, if_neg (by decide), List.cons_append, ← List.cons_append,
        endsLower_concat, if_neg (by decide), List.cons_append, if_neg (neTrue hf8),
        ← List.cons_append, endsLower_concat, if_pos (by decide),
        List.dropLast_concat, ← hd]
      exact pyInt_natDigits 10 m (by omega) (by omega)
  | decPlain =>
    rcases natDigits_cases 10 m (by omega) (by omega) with ⟨h0, hds⟩ | ⟨_, k0, rest, hk0p, hk0, hd⟩
    · show parseCore (natDigits 10 m) = _
      rw [hds, h0]
      decide
    · obtain ⟨hne, hchars, _, _, _⟩ := natDigits_props 10 m (by omega) (by omega)
      obtain ⟨kl, hkl, hlast⟩ := getLast_digit 10 _ hne hchars
      have hl10 := endsLower_digitLast10 (natDigits 10 m) kl hkl hlast
      have hq0 := digitBeq10 k0 hk0
      have h00 : (digitCh k0 == '0') = false := by
        rw [hq0.2.2.2.2.2.2.2.2.1]; exact decide_eq_false (by omega)
      have h00l : (lowerCh (digitCh k0) == '0') = false := by
        rw [hq0.2.2.2.2.2.2.2.2.2.1]; exact decide_eq_false (by omega)
      show parseCore (natDigits 10 m) = _
      rw [hd] at hl10 ⊢
      obtain ⟨hf1, hf2, hf3, hf4, hf5, hf6, hf7, hf8⟩ :=
        frontFalse (digitCh k0) rest h00 h00l hq0.2.2.2.2.2.2.2.1
      unfold parseCore
      rw [if_neg (neTrue hf1), if_neg (neTrue hf2), if_neg (neTrue hl10.1),
        if_neg (neTrue hf3), if_neg (neTrue hf4), if_neg (neTrue hf5),
        if_neg (neTrue hl10.2.1), if_neg (neTrue hl10.2.2.1), if_neg (neTrue hf6),
        if_neg (neTrue hf7), if_neg (neTrue hl10.2.2.2.1), if_neg (neTrue hl10.2.2.2.2.1),
        if_neg (neTrue hf8), if_neg (neTrue hl10.2.2.2.2.2), ← hd]
      exact pyInt_natDigits 10 m (by omega) (by omega)

end TASM

namespace TASM

theorem natDigits_clean (b m : Nat) (hb : 2 ≤ b) (hb16 : b ≤ 16) :
    ∀ c ∈ natDigits b m, isPySpace c = false ∧ c ≠ '_' ∧ c ≠ '+' ∧ c ≠ '-' := by
  obtain ⟨_, hchars, _, _, _⟩ := natDigits_props b m hb hb16
  intro c hc
  obtain ⟨k, hk, hck⟩ := hchars c hc
  subst hck
  have hf := digitCh_facts16 k (lt_of_lt_of_le hk hb16)
  exact ⟨hf.2.2.2.2.2.2.2.1, hf.2.2.2.1, hf.2.1, hf.2.2.1⟩

theorem padHex_mem (ds : Str) (c : Char) (hc : c ∈ padHex ds) : c = '0' ∨ c ∈ ds := by
  cases ds with
  | nil => simp [padHex] at hc
  | cons d r =>
    rw [padHex_cons] at hc
    by_cases h : isHexLetter (d :: r).head!
    all_goals
      rcases hhl : isHexLetter d with _ | _ <;> rw [hhl] at hc
      · simp at hc; exact Or.inr (by simpa using hc)
      · simp at hc
        rcases hc with h0 | h1
        · exact Or.inl h0
        · exact Or.inr (by simpa using h1)

theorem renderMag_clean (f : NumFmt) (m : Nat) :
    ∀ c ∈ renderMag f m, isPySpace c = false ∧ c ≠ '_' := by
  have h16 := natDigits_clean 16 m (by omega) (by omega)
  have h2 := natDigits_clean 2 m (by omega) (by omega)
  have h8 := natDigits_clean 8 m (by omega) (by omega)
  have h10 := natDigits_clean 10 m (by omega) (by omega)
  cases f <;> intro c hc <;> simp only [renderMag, List.mem_cons, List.mem_append,
    List.mem_singleton, List.mem_nil_iff, or_false] at hc
  case hexSuffH =>
    rcases hc with hpad | hch
    · rcases padHex_mem _ _ hpad with h0 | hds
      · subst h0; exact ⟨rfl, by decide⟩
      · exact ⟨(h16 c hds).1, (h16 c hds).2.1⟩
    · subst hch; exact ⟨rfl, by decide⟩
  all_goals
    first
    | (rcases hc with h0 | h1 | hds
       · subst h0; exact ⟨rfl, by decide⟩
       · subst h1; exact ⟨rfl, by decide⟩
       · first
         | exact ⟨(h16 c hds).1, (h16 c hds).2.1⟩
         | exact ⟨(h2 c hds).1, (h2 c hds).2.1⟩
         | exact ⟨(h8 c hds).1, (h8 c hds).2.1⟩
         | exact ⟨(h10 c hds).1, (h10 c hds).2.1⟩)
    | (rcases hc with hds | hch
       · first
         | exact ⟨(h2 c hds).1, (h2 c hds).2.1⟩
         | exact ⟨(h8 c hds).1, (h8 c hds).2.1⟩
         | exact ⟨(h10 c hds).1, (h10 c hds).2.1⟩
       · subst hch; exact ⟨rfl, by decide⟩)
    | (exact ⟨(h10 c hc).1, (h10 c hc).2.1⟩)

theorem dropWhile_eq_self_of (p : Char → Bool) (s : Str) (h : ∀ c ∈ s, p c = false) :
    s.dropWhile p = s := by
  cases s with
  | nil => rfl
  | cons c t =>
    rw [List.dropWhile_cons, h c (List.mem_cons_self c t)]
    simp

theorem pyStrip_eq_self (s : Str) (h : ∀ c ∈ s, isPySpace c = false) : pyStrip s = s := by
  unfold pyStrip
  rw [dropWhile_eq_self_of _ _ h,
    dropWhile_eq_self_of _ _ (fun c hc => h c (List.mem_reverse.mp hc)), List.reverse_reverse]

theorem filter_underscore_eq (s : Str) (h : ∀ c ∈ s, c ≠ '_') :
    s.filter (fun c => c != '_') = s := by
  apply List.filter_eq_self.mpr
  intro a ha
  simpa using h a ha

theorem renderMag_ne_nil (f : NumFmt) (m : Nat) : renderMag f m ≠ [] := by
  have h16 : natDigits 16 m ≠ [] := (natDigits_props 16 m (by omega) (by omega)).1
  have h2 : natDigits 2 m ≠ [] := (natDigits_props 2 m (by omega) (by omega)).1
  have h8 : natDigits 8 m ≠ [] := (natDigits_props 8 m (by omega) (by omega)).1
  have h10 : natDigits 10 m ≠ [] := (natDigits_props 10 m (by omega) (by omega)).1
  cases f <;> simp [renderMag]
  all_goals first | exact h2 | exact h8 | exact h10

theorem nparse_renderMag (f : NumFmt) (m : Nat)
    (hex : ¬(m = 0 ∧ (f = NumFmt.binSuffB ∨ f = NumFmt.octSuffO))) :
    nparse (renderMag f m) = some (m : Int) := by
  have hclean := renderMag_clean f m
  unfold nparse
  rw [pyStrip_eq_self _ (fun c hc => (hclean c hc).1),
    if_neg (renderMag_ne_nil f m),
    filter_underscore_eq _ (fun c hc => (hclean c hc).2)]
  exact parseCore_renderMag f m hex

theorem renderMag_head (f : NumFmt) (m : Nat) :
    ∃ c t, renderMag f m = c :: t ∧ c ≠ '+' ∧ c ≠ '-' := by
  rcases f
  case hexSuffH =>
    obtain ⟨k0, rest, hk0, hd⟩ := natDigits_head 16 m (by omega) (by omega)
    have hf := digitCh_facts16 k0 hk0
    show ∃ c t, padHex (natDigits 16 m) ++ ['h'] = c :: t ∧ _
    rw [hd, padHex_cons]
    rcases hhl : isHexLetter (digitCh k0) with _ | _
    · exact ⟨digitCh k0, rest ++ ['h'], by simp, hf.2.1, hf.2.2.1⟩
    · exact ⟨'0', digitCh k0 :: rest ++ ['h'], by simp, by decide, by decide⟩
  case binSuffB =>
    obtain ⟨k0, rest, hk0, hd⟩ := natDigits_head 2 m (by omega) (by omega)
    have hf := digitCh_facts16 k0 (by omega)
    exact ⟨digitCh k0, rest ++ ['b'], by simp [renderMag, hd], hf.2.1, hf.2.2.1⟩
  case binSuffY =>
    obtain ⟨k0, rest, hk0, hd⟩ := natDigits_head 2 m (by omega) (by omega)
    have hf := digitCh_facts16 k0 (by omega)
    exact ⟨digitCh k0, rest ++ ['y'], by simp [renderMag, hd], hf.2.1, hf.2.2.1⟩
  case octSuffQ =>
    obtain ⟨k0, rest, hk0, hd⟩ := natDigits_head 8 m (by omega) (by omega)
    have hf := digitCh_facts16 k0 (by omega)
    exact ⟨digitCh k0, rest ++ ['q'], by simp [renderMag, hd], hf.2.1, hf.2.2.1⟩
  case octSuffO =>
    obtain ⟨k0, rest, hk0, hd⟩ := natDigits_head 8 m (by omega) (by omega)
    have hf := digitCh_facts16 k0 (by omega)
    exact ⟨digitCh k0, rest ++ ['o'], by simp [renderMag, hd], hf.2.1, hf.2.2.1⟩
  case decSuffD =>
    obtain ⟨k0, rest, hk0, hd⟩ := natDigits_head 10 m (by omega) (by omega)
    have hf := digitCh_facts16 k0 (by omega)
    exact ⟨digitCh k0, rest ++ ['d'], by simp [renderMag, hd], hf.2.1, hf.2.2.1⟩
  case decPlain =>
    obtain ⟨k0, rest, hk0, hd⟩ := natDigits_head 10 m (by omega) (by omega)
    have hf := digitCh_facts16 k0 (by omega)
    exact ⟨digitCh k0, rest, by simp [renderMag, hd], hf.2.1, hf.2.2.1⟩
  case hexDollar =>
    exact ⟨'$', '0' :: natDigits 16 m, rfl, by decide, by decide⟩
  all_goals
    first
    | exact ⟨'0', 'x' :: natDigits 16 m, rfl, by decide, by decide⟩
    | exact ⟨'0', 'X' :: natDigits 16 m, rfl, by decide, by decide⟩
    | exact ⟨'0', 'h' :: natDigits 16 m, rfl, by decide, by decide⟩
    | exact ⟨'0', 'b' :: natDigits 2 m, rfl, by decide, by decide⟩
    | exact ⟨'0', 'y' :: natDigits 2 m, rfl, by decide, by decide⟩
    | exact ⟨'0', 'o' :: natDigits 8 m, rfl, by decide, by decide⟩
    | exact ⟨'0', 'q' :: natDigits 8 m, rfl, by decide, by decide⟩
    | exact ⟨'0', 'd' :: natDigits 10 m, rfl, by decide, by decide⟩

end TASM

namespace TASM

theorem nparseSigned_eval (s : Str) (c : Char) (t : Str) (h : pyStrip s = c :: t) :
    nparseSigned s =
      if c = '+' then nparse t
      else if c = '-' then (nparse t).map (fun z => -z)
      else nparse (c :: t) := by
  unfold nparseSigned
  rw [h]

/-- C1 (amended): numeric round-trip for every format except the two broken
zero renderings. -/
theorem C1_numeric_roundtrip (f : NumFmt) (n : Int)
    (hlo : -(2 ^ 31) ≤ n) (hhi : n < 2 ^ 31)
    (hex : ¬(n = 0 ∧ (f = NumFmt.binSuffB ∨ f = NumFmt.octSuffO))) :
    nparseSigned (render f n) = some n ∧
    (0 ≤ n → nparseSigned ('+' :: renderMag f n.toNat) = some n) := by
  have hclean := renderMag_clean f n.natAbs
  constructor
  · by_cases hneg : n < 0
    · have hmag : ¬(n.natAbs = 0 ∧ (f = NumFmt.binSuffB ∨ f = NumFmt.octSuffO)) := by
        rintro ⟨h0, _⟩
        omega
      unfold render
      rw [if_pos hneg]
      have hps : pyStrip ('-' :: renderMag f n.natAbs) = '-' :: renderMag f n.natAbs := by
        apply pyStrip_eq_self
        intro c hc
        rcases List.mem_cons.mp hc with h | h
        · subst h; rfl
        · exact (hclean c h).1
      rw [nparseSigned_eval _ '-' _ hps, if_neg (by decide), if_pos rfl,
        nparse_renderMag f n.natAbs hmag]
      show some (-(n.natAbs : Int)) = some n
      congr 1
      omega
    · have hmag : ¬(n.natAbs = 0 ∧ (f = NumFmt.binSuffB ∨ f = NumFmt.octSuffO)) := by
        rintro ⟨h0, hor⟩
        exact hex ⟨by omega, hor⟩
      unfold render
      rw [if_neg hneg]
      obtain ⟨c, t, hct, hcp, hcm⟩ := renderMag_head f n.natAbs
      have hps : pyStrip (renderMag f n.natAbs) = c :: t := by
        rw [pyStrip_eq_self _ (fun c hc => (hclean c hc).1)]
        exact hct
      rw [nparseSigned_eval _ c t hps, if_neg hcp, if_neg hcm, ← hct,
        nparse_renderMag f n.natAbs hmag]
      congr 1
      omega
  · intro hnn
    have hmag : ¬(n.toNat = 0 ∧ (f = NumFmt.binSuffB ∨ f = NumFmt.octSuffO)) := by
      rintro ⟨h0, hor⟩
      exact hex ⟨by omega, hor⟩
    have hclean' := renderMag_clean f n.toNat
    have hps : pyStrip ('+' :: renderMag f n.toNat) = '+' :: renderMag f n.toNat := by
      apply pyStrip_eq_self
      intro c hc
      rcases List.mem_cons.mp hc with h | h
      · subst h; rfl
      · exact (hclean' c h).1
    rw [nparseSigned_eval _ '+' _ hps, if_pos rfl, nparse_renderMag f n.toNat hmag]
    congr 1
    omega

/-- C1 counterexample: the claim as frozen fails at n = 0 for the trailing-b
and trailing-o formats; the renderings 0b and 0o are read as empty-digit
prefix forms and rejected. -/
theorem C1_counterexample :
    render NumFmt.binSuffB 0 = ['0', 'b'] ∧ nparseSigned (render NumFmt.binSuffB 0) = none ∧
    render NumFmt.octSuffO 0 = ['0', 'o'] ∧ nparseSigned (render NumFmt.octSuffO 0) = none ∧
    (-(2 ^ 31) : Int) ≤ 0 ∧ (0 : Int) < 2 ^ 31 := by
  refine ⟨by decide, by decide, by decide, by decide, by decide, by decide⟩

/-- C1 witness: the round-trip theorem applied at n = -202, hex 0x format. -/
theorem C1_witness :
    nparseSigned (render NumFmt.hexPre0x (-202)) = some (-202) ∧
    (0 ≤ (-202 : Int) → nparseSigned ('+' :: renderMag NumFmt.hexPre0x (-202 : Int).toNat) = some (-202)) :=
  C1_numeric_roundtrip NumFmt.hexPre0x (-202) (by norm_num) (by norm_num) (by simp)

end TASM

namespace TASM

/-! ## C7: linker convergence loop (Linker._optimize_instruction_sizes).
The loop body (re-encoding all instructions against the current label map and
relayouting) is abstracted by an oracle `changed : Nat → Bool` reporting
whether iteration k changed any instruction size; the claim is purely about
the loop policy around that body. -/

/-- The while loop of _optimize_instruction_sizes: iteration counter starts
at 0, runs while iteration < 10, increments first, and breaks when the pass
saw no size change and at least two passes have run. Returns the final
iteration count and whether the loop exited via the convergence break. -/
def optLoopGo (changed : Nat → Bool) : Nat → Nat → Nat × Bool
  | iteration, 0 => (iteration, false)
  | iteration, fuel + 1 =>
    if iteration < 10 then
      let it := iteration + 1
      if changed it = false ∧ 2 ≤ it then (it, true)
      else optLoopGo changed it fuel
    else (iteration, false)

/-- Result of the optimization phase: iterations run, whether convergence was
declared, whether the post-loop warning fired, and the returned status. -/
structure OptRun where
  iterations : Nat
  converged : Bool
  warned : Bool
  result : Bool
  deriving Repr, DecidableEq

/-- Linker._optimize_instruction_sizes, loop-policy level: max_iterations is
10, the warning fires when the loop ends with iteration ≥ 10, and the
function returns True unconditionally. -/
def optimizeInstructionSizes (changed : Nat → Bool) : OptRun :=
  let p := optLoopGo changed 0 11
  { iterations := p.1, converged := p.2, warned := decide (10 ≤ p.1), result := true }

theorem optLoopGo_spec (changed : Nat → Bool) : ∀ (fuel it : Nat),
    it ≤ 10 → 10 ≤ it + fuel →
    it ≤ (optLoopGo changed it fuel).1 ∧ (optLoopGo changed it fuel).1 ≤ 10 ∧
    ((optLoopGo changed it fuel).2 = true →
      changed (optLoopGo changed it fuel).1 = false ∧ 2 ≤ (optLoopGo changed it fuel).1) ∧
    ((optLoopGo changed it fuel).2 = false → (optLoopGo changed it fuel).1 = 10) := by
  intro fuel
  induction fuel with
  | zero =>
    intro it h10 hge
    have hit : it = 10 := by omega
    subst hit
    unfold optLoopGo
    exact ⟨le_refl _, le_refl _, fun h => Bool.noConfusion h, fun _ => rfl⟩
  | succ fuel ih =>
    intro it h10 hge
    unfold optLoopGo
    by_cases hlt : it < 10
    · rw [if_pos hlt]
      by_cases hbr : changed (it + 1) = false ∧ 2 ≤ it + 1
      · rw [if_pos hbr]
        exact ⟨by omega, by omega, fun _ => hbr, fun h => Bool.noConfusion h⟩
      · rw [if_neg hbr]
        have := ih (it + 1) (by omega) (by omega)
        exact ⟨by omega, this.2.1, this.2.2.1, this.2.2.2⟩
    · rw [if_neg hlt]
      exact ⟨le_refl _, by omega, fun h => Bool.noConfusion h, fun _ => by omega⟩

/-- C7: the convergence loop runs at most 10 iterations; it declares
convergence only after a no-change iteration with at least two iterations
run; and when the cap is reached without convergence it warns and the phase
still returns success. -/
theorem C7_convergence_loop (changed : Nat → Bool) :
    (optimizeInstructionSizes changed).iterations ≤ 10 ∧
    ((optimizeInstructionSizes changed).converged = true →
      changed (optimizeInstructionSizes changed).iterations = false ∧
      2 ≤ (optimizeInstructionSizes changed).iterations) ∧
    ((optimizeInstructionSizes changed).converged = false →
      (optimizeInstructionSizes changed).warned = true ∧
      (optimizeInstructionSizes changed).result = true) ∧
    (optimizeInstructionSizes changed).result = true := by
  have h := optLoopGo_spec changed 11 0 (by omega) (by omega)
  unfold optimizeInstructionSizes
  refine ⟨h.2.1, ?_, ?_, rfl⟩
  · intro hc
    exact h.2.2.1 hc
  · intro hc
    have h10 : (optLoopGo changed 0 11).1 = 10 := h.2.2.2 hc
    exact ⟨by simp [h10], rfl⟩

end TASM

namespace TASM

/-! ## C8: Intel HEX emission (Linker._generate_intel_hex_custom,
_write_hex_record, _write_extended_address_record). -/

/-- Python (-s) & 0xFF. -/
def pyNegMod256 (s : Nat) : Nat := (256 - s % 256) % 256

/-- Byte fields of a type-00 data record as _write_hex_record writes them. -/
def writeHexRecordBytes (address : Nat) (data : List Nat) : List Nat :=
  let byteCount := data.length
  let address16 := address % 65536
  let addressHigh := (address16 >>> 8) % 256
  let addressLow := address16 % 256
  let checksum := pyNegMod256 (byteCount + addressHigh + addressLow + 0 + data.sum)
  [byteCount, addressHigh, addressLow, 0] ++ data ++ [checksum]

/-- Byte fields of a type-04 Extended Linear Address record. -/
def writeExtendedAddressRecordBytes (ext : Nat) : List Nat :=
  let dataHigh := (ext >>> 8) % 256
  let dataLow := ext % 256
  let checksum := pyNegMod256 (2 + 0 + 0 + 4 + dataHigh + dataLow)
  [2, 0, 0, 4, dataHigh, dataLow, checksum]

/-- Byte fields of the terminating :00000001FF record. -/
def eofRecordBytes : List Nat := [0, 0, 0, 1, 255]

/-- One emitted Intel HEX record (full start address kept for data records). -/
inductive HexRec
  | data (address : Nat) (bytes : List Nat)
  | ela (ext : Nat)
  | eof
  deriving Repr, DecidableEq

/-- The byte fields of a record as written to the file. -/
def recBytes : HexRec → List Nat
  | .data a bs => writeHexRecordBytes a bs
  | .ela e => writeExtendedAddressRecordBytes e
  | .eof => eofRecordBytes

/-- The record-grouping loop of _generate_intel_hex_custom. State:
current_extended_addr, and (current_address, current_data) fused into one
option since the code clears and sets them together. A pending-data flush,
an Extended Linear Address record on a high-16-bit change, a data record
flush at 16 bytes or on a non-consecutive address, and the final EOF record
follow the source loop. -/
def hexGenGo (mem : Nat → Nat) : List Nat → Option Nat → Option (Nat × List Nat) → List HexRec
  | [], _, none => [HexRec.eof]
  | [], _, some (a, d) => [HexRec.data a d, HexRec.eof]
  | addr :: rest, curExt, none =>
    if curExt ≠ some ((addr >>> 16) % 65536) then
      HexRec.ela ((addr >>> 16) % 65536) ::
        hexGenGo mem rest (some ((addr >>> 16) % 65536)) (some (addr, [mem addr]))
    else
      hexGenGo mem rest curExt (some (addr, [mem addr]))
  | addr :: rest, curExt, some (a, d) =>
    if curExt ≠ some ((addr >>> 16) % 65536) then
      HexRec.data a d :: HexRec.ela ((addr >>> 16) % 65536) ::
        hexGenGo mem rest (some ((addr >>> 16) % 65536)) (some (addr, [mem addr]))
    else if addr = a + d.length then
      if 16 ≤ (d ++ [mem addr]).length then
        HexRec.data a (d ++ [mem addr]) :: hexGenGo mem rest curExt none
      else
        hexGenGo mem rest curExt (some (a, d ++ [mem addr]))
    else
      HexRec.data a d :: hexGenGo mem rest curExt (some (addr, [mem addr]))

/-- Insertion of one key into a sorted key list (models sorted()). -/
def insertSorted (a : Nat) : List Nat → List Nat
  | [] => [a]
  | b :: t => if a ≤ b then a :: b :: t else b :: insertSorted a t

/-- Ascending sort of the memory-image keys. -/
def sortNat (l : List Nat) : List Nat := l.foldr insertSorted []

/-- Dictionary access memory_image[addr] over an association list. -/
def dictGet (image : List (Nat × Nat)) (a : Nat) : Nat :=
  ((image.find? (fun p => p.1 == a)).map Prod.snd).getD 0

/-- Linker._generate_intel_hex_custom: sort the addresses, run the grouping
loop, end with the EOF record (which the loop appends); an empty image gets
just the EOF record. -/
def generateIntelHex (image : List (Nat × Nat)) : List HexRec :=
  match sortNat (image.map Prod.fst) with
  | [] => [HexRec.eof]
  | a :: r => hexGenGo (dictGet image) (a :: r) none none

theorem pyNegMod256_sum (s : Nat) : (s + pyNegMod256 s) % 256 = 0 := by
  unfold pyNegMod256
  omega

theorem recBytes_sum (r : HexRec) : (recBytes r).sum % 256 = 0 := by
  cases r with
  | data a bs =>
    show (writeHexRecordBytes a bs).sum % 256 = 0
    unfold writeHexRecordBytes pyNegMod256
    simp only [List.sum_append, List.sum_cons, List.sum_nil]
    omega
  | ela e =>
    show (writeExtendedAddressRecordBytes e).sum % 256 = 0
    unfold writeExtendedAddressRecordBytes pyNegMod256
    simp only [List.sum_cons, List.sum_nil]
    omega
  | eof => rfl

/-- Every data record follows an Extended Linear Address record carrying the
high 16 bits of its start address. -/
def elaOk : Option Nat → List HexRec → Prop
  | _, [] => True
  | _, (HexRec.ela e) :: rest => elaOk (some e) rest
  | cur, (HexRec.data a _) :: rest => cur = some ((a >>> 16) % 65536) ∧ elaOk cur rest
  | cur, HexRec.eof :: rest => elaOk cur rest

theorem getLast?_cons_eof (x : HexRec) (l : List HexRec)
    (h : l.getLast? = some HexRec.eof) : (x :: l).getLast? = some HexRec.eof := by
  cases l with
  | nil => cases h
  | cons y ys => rw [List.getLast?_cons_cons]; exact h

theorem getLast?_append_eof (p l : List HexRec)
    (h : l.getLast? = some HexRec.eof) : (p ++ l).getLast? = some HexRec.eof := by
  induction p with
  | nil => exact h
  | cons x xs ih => exact getLast?_cons_eof x (xs ++ l) ih

/-- Loop invariant for the record-grouping loop: pending data is nonempty,
under 16 bytes, and starts under the current extended address; hence every
emitted data record has 1..16 bytes, records are ELA-consistent, and the
output ends with the EOF record. -/
theorem hexGenGo_spec (mem : Nat → Nat) : ∀ (addrs : List Nat) (curExt : Option Nat)
    (cur : Option (Nat × List Nat)),
    (∀ a d, cur = some (a, d) → 1 ≤ d.length ∧ d.length ≤ 15 ∧
      curExt = some ((a >>> 16) % 65536)) →
    (∀ r ∈ hexGenGo mem addrs curExt cur,
      ∀ a bs, r = HexRec.data a bs → 1 ≤ bs.length ∧ bs.length ≤ 16) ∧
    elaOk curExt (hexGenGo mem addrs curExt cur) ∧
    (hexGenGo mem addrs curExt cur).getLast? = some HexRec.eof := by
  intro addrs
  induction addrs with
  | nil =>
    intro curExt cur hinv
    cases cur with
    | none =>
      unfold hexGenGo
      refine ⟨?_, trivial, rfl⟩
      intro r hr a bs hrd
      subst hrd
      simp at hr
    | some p =>
      obtain ⟨pa, pd⟩ := p
      have hpd := hinv pa pd rfl
      unfold hexGenGo
      refine ⟨?_, ⟨hpd.2.2, trivial⟩, rfl⟩
      intro r hr a bs hrd
      subst hrd
      simp at hr
      obtain ⟨ha, hd⟩ := hr
      subst hd
      exact ⟨hpd.1, by omega⟩
  | cons addr rest ih =>
    intro curExt cur hinv
    cases cur with
    | none =>
      unfold hexGenGo
      by_cases hext : curExt ≠ some ((addr >>> 16) % 65536)
      · rw [if_pos hext]
        have hrec := ih (some ((addr >>> 16) % 65536)) (some (addr, [mem addr]))
          (by rintro a d ⟨⟩; exact ⟨by simp, by simp, rfl⟩)
        refine ⟨?_, hrec.2.1, getLast?_cons_eof _ _ hrec.2.2⟩
        intro r hr a bs hrd
        rcases List.mem_cons.mp hr with h | h
        · subst hrd; cases h
        · exact hrec.1 r h a bs hrd
      · rw [if_neg hext]
        push_neg at hext
        exact ih curExt (some (addr, [mem addr]))
          (by rintro a d ⟨⟩; exact ⟨by simp, by simp, hext⟩)
    | some p =>
      obtain ⟨pa, pd⟩ := p
      have hpd := hinv pa pd rfl
      unfold hexGenGo
      by_cases hext : curExt ≠ some ((addr >>> 16) % 65536)
      · rw [if_pos hext]
        have hrec := ih (some ((addr >>> 16) % 65536)) (some (addr, [mem addr]))
          (by rintro a d ⟨⟩; exact ⟨by simp, by simp, rfl⟩)
        refine ⟨?_, ⟨hpd.2.2, hrec.2.1⟩,
          getLast?_cons_eof _ _ (getLast?_cons_eof _ _ hrec.2.2)⟩
        intro r hr a bs hrd
        rcases List.mem_cons.mp hr with h | h
        · subst hrd
          injection h with h1 h2
          subst h2
          exact ⟨hpd.1, by omega⟩
        · rcases List.mem_cons.mp h with h' | h'
          · subst hrd; cases h'
          · exact hrec.1 r h' a bs hrd
      · rw [if_neg hext]
        push_neg at hext
        by_cases hcons : addr = pa + pd.length
        · rw [if_pos hcons]
          by_cases hfull : 16 ≤ (pd ++ [mem addr]).length
          · rw [if_pos hfull]
            have hrec := ih curExt none (by rintro a d ⟨⟩)
            refine ⟨?_, ⟨hpd.2.2, hrec.2.1⟩, getLast?_cons_eof _ _ hrec.2.2⟩
            intro r hr a bs hrd
            rcases List.mem_cons.mp hr with h | h
            · subst hrd
              injection h with h1 h2
              subst h2
              simp only [List.length_append, List.length_singleton] at hfull ⊢
              omega
            · exact hrec.1 r h a bs hrd
          · rw [if_neg hfull]
            exact ih curExt (some (pa, pd ++ [mem addr]))
              (by
                rintro a d ⟨⟩
                simp only [List.length_append, List.length_singleton] at hfull ⊢
                exact ⟨by omega, by omega, hpd.2.2⟩)
        · rw [if_neg hcons]
          have hrec := ih curExt (some (addr, [mem addr]))
            (by rintro a d ⟨⟩; exact ⟨by simp, by simp, hext⟩)
          refine ⟨?_, ⟨hpd.2.2, hrec.2.1⟩, getLast?_cons_eof _ _ hrec.2.2⟩
          intro r hr a bs hrd
          rcases List.mem_cons.mp hr with h | h
          · subst hrd
            injection h with h1 h2
            subst h2
            exact ⟨hpd.1, by omega⟩
          · exact hrec.1 r h a bs hrd

/-- C8: every record of an emitted Intel HEX file checksums to 0 mod 256;
data records carry 1..16 bytes; every data record sits under the ELA record
holding the high 16 bits of its address; the file ends with :00000001FF. -/
theorem C8_intel_hex_records (image : List (Nat × Nat)) :
    (∀ r ∈ generateIntelHex image, (recBytes r).sum % 256 = 0) ∧
    (∀ r ∈ generateIntelHex image,
      ∀ a bs, r = HexRec.data a bs → 1 ≤ bs.length ∧ bs.length ≤ 16) ∧
    elaOk none (generateIntelHex image) ∧
    (generateIntelHex image).getLast? = some HexRec.eof := by
  refine ⟨fun r _ => recBytes_sum r, ?_⟩
  unfold generateIntelHex
  cases hs : sortNat (image.map Prod.fst) with
  | nil =>
    refine ⟨?_, trivial, rfl⟩
    intro r hr a bs hrd
    subst hrd
    simp at hr
  | cons x xs =>
    exact hexGenGo_spec (dictGet image) (x :: xs) none none (by rintro a d ⟨⟩)

end TASM

namespace TASM

/-! ## C10: DataDirective.parse_value (src/src/data_directives.py 68-120). -/

/-- ASCII digit 0-9. -/
def isDigitCh (c : Char) : Bool := decide (48 ≤ c.toNat ∧ c.toNat ≤ 57)

/-- ASCII letter a-z / A-Z. -/
def isAsciiAlpha (c : Char) : Bool :=
  decide ((97 ≤ c.toNat ∧ c.toNat ≤ 122) ∨ (65 ≤ c.toNat ∧ c.toNat ≤ 90))

/-- Character of a Python identifier-like token. -/
def isIdentChar (c : Char) : Bool := isAsciiAlpha c || isDigitCh c || c == '_'

/-- Optional leading sign of a float literal. -/
def dropFloatSign (s : Str) : Str :=
  match s with
  | c :: r => if c = '+' ∨ c = '-' then r else c :: r
  | [] => []

/-- Optional exponent part of a float literal. -/
def expOk (r : Str) : Bool :=
  match r with
  | [] => true
  | c :: t =>
    if c = 'e' ∨ c = 'E' then
      let t2 := dropFloatSign t
      !t2.isEmpty && t2.all isDigitCh
    else false

/-- Unsigned numeric float literal: digits [. digits] [exponent]. -/
def floatNumeric (s : Str) : Bool :=
  let d1 := s.takeWhile isDigitCh
  let r1 := s.dropWhile isDigitCh
  if r1.head? == some '.' then
    let rr := r1.drop 1
    let d2 := rr.takeWhile isDigitCh
    let r2 := rr.dropWhile isDigitCh
    (!d1.isEmpty || !d2.isEmpty) && expOk r2
  else
    !d1.isEmpty && expOk r1

/-- Python float() literal recognizer on stripped, underscore-free strings:
an optional sign then a numeric literal or inf/infinity/nan. -/
def isPyFloat (s : Str) : Bool :=
  let b := dropFloatSign s
  (b.map lowerCh == ['i', 'n', 'f'] ||
   b.map lowerCh == ['i', 'n', 'f', 'i', 'n', 'i', 't', 'y'] ||
   b.map lowerCh == ['n', 'a', 'n']) || floatNumeric b

/-- A value parse_value can produce (a float result keeps its literal; its
IEEE value plays no role in the claims). -/
inductive PyVal
  | int (z : Int)
  | float (lit : Str)
  | bytes (s : Str)
  deriving DecidableEq, Repr

/-- Dictionary lookup over an association list. -/
def lookupStr (m : List (Str × Int)) (k : Str) : Option Int :=
  (m.find? (fun p => p.1 == k)).map Prod.snd

/-- DataDirective.parse_value on the already-stripped operand: string literal,
char literal, float attempt, EQU constant, label, NASM numeric, 0 fallback. -/
def parseValueCore (constants labels : List (Str × Int)) (v : Str) : PyVal :=
  if (v.head? == some '"') && (v.getLast? == some '"') then
    PyVal.bytes ((v.drop 1).dropLast)
  else if (v.head? == some '\'') && (v.getLast? == some '\'') then
    match (v.drop 1).dropLast with
    | [c] => PyVal.int c.toNat
    | cs => PyVal.bytes cs
  else if (v.contains '.' || ((v.map lowerCh).contains 'e' && !((v.map lowerCh).contains 'h')))
      && isPyFloat v then
    PyVal.float v
  else
    match lookupStr constants v with
    | some z => PyVal.int z
    | none =>
      match lookupStr labels v with
      | some z => PyVal.int z
      | none =>
        match nparseSigned v with
        | some z => PyVal.int z
        | none => PyVal.int 0

/-- DataDirective.parse_value (src/src/data_directives.py lines 68-120). -/
def parseValue (constants labels : List (Str × Int)) (s0 : Str) : PyVal :=
  parseValueCore constants labels (pyStrip s0)

theorem charOfNat_toNat (n : Nat) (h : n < 55296) : (Char.ofNat n).toNat = n := by
  unfold Char.ofNat
  rw [dif_pos (Or.inl h : n.isValidChar)]
  unfold Char.ofNatAux
  show (UInt32.mk (BitVec.ofNatLt n _)).toNat = n
  simp [UInt32.toNat, BitVec.toNat_ofNatLt]

theorem beq_false_of_toNat_ne {c d : Char} (h : c.toNat ≠ d.toNat) : (c == d) = false := by
  apply beq_eq_false_iff_ne.mpr
  intro he
  subst he
  exact h rfl

theorem alpha_toNat {c : Char} (h : isAsciiAlpha c = true) :
    (97 ≤ c.toNat ∧ c.toNat ≤ 122) ∨ (65 ≤ c.toNat ∧ c.toNat ≤ 90) := by
  simpa [isAsciiAlpha] using h

theorem lowerCh_alpha_toNat {c : Char} (h : isAsciiAlpha c = true) :
    97 ≤ (lowerCh c).toNat ∧ (lowerCh c).toNat ≤ 122 := by
  unfold lowerCh
  rcases alpha_toNat h with hl | hu
  · rw [if_neg]
    · exact hl
    · rintro ⟨-, hz⟩
      rw [Char.le_def] at hz
      have : c.toNat ≤ 90 := hz
      omega
  · rw [if_pos ⟨by rw [Char.le_def]; exact hu.1, by rw [Char.le_def]; exact hu.2⟩,
      charOfNat_toNat _ (by omega)]
    omega

end TASM

namespace TASM

theorem identChar_toNat {c : Char} (h : isIdentChar c = true) :
    48 ≤ c.toNat ∧ c.toNat ≤ 122 := by
  unfold isIdentChar at h
  simp only [Bool.or_eq_true, beq_iff_eq] at h
  rcases h with (h | h) | h
  · rcases alpha_toNat h with h | h <;> omega
  · unfold isDigitCh at h
    simp only [decide_eq_true_eq] at h
    omega
  · subst h
    exact ⟨by decide, by decide⟩

theorem isPySpace_false_of_ge48 {c : Char} (h : 48 ≤ c.toNat) : isPySpace c = false := by
  unfold isPySpace
  rw [beq_false_of_toNat_ne (by intro hx; rw [show (' ' : Char).toNat = 32 from rfl] at hx; omega),
    beq_false_of_toNat_ne (by intro hx; rw [show ('\t' : Char).toNat = 9 from rfl] at hx; omega),
    beq_false_of_toNat_ne (by intro hx; rw [show ('\n' : Char).toNat = 10 from rfl] at hx; omega),
    beq_false_of_toNat_ne (by intro hx; rw [show ('\r' : Char).toNat = 13 from rfl] at hx; omega),
    beq_false_of_toNat_ne (by intro hx; rw [show ('\x0b' : Char).toNat = 11 from rfl] at hx; omega),
    beq_false_of_toNat_ne (by intro hx; rw [show ('\x0c' : Char).toNat = 12 from rfl] at hx; omega)]
  rfl

theorem alpha_digitVal_ge10 {c : Char} (hc : isAsciiAlpha c = true) :
    ∀ v, digitVal c = some v → 10 ≤ v := by
  intro v hv
  unfold digitVal at hv
  by_cases h1 : '0' ≤ c ∧ c ≤ '9'
  · exfalso
    obtain ⟨ha, hb⟩ := h1
    rw [Char.le_def] at ha hb
    have e1 : 48 ≤ c.toNat := ha
    have e2 : c.toNat ≤ 57 := hb
    rcases alpha_toNat hc with h | h <;> omega
  · rw [if_neg h1] at hv
    by_cases h2 : 'a' ≤ c ∧ c ≤ 'f'
    · rw [if_pos h2] at hv
      injection hv with hv
      have e1 : 97 ≤ c.toNat := by
        have := h2.1
        rw [Char.le_def] at this
        exact this
      omega
    · rw [if_neg h2] at hv
      by_cases h3 : 'A' ≤ c ∧ c ≤ 'F'
      · rw [if_pos h3] at hv
        injection hv with hv
        have e1 : 65 ≤ c.toNat := by
          have := h3.1
          rw [Char.le_def] at this
          exact this
        omega
      · rw [if_neg h3] at hv
        exact absurd hv (by simp)

theorem alpha_digitValB_none {b : Nat} (hb : b ≤ 10) {c : Char}
    (hc : isAsciiAlpha c = true) : digitValB b c = none := by
  unfold digitValB
  cases hd : digitVal c with
  | none => rfl
  | some v =>
    have := alpha_digitVal_ge10 hc v hd
    show (if v < b then some v else none) = none
    rw [if_neg (by omega)]

end TASM

namespace TASM

theorem charLe_toNat {a c : Char} (h : a ≤ c) : a.toNat ≤ c.toNat := by
  rw [Char.le_def] at h
  exact h

theorem notCharRange {lo hi c : Char} (h : ¬(lo.toNat ≤ c.toNat ∧ c.toNat ≤ hi.toNat)) :
    ¬(lo ≤ c ∧ c ≤ hi) :=
  fun hcon => h ⟨charLe_toNat hcon.1, charLe_toNat hcon.2⟩

theorem pyInt_alphaHead_none {b : Nat} (hb : b ≤ 10) (c : Char) (l : Str)
    (hc : isAsciiAlpha c = true) : pyInt b (c :: l) = none := by
  have h65 : 65 ≤ c.toNat := by rcases alpha_toNat hc with h | h <;> omega
  rw [pyInt_cons, if_neg (fun he => by rw [he] at h65; exact absurd h65 (by decide)),
    if_neg (fun he => by rw [he] at h65; exact absurd h65 (by decide))]
  have hsm : stripBaseMark b (c :: l) = c :: l := by
    cases l with
    | nil => exact stripBaseMark_short b [c] (by simp)
    | cons x xs =>
      cases hm : baseMarkCh b with
      | none => exact stripBaseMark_cons2_none hm c x xs
      | some p =>
        rw [stripBaseMark_cons2_some hm c x xs, if_neg]
        rintro ⟨h0, -⟩
        rw [h0] at h65
        exact absurd h65 (by decide)
  rw [hsm, digitsVal_of_ne_nil _ _ (by simp), digitsValAux_cons, alpha_digitValB_none hb hc]
  rfl

theorem lowerCh_of_lower {c : Char} (h : 97 ≤ c.toNat) : lowerCh c = c := by
  unfold lowerCh
  rw [if_neg]
  rintro ⟨-, hz⟩
  have := charLe_toNat hz
  have hu : c.toNat ≤ 90 := this
  omega

theorem lowerCh_of_upper {c : Char} (h1 : 65 ≤ c.toNat) (h2 : c.toNat ≤ 90) :
    (lowerCh c).toNat = c.toNat + 32 := by
  unfold lowerCh
  rw [if_pos ⟨by rw [Char.le_def]; exact h1, by rw [Char.le_def]; exact h2⟩,
    charOfNat_toNat _ (by omega)]

theorem alpha_nonhex_digitVal_none {c : Char} (hc : isAsciiAlpha c = true)
    (hnh : isHexLetter c = false) : digitVal c = none := by
  have hnf : ¬(97 ≤ (lowerCh c).toNat ∧ (lowerCh c).toNat ≤ 102) := by
    intro hcon
    rw [show isHexLetter c = decide ('a' ≤ lowerCh c ∧ lowerCh c ≤ 'f') from rfl,
      decide_eq_false_iff_not] at hnh
    exact hnh ⟨by rw [Char.le_def]; exact hcon.1, by rw [Char.le_def]; exact hcon.2⟩
  unfold digitVal
  rcases alpha_toNat hc with h | h
  · rw [lowerCh_of_lower (by omega)] at hnf
    rw [if_neg (notCharRange (by show ¬(48 ≤ c.toNat ∧ c.toNat ≤ 57); omega)),
      if_neg (notCharRange (by show ¬(97 ≤ c.toNat ∧ c.toNat ≤ 102); omega)),
      if_neg (notCharRange (by show ¬(65 ≤ c.toNat ∧ c.toNat ≤ 70); omega))]
  · rw [lowerCh_of_upper h.1 h.2] at hnf
    rw [if_neg (notCharRange (by show ¬(48 ≤ c.toNat ∧ c.toNat ≤ 57); omega)),
      if_neg (notCharRange (by show ¬(97 ≤ c.toNat ∧ c.toNat ≤ 102); omega)),
      if_neg (notCharRange (by show ¬(65 ≤ c.toNat ∧ c.toNat ≤ 70); omega))]

theorem pyInt16_alphaHead_none (c : Char) (l : Str) (hc : isAsciiAlpha c = true)
    (hnh : isHexLetter c = false) : pyInt 16 (c :: l) = none := by
  have h65 : 65 ≤ c.toNat := by rcases alpha_toNat hc with h | h <;> omega
  rw [pyInt_cons, if_neg (fun he => by rw [he] at h65; exact absurd h65 (by decide)),
    if_neg (fun he => by rw [he] at h65; exact absurd h65 (by decide))]
  have hsm : stripBaseMark 16 (c :: l) = c :: l := by
    cases l with
    | nil => exact stripBaseMark_short 16 [c] (by simp)
    | cons x xs =>
      rw [stripBaseMark_cons2_some (by rfl) c x xs, if_neg]
      rintro ⟨h0, -⟩
      rw [h0] at h65
      exact absurd h65 (by decide)
  have hdvb : digitValB 16 c = none := by
    unfold digitValB
    rw [alpha_nonhex_digitVal_none hc hnh]
  rw [hsm, digitsVal_of_ne_nil _ _ (by simp), digitsValAux_cons, hdvb]
  rfl

end TASM

namespace TASM

theorem parseCore_alphaHead_none (c : Char) (l : Str) (hc : isAsciiAlpha c = true) :
    parseCore (c :: l) = none := by
  have h65 : 65 ≤ c.toNat := by rcases alpha_toNat hc with h | h <;> omega
  have hl97 := lowerCh_alpha_toNat hc
  have h00 : (c == '0') = false :=
    beq_false_of_toNat_ne (by intro hx; rw [show ('0' : Char).toNat = 48 from rfl] at hx; omega)
  have h00l : (lowerCh c == '0') = false :=
    beq_false_of_toNat_ne (by intro hx; rw [show ('0' : Char).toNat = 48 from rfl] at hx; omega)
  have hdol : (c == '$') = false :=
    beq_false_of_toNat_ne (by intro hx; rw [show ('$' : Char).toNat = 36 from rfl] at hx; omega)
  obtain ⟨hf1, hf2, hf3, hf4, hf5, hf6, hf7, hf8⟩ := frontFalse c l h00 h00l hdol
  have hdrop : (c :: l).dropLast = [] ∨ ∃ r, (c :: l).dropLast = c :: r := by
    cases l with
    | nil => exact Or.inl rfl
    | cons x xs => exact Or.inr ⟨(x :: xs).dropLast, rfl⟩
  have hsuffix : ∀ b : Nat, b ≤ 10 → pyInt b (c :: l).dropLast = none := by
    intro b hb
    rcases hdrop with h | ⟨r, h⟩
    · rw [h]; rfl
    · rw [h]; exact pyInt_alphaHead_none hb c r hc
  unfold parseCore
  rw [if_neg (neTrue hf1), if_neg (neTrue hf2)]
  by_cases hh : endsLower (c :: l) 'h' = true
  · rw [if_pos hh]
    rcases hdrop with h | ⟨r, h⟩
    · rw [h]
      rfl
    · rw [h]
      show (if isHexLetter c = true then none else pyInt 16 (c :: r)) = none
      rcases hhl : isHexLetter c with _ | _
      · rw [if_neg (by decide : ¬(false = true))]
        exact pyInt16_alphaHead_none c r hc hhl
      · rw [if_pos (rfl : (true : Bool) = true)]
  · rw [if_neg hh, if_neg (neTrue hf3), if_neg (neTrue hf4), if_neg (neTrue hf5)]
    by_cases hb : endsLower (c :: l) 'b' = true
    · rw [if_pos hb]; exact hsuffix 2 (by omega)
    · rw [if_neg hb]
      by_cases hy : endsLower (c :: l) 'y' = true
      · rw [if_pos hy]; exact hsuffix 2 (by omega)
      · rw [if_neg hy, if_neg (neTrue hf6), if_neg (neTrue hf7)]
        by_cases hq : endsLower (c :: l) 'q' = true
        · rw [if_pos hq]; exact hsuffix 8 (by omega)
        · rw [if_neg hq]
          by_cases ho : endsLower (c :: l) 'o' = true
          · rw [if_pos ho]; exact hsuffix 8 (by omega)
          · rw [if_neg ho, if_neg (neTrue hf8)]
            by_cases hd : endsLower (c :: l) 'd' = true
            · rw [if_pos hd]; exact hsuffix 10 (by omega)
            · rw [if_neg hd]
              exact pyInt_alphaHead_none (by omega) c l hc

theorem nparseSigned_identHead_none (c : Char) (l : Str) (hc : isAsciiAlpha c = true)
    (hl : ∀ x ∈ c :: l, isIdentChar x = true) :
    nparseSigned (c :: l) = none := by
  have h65 : 65 ≤ c.toNat := by rcases alpha_toNat hc with h | h <;> omega
  have hstrip : pyStrip (c :: l) = c :: l :=
    pyStrip_eq_self _ (fun x hx => isPySpace_false_of_ge48 (identChar_toNat (hl x hx)).1)
  unfold nparseSigned
  rw [hstrip]
  show (if c = '+' then nparse l
    else if c = '-' then (nparse l).map (fun z => -z)
    else nparse (c :: l)) = none
  rw [if_neg (fun he => by rw [he] at h65; exact absurd h65 (by decide)),
    if_neg (fun he => by rw [he] at h65; exact absurd h65 (by decide))]
  unfold nparse
  rw [hstrip]
  show (if (c :: l) = [] then none
    else parseCore ((c :: l).filter (fun x => x != '_'))) = none
  rw [if_neg (by simp)]
  have hbe : (c == '_') = false :=
    beq_false_of_toNat_ne
      (by intro hx; rw [show ('_' : Char).toNat = 95 from rfl] at hx
          rcases alpha_toNat hc with h | h <;> omega)
  have hcne : (c != '_') = true := by simp [bne, hbe]
  rw [List.filter_cons, if_pos hcne]
  exact parseCore_alphaHead_none c _ hc

end TASM

namespace TASM

theorem contains_false_of (s : Str) (a : Char) (h : ∀ x ∈ s, (a == x) = false) :
    s.contains a = false := by
  induction s with
  | nil => rfl
  | cons x xs ih =>
    show (match a == x with | true => true | false => List.elem a xs) = false
    rw [h x (List.mem_cons_self x xs)]
    exact ih (fun y hy => h y (List.mem_cons_of_mem x hy))

theorem word_ne_of_contains_e {v : Str} (he : v.contains 'e' = true) (w : Str)
    (hw : w.contains 'e' = false) : (v == w) = false := by
  rcases h : (v == w) with _ | _
  · rfl
  · have hv := eq_of_beq h
    rw [hv, hw] at he
    exact Bool.noConfusion he

theorem isPyFloat_alphaHead_e {c : Char} {l : Str} (hc : isAsciiAlpha c = true)
    (he : ((c :: l).map lowerCh).contains 'e' = true) :
    isPyFloat (c :: l) = false := by
  have h65 : 65 ≤ c.toNat := by rcases alpha_toNat hc with h | h <;> omega
  have hds : dropFloatSign (c :: l) = c :: l := by
    show (if c = '+' ∨ c = '-' then l else c :: l) = c :: l
    rw [if_neg]
    rintro (h | h) <;> (rw [h] at h65; exact absurd h65 (by decide))
  have hdig : isDigitCh c = false := by
    unfold isDigitCh
    exact decide_eq_false (by rintro ⟨-, h2⟩; omega)
  have ht : (c :: l).takeWhile isDigitCh = [] := by
    rw [List.takeWhile_cons, hdig]
    simp
  have hd : (c :: l).dropWhile isDigitCh = c :: l := by
    rw [List.dropWhile_cons, hdig]
    simp
  have hch : (List.head? (c :: l) == some '.') = false := by
    show (c == '.') = false
    exact beq_false_of_toNat_ne
      (by intro hx; rw [show ('.' : Char).toNat = 46 from rfl] at hx; omega)
  have hfn : floatNumeric (c :: l) = false := by
    show (if ((List.dropWhile isDigitCh (c :: l)).head? == some '.') = true then
        (!(List.takeWhile isDigitCh (c :: l)).isEmpty ||
          !(List.takeWhile isDigitCh (List.drop 1 (List.dropWhile isDigitCh (c :: l)))).isEmpty) &&
          expOk (List.dropWhile isDigitCh (List.drop 1 (List.dropWhile isDigitCh (c :: l))))
      else !(List.takeWhile isDigitCh (c :: l)).isEmpty &&
        expOk (List.dropWhile isDigitCh (c :: l))) = false
    rw [ht, hd, hch, if_neg (by decide : ¬(false = true))]
    simp
  have hw1 : ((c :: l).map lowerCh == ['i', 'n', 'f']) = false :=
    word_ne_of_contains_e he _ (by decide)
  have hw2 : ((c :: l).map lowerCh == ['i', 'n', 'f', 'i', 'n', 'i', 't', 'y']) = false :=
    word_ne_of_contains_e he _ (by decide)
  have hw3 : ((c :: l).map lowerCh == ['n', 'a', 'n']) = false :=
    word_ne_of_contains_e he _ (by decide)
  show (((dropFloatSign (c :: l)).map lowerCh == ['i', 'n', 'f'] ||
      (dropFloatSign (c :: l)).map lowerCh == ['i', 'n', 'f', 'i', 'n', 'i', 't', 'y'] ||
      (dropFloatSign (c :: l)).map lowerCh == ['n', 'a', 'n']) ||
      floatNumeric (dropFloatSign (c :: l))) = false
  rw [hds, hw1, hw2, hw3, hfn]
  rfl

end TASM

namespace TASM

/-- C10: DataDirective.parse_value is total over unrecognized identifiers —
an operand that is an identifier (letter head, letter/digit/underscore body),
is not a known EQU constant or label, is not a float literal, and is not a
parseable numeric, evaluates to the integer 0 instead of raising an error. -/
theorem C10_identifier_fallback_zero (constants labels : List (Str × Int))
    (c : Char) (l : Str) (hc : isAsciiAlpha c = true)
    (hl : ∀ x ∈ c :: l, isIdentChar x = true)
    (hcon : lookupStr constants (c :: l) = none)
    (hlab : lookupStr labels (c :: l) = none) :
    parseValue constants labels (c :: l) = PyVal.int 0 := by
  have h65 : 65 ≤ c.toNat := by rcases alpha_toNat hc with h | h <;> omega
  have hstrip : pyStrip (c :: l) = c :: l :=
    pyStrip_eq_self _ (fun x hx => isPySpace_false_of_ge48 (identChar_toNat (hl x hx)).1)
  unfold parseValue
  rw [hstrip]
  have hq1 : ((c :: l).head? == some '"') = false := by
    show (c == '"') = false
    exact beq_false_of_toNat_ne
      (by intro hx; rw [show ('"' : Char).toNat = 34 from rfl] at hx; omega)
  have hq2 : ((c :: l).head? == some '\'') = false := by
    show (c == '\'') = false
    exact beq_false_of_toNat_ne
      (by intro hx; rw [show ('\'' : Char).toNat = 39 from rfl] at hx; omega)
  have hdot : (c :: l).contains '.' = false :=
    contains_false_of _ _ (fun x hx => beq_false_of_toNat_ne
      (by intro hy
          rw [show ('.' : Char).toNat = 46 from rfl] at hy
          have := (identChar_toNat (hl x hx)).1
          omega))
  unfold parseValueCore
  rw [hq1, Bool.false_and, if_neg (by decide : ¬(false = true)),
    hq2, Bool.false_and, if_neg (by decide : ¬(false = true))]
  have hfc : (((c :: l).contains '.' ||
      (((c :: l).map lowerCh).contains 'e' && !(((c :: l).map lowerCh).contains 'h'))) &&
      isPyFloat (c :: l)) = false := by
    cases he : ((c :: l).map lowerCh).contains 'e' with
    | false => rw [hdot]; simp
    | true => rw [isPyFloat_alphaHead_e hc he, Bool.and_false]
  rw [hfc, if_neg (by decide : ¬(false = true)), hcon, hlab,
    nparseSigned_identHead_none c l hc hl]

theorem C10_witness :
    (∀ x ∈ ('c' :: ['u', 'o', 'n', 't']), isIdentChar x = true) ∧
    parseValue [] [] ['c', 'u', 'o', 'n', 't'] = PyVal.int 0 :=
  ⟨by decide,
   C10_identifier_fallback_zero [] [] 'c' ['u', 'o', 'n', 't'] (by decide) (by decide) rfl rfl⟩

end TASM

namespace TASM

/-- Uppercase a character (str.upper on ASCII). -/
def upperCh (c : Char) : Char :=
  if 'a' ≤ c ∧ c ≤ 'z' then Char.ofNat (c.toNat - 32) else c

/-- First whitespace-delimited word of the stripped text, uppercased
(`source_text.strip().split(maxsplit=1)[0].upper()`). -/
def firstWordUpper (s : Str) : Str :=
  ((pyStrip s).takeWhile (fun c => !isPySpace c)).map upperCh

/-- Keys of DataDirective.DATA_SIZES. -/
def dataSizeNames : List Str :=
  [['D', 'B'], ['D', 'W'], ['D', 'D'], ['D', 'Q'],
   ['D', 'T'], ['D', 'O'], ['D', 'Y'], ['D', 'Z']]

/-- Keys of DataDirective.RESERVE_SIZES. -/
def reserveSizeNames : List Str :=
  [['R', 'E', 'S', 'B'], ['R', 'E', 'S', 'W'], ['R', 'E', 'S', 'D'],
   ['R', 'E', 'S', 'Q'], ['R', 'E', 'S', 'T'], ['R', 'E', 'S', 'O'],
   ['R', 'E', 'S', 'Y'], ['R', 'E', 'S', 'Z']]

/-- The linker's inline data-directive test in _generate_output
(src/src/linker.py lines 753-760): first word in DATA_SIZES or
RESERVE_SIZES or TIMES/INCBIN. -/
def isDataDirectiveLinker (sourceText : Str) : Bool :=
  let d := firstWordUpper sourceText
  dataSizeNames.contains d || reserveSizeNames.contains d ||
    d == ['T', 'I', 'M', 'E', 'S'] || d == ['I', 'N', 'C', 'B', 'I', 'N']

/-- The memory image: a Python dict from address to byte, as an
association list with dict update semantics. -/
abbrev Mem := List (Nat × Nat)

/-- `memory_image[a] = v`: replace an existing key, else append. -/
def memSet : Mem → Nat → Nat → Mem
  | [], a, v => [(a, v)]
  | (k, w) :: t, a, v => if k = a then (k, v) :: t else (k, w) :: memSet t a v

/-- Dict lookup. -/
def memGet : Mem → Nat → Option Nat
  | [], _ => none
  | (k, w) :: t, a => if k = a then some w else memGet t a

/-- A run of consecutive single-byte stores starting at `addr`. -/
def memWriteList (m : Mem) (addr : Nat) : List Nat → Mem
  | [] => m
  | b :: bs => memWriteList (memSet m addr b) (addr + 1) bs

/-- `max(memory_image.keys())` (None when empty). -/
def memMaxAddr : Mem → Option Nat
  | [] => none
  | (k, _) :: t =>
    match memMaxAddr t with
    | none => some k
    | some x => some (max k x)

/-- The four bytes `opcode & 0xFF, (opcode >> 8) & 0xFF, (opcode >> 16)
& 0xFF, (opcode >> 24) & 0xFF` the little-endian branch stores. -/
def instrBytesLE (op : Nat) : List Nat :=
  [op % 256, op / 256 % 256, op / 65536 % 256, op / 16777216 % 256]

/-- The big-endian branch stores the same bytes MSB first. -/
def instrBytesBE (op : Nat) : List Nat :=
  [op / 16777216 % 256, op / 65536 % 256, op / 256 % 256, op % 256]

/-- One linked record as _generate_output sees it:
(address, opcode, operand, source_text, source_file, size). -/
structure LinkedRec where
  address : Nat
  opcode : Nat
  sourceText : Str
  sizeBytes : Nat
  deriving Repr

/-- One iteration of the memory-image loop of _generate_output
(src/src/linker.py lines 752-832): a data directive writes its re-encoded
bytes (seam `dataEnc`, which also covers the exception fallback), any
other record writes the four opcode bytes, endianness chosen by config. -/
def genStep (dataEnc : LinkedRec → List Nat) (littleEndian : Bool)
    (m : Mem) (r : LinkedRec) : Mem :=
  if isDataDirectiveLinker r.sourceText then
    memWriteList m r.address (dataEnc r)
  else
    memWriteList m r.address
      (if littleEndian then instrBytesLE r.opcode else instrBytesBE r.opcode)

/-- The whole memory-image loop. -/
def genMemImage (dataEnc : LinkedRec → List Nat) (littleEndian : Bool)
    (recs : List LinkedRec) : Mem :=
  recs.foldl (genStep dataEnc littleEndian) []

end TASM

namespace TASM

theorem memGet_memSet (m : Mem) (a v x : Nat) :
    memGet (memSet m a v) x = if x = a then some v else memGet m x := by
  induction m with
  | nil =>
    show (if a = x then some v else none) = if x = a then some v else none
    by_cases h : x = a
    · rw [if_pos h, if_pos h.symm]
    · rw [if_neg h, if_neg (fun he => h he.symm)]
  | cons p t ih =>
    obtain ⟨k, w⟩ := p
    show memGet (if k = a then (k, v) :: t else (k, w) :: memSet t a v) x = _
    by_cases hka : k = a
    · rw [if_pos hka]
      subst hka
      show (if k = x then some v else memGet t x) = _
      by_cases hx : x = k
      · rw [if_pos hx.symm, if_pos hx]
      · rw [if_neg (fun he => hx he.symm), if_neg hx]
        show _ = if k = x then some w else memGet t x
        rw [if_neg (fun he => hx he.symm)]
    · rw [if_neg hka]
      show (if k = x then some w else memGet (memSet t a v) x) = _
      by_cases hkx : k = x
      · rw [if_pos hkx, if_neg (fun he => hka (by rw [hkx, he])),
          show memGet ((k, w) :: t) x = if k = x then some w else memGet t x from rfl,
          if_pos hkx]
      · rw [if_neg hkx, ih,
          show memGet ((k, w) :: t) x = if k = x then some w else memGet t x from rfl,
          if_neg hkx]

theorem memGet_memWriteList (bs : List Nat) : ∀ (m : Mem) (addr x : Nat),
    memGet (memWriteList m addr bs) x =
      if addr ≤ x ∧ x < addr + bs.length then some (bs.getD (x - addr) 0)
      else memGet m x := by
  induction bs with
  | nil =>
    intro m addr x
    show memGet m x = _
    rw [if_neg (by simp)]
  | cons b bs ih =>
    intro m addr x
    show memGet (memWriteList (memSet m addr b) (addr + 1) bs) x = _
    rw [ih]
    by_cases h1 : addr + 1 ≤ x ∧ x < addr + 1 + bs.length
    · rw [if_pos h1, if_pos (by show addr ≤ x ∧ x < addr + (b :: bs).length; simp; omega)]
      have hx : x - addr = (x - (addr + 1)) + 1 := by omega
      rw [hx, List.getD_cons_succ]
    · rw [if_neg h1, memGet_memSet]
      by_cases h2 : x = addr
      · rw [if_pos h2, if_pos (by show addr ≤ x ∧ x < addr + (b :: bs).length; simp; omega)]
        rw [h2, Nat.sub_self, List.getD_cons_zero]
      · rw [if_neg h2, if_neg (by show ¬(addr ≤ x ∧ x < addr + (b :: bs).length); simp; omega)]

theorem memSet_append_new (m : Mem) (a v : Nat) (h : ∀ p ∈ m, p.1 ≠ a) :
    memSet m a v = m ++ [(a, v)] := by
  induction m with
  | nil => rfl
  | cons p t ih =>
    obtain ⟨k, w⟩ := p
    show (if k = a then (k, v) :: t else (k, w) :: memSet t a v) = _
    rw [if_neg (h (k, w) (List.mem_cons_self _ _)),
      ih (fun q hq => h q (List.mem_cons_of_mem _ hq))]
    rfl

theorem memWriteList_empty4 (addr b0 b1 b2 b3 : Nat) :
    memWriteList [] addr [b0, b1, b2, b3] =
      [(addr, b0), (addr + 1, b1), (addr + 2, b2), (addr + 3, b3)] := by
  show memWriteList (memSet [] addr b0) (addr + 1) [b1, b2, b3] = _
  rw [show memSet [] addr b0 = [(addr, b0)] from rfl]
  show memWriteList (memSet [(addr, b0)] (addr + 1) b1) (addr + 1 + 1) [b2, b3] = _
  rw [memSet_append_new _ _ _ (by
    intro p hp
    rw [List.mem_singleton] at hp
    rcases hp with rfl
    show addr ≠ addr + 1
    omega)]
  show memWriteList
    (memSet ([(addr, b0)] ++ [(addr + 1, b1)]) (addr + 2) b2) (addr + 3) [b3] = _
  rw [memSet_append_new _ _ _ (by
    intro p hp
    simp only [List.singleton_append, List.mem_cons, List.mem_nil_iff, or_false] at hp
    rcases hp with rfl | rfl
    · show addr ≠ addr + 2
      omega
    · show addr + 1 ≠ addr + 2
      omega)]
  show memWriteList
    (memSet (([(addr, b0)] ++ [(addr + 1, b1)]) ++ [(addr + 2, b2)]) (addr + 3) b3)
    (addr + 4) [] = _
  rw [memSet_append_new _ _ _ (by
    intro p hp
    simp only [List.singleton_append, List.cons_append, List.nil_append, List.mem_cons,
      List.mem_nil_iff, or_false] at hp
    rcases hp with rfl | rfl | rfl
    · show addr ≠ addr + 3
      omega
    · show addr + 1 ≠ addr + 3
      omega
    · show addr + 2 ≠ addr + 3
      omega)]
  show (([(addr, b0)] ++ [(addr + 1, b1)]) ++ [(addr + 2, b2)]) ++ [(addr + 3, b3)] = _
  simp

end TASM

namespace TASM

/-- C9: in _generate_output, a linked record not classified as a data
directive writes exactly the four bytes of its 32-bit opcode at address
through address+3, independent of its recorded size; in the little-endian
configuration a 16-bit opcode leaves the bytes at address+2 and address+3
zero, and the memory image of such a record alone reaches address+3 —
two bytes past the end address+size-1 of a 2-byte instruction. -/
theorem C9_nondata_writes_four_bytes (dataEnc : LinkedRec → List Nat)
    (le : Bool) (m : Mem) (r : LinkedRec)
    (hnd : isDataDirectiveLinker r.sourceText = false) :
    (∀ a, memGet (genStep dataEnc le m r) a =
        if r.address ≤ a ∧ a ≤ r.address + 3 then
          some ((if le then instrBytesLE r.opcode else instrBytesBE r.opcode).getD
            (a - r.address) 0)
        else memGet m a) ∧
    (le = true → r.opcode < 65536 →
        memGet (genStep dataEnc le m r) (r.address + 2) = some 0 ∧
        memGet (genStep dataEnc le m r) (r.address + 3) = some 0) ∧
    memMaxAddr (genStep dataEnc le [] r) = some (r.address + 3) ∧
    (r.sizeBytes = 2 → r.address + 3 = (r.address + r.sizeBytes - 1) + 2) := by
  have hstep : ∀ m0 : Mem, genStep dataEnc le m0 r =
      memWriteList m0 r.address
        (if le then instrBytesLE r.opcode else instrBytesBE r.opcode) := by
    intro m0
    unfold genStep
    rw [hnd, if_neg (by decide : ¬(false = true))]
  have hlen : (if le then instrBytesLE r.opcode else instrBytesBE r.opcode).length = 4 := by
    cases le <;> rfl
  have hget : ∀ a, memGet (genStep dataEnc le m r) a =
      if r.address ≤ a ∧ a ≤ r.address + 3 then
        some ((if le then instrBytesLE r.opcode else instrBytesBE r.opcode).getD
          (a - r.address) 0)
      else memGet m a := by
    intro a
    rw [hstep, memGet_memWriteList, hlen]
    by_cases h : r.address ≤ a ∧ a ≤ r.address + 3
    · rw [if_pos ⟨h.1, by omega⟩, if_pos h]
    · rw [if_neg (by omega), if_neg h]
  refine ⟨hget, ?_, ?_, by intro h2; omega⟩
  · intro hle hop
    rw [hle] at hget ⊢
    constructor
    · rw [hget (r.address + 2), if_pos ⟨by omega, by omega⟩]
      rw [if_pos rfl]
      have h2 : r.address + 2 - r.address = 2 := by omega
      rw [h2]
      show some (r.opcode / 65536 % 256) = some 0
      rw [Nat.div_eq_of_lt (by omega), Nat.zero_mod]
    · rw [hget (r.address + 3), if_pos ⟨by omega, by omega⟩]
      rw [if_pos rfl]
      have h3 : r.address + 3 - r.address = 3 := by omega
      rw [h3]
      show some (r.opcode / 16777216 % 256) = some 0
      rw [Nat.div_eq_of_lt (by omega), Nat.zero_mod]
  · rw [hstep]
    have h4 : ∃ b0 b1 b2 b3,
        (if le then instrBytesLE r.opcode else instrBytesBE r.opcode) =
          [b0, b1, b2, b3] := by
      cases le
      · exact ⟨_, _, _, _, rfl⟩
      · exact ⟨_, _, _, _, rfl⟩
    obtain ⟨b0, b1, b2, b3, hb⟩ := h4
    rw [hb, memWriteList_empty4]
    show some (max r.address (max (r.address + 1) (max (r.address + 2) (r.address + 3)))) = _
    have : max r.address (max (r.address + 1) (max (r.address + 2) (r.address + 3))) =
        r.address + 3 := by omega
    rw [this]

theorem C9_witness :
    isDataDirectiveLinker ['m', 'o', 'v'] = false ∧
    memGet (genStep (fun _ => []) true []
      ⟨2147483648, 5250, ['m', 'o', 'v'], 2⟩) 2147483650 = some 0 ∧
    memMaxAddr (genStep (fun _ => []) true []
      ⟨2147483648, 5250, ['m', 'o', 'v'], 2⟩) = some 2147483651 := by
  have h := C9_nondata_writes_four_bytes (fun _ => []) true []
    ⟨2147483648, 5250, ['m', 'o', 'v'], 2⟩ (by decide)
  exact ⟨by decide, (h.2.1 rfl (by decide)).1, h.2.2.1⟩

end TASM

namespace TASM

/-- str.upper on a whole string. -/
def pyUpper (s : Str) : Str := s.map upperCh

/-- Does `s` start with the pattern `p` (str.startswith)? -/
def strStarts : Str → Str → Bool
  | [], _ => true
  | _ :: _, [] => false
  | c :: p, d :: s => c == d && strStarts p s

/-- `line.upper().startswith('.ORG')`. -/
def orgStarts (l : Str) : Bool := strStarts ['.', 'O', 'R', 'G'] (pyUpper l)

/-- A character of `\w` (regex word character). -/
def wordChar (c : Char) : Bool := isAsciiAlpha c || isDigitCh c || c == '_'

/-- The `re.match(r'^\s*(\w+)\s+EQU\s+', line_upper)` test of both passes. -/
def isEquLine (l : Str) : Bool :=
  let u := pyUpper l
  let t1 := u.dropWhile isPySpace
  let w := t1.takeWhile wordChar
  let t2 := t1.dropWhile wordChar
  let s1 := t2.takeWhile isPySpace
  let t3 := t2.dropWhile isPySpace
  !w.isEmpty && !s1.isEmpty && strStarts ['E', 'Q', 'U'] t3 &&
    (match (t3.drop 3).head? with
     | some c => isPySpace c
     | none => false)

/-- Python str.split() with no separator: whitespace-run split. -/
def splitWsAux : Str → Str → List Str
  | [], acc => if acc = [] then [] else [acc.reverse]
  | c :: r, acc =>
    if isPySpace c then
      if acc = [] then splitWsAux r [] else acc.reverse :: splitWsAux r []
    else splitWsAux r (c :: acc)

def splitWs (s : Str) : List Str := splitWsAux s []

/-- _handle_org_directive (src/src/assembler.py lines 296-331): cut a ';'
comment, split, require exactly two words, read $hex / 0x-hex / decimal,
range-check 0..0xFFFFFFFF; some address on success. -/
def orgParse (l : Str) : Option Nat :=
  let l2 := if l.contains ';' then pyStrip (l.takeWhile (fun c => c != ';')) else l
  match splitWs l2 with
  | [_, p] =>
    match (if p.head? == some '$' then pyInt 16 (p.drop 1)
           else if strStarts ['0', 'x'] p then pyInt 16 p
           else pyInt 10 p) with
    | some a => if 0 ≤ a ∧ a ≤ 4294967295 then some a.toNat else none
    | none => none
  | _ => none

/-- Label detection of both passes: first ':' must come before any ';'
(`colon_pos != -1 and (semicolon_pos == -1 or colon_pos < semicolon_pos)`),
split at the first ':'. -/
def labelSplit : Str → Option (Str × Str)
  | [] => none
  | c :: r =>
    if c = ';' then none
    else if c = ':' then some ([], r)
    else (labelSplit r).map (fun p => (c :: p.1, p.2))

/-- _validate_label_name: `^[a-zA-Z_\.][a-zA-Z0-9_\.]*$` or `^\d+$`. -/
def validLabelName (n : Str) : Bool :=
  match n with
  | [] => false
  | c :: r =>
    ((isAsciiAlpha c || c == '_' || c == '.') &&
      r.all (fun d => isAsciiAlpha d || isDigitCh d || d == '_' || d == '.')) ||
    (isDigitCh c && r.all isDigitCh)

/-- The state _first_pass threads: the running address, self.current_address
(mutated by .ORG), the label table in definition order, and the addresses
recorded for the size-consuming lines. -/
structure Pass1State where
  address : Nat
  curAddr : Nat
  labels : List (Str × Nat)
  emitted : List Nat
  deriving Repr, DecidableEq

/-- One line of _first_pass (src/src/assembler.py lines 187-294) on the
stripped line; `szOf` stands for calculate_size / _calculate_instruction_size
(none = error), `equOk` for process_equ succeeding. none = `return False`. -/
def pass1LineCore (szOf : Str → Nat → Option Nat) (equOk : Str → Bool)
    (st : Pass1State) (l : Str) : Option Pass1State :=
  if l.isEmpty || (l.head? == some ';') || (l.head? == some '#') then some st
  else if orgStarts l then
    match orgParse l with
    | some a => some (Pass1State.mk a a st.labels st.emitted)
    | none => none
  else if isEquLine l then
    if equOk l then some st else none
  else
    match labelSplit l with
    | some (labelPart, instrPart) =>
      if validLabelName (pyStrip labelPart) = false then none
      else if (st.labels.map Prod.fst).contains (pyStrip labelPart) then none
      else if (pyStrip instrPart).isEmpty || ((pyStrip instrPart).head? == some ';') then
        some (Pass1State.mk st.address st.curAddr
          (st.labels ++ [(pyStrip labelPart, st.address)]) st.emitted)
      else
        match szOf (pyStrip instrPart) st.address with
        | some sz =>
          some (Pass1State.mk (st.address + sz) st.curAddr
            (st.labels ++ [(pyStrip labelPart, st.address)]) (st.emitted ++ [st.address]))
        | none => none
    | none =>
      match szOf l st.address with
      | some sz =>
        some (Pass1State.mk (st.address + sz) st.curAddr st.labels
          (st.emitted ++ [st.address]))
      | none => none

/-- A raw source line: `original_line = line.strip()` first. -/
def pass1Line (szOf : Str → Nat → Option Nat) (equOk : Str → Bool)
    (st : Pass1State) (rawLine : Str) : Option Pass1State :=
  pass1LineCore szOf equOk st (pyStrip rawLine)

/-- The _first_pass loop; on a failing line it stops at once, keeping the
state reached so far (self.labels is mutated in place). -/
def pass1Go (szOf : Str → Nat → Option Nat) (equOk : Str → Bool) :
    Pass1State → List Str → Bool × Pass1State
  | st, [] => (true, st)
  | st, l :: rest =>
    match pass1Line szOf equOk st l with
    | some st1 => pass1Go szOf equOk st1 rest
    | none => (false, st)

/-- _first_pass from the engine's current origin. -/
def firstPass (szOf : Str → Nat → Option Nat) (equOk : Str → Bool)
    (origin : Nat) (lines : List Str) : Bool × Pass1State :=
  pass1Go szOf equOk ⟨origin, origin, [], []⟩ lines

end TASM

namespace TASM

/-- The state _second_pass threads: the running address, the value of
self.current_address (only a successful .ORG changes it), and the addresses
assigned to the emitted records. -/
structure Pass2State where
  addr : Nat
  curAddr : Nat
  emitted : List Nat
  deriving Repr, DecidableEq

/-- One line of _second_pass (src/src/assembler.py lines 419-478) on the
stripped line: skip blank/';' lines, re-run .ORG — its failure is ignored
there, but `address = self.current_address` runs either way, so a failed
parse resets the running address to the unchanged self.current_address —
skip EQU, strip a leading label, then assemble; a record is appended only
when its size is positive. `szOf` is the sizing seam of THIS pass: the
opcode_size of the variant chosen by encode_instruction from the operands
(assembler.py line 510), a different function from the pass-1 seam, which
sizes by mnemonic and operand count alone. -/
def pass2LineCore (szOf : Str → Nat → Option Nat) (st : Pass2State)
    (l : Str) : Option Pass2State :=
  if l.isEmpty || (l.head? == some ';') then some st
  else if orgStarts l then
    match orgParse l with
    | some a => some (Pass2State.mk a a st.emitted)
    | none => some (Pass2State.mk st.curAddr st.curAddr st.emitted)
  else if isEquLine l then some st
  else
    match labelSplit l with
    | some (_, instrPart) =>
      if (pyStrip instrPart).isEmpty || ((pyStrip instrPart).head? == some ';') then some st
      else
        match szOf (pyStrip instrPart) st.addr with
        | some sz =>
          some (Pass2State.mk (st.addr + sz) st.curAddr
            (if 0 < sz then st.emitted ++ [st.addr] else st.emitted))
        | none => none
    | none =>
      match szOf l st.addr with
      | some sz =>
        some (Pass2State.mk (st.addr + sz) st.curAddr
          (if 0 < sz then st.emitted ++ [st.addr] else st.emitted))
      | none => none

def pass2Line (szOf : Str → Nat → Option Nat) (st : Pass2State)
    (rawLine : Str) : Option Pass2State :=
  pass2LineCore szOf st (pyStrip rawLine)

/-- The _second_pass loop. -/
def pass2Go (szOf : Str → Nat → Option Nat) :
    Pass2State → List Str → Bool × Pass2State
  | st, [] => (true, st)
  | st, l :: rest =>
    match pass2Line szOf st l with
    | some st1 => pass2Go szOf st1 rest
    | none => (false, st)

/-- _second_pass starts at the self.current_address left behind by pass 1. -/
def secondPass (szOf : Str → Nat → Option Nat) (startAddr : Nat)
    (lines : List Str) : Bool × Pass2State :=
  pass2Go szOf ⟨startAddr, startAddr, []⟩ lines

end TASM

namespace TASM

theorem labelSplit_cons (c : Char) (r : Str) :
    labelSplit (c :: r) =
      (if c = ';' then none
       else if c = ':' then some ([], r)
       else (labelSplit r).map (fun p => (c :: p.1, p.2))) := rfl

theorem pass1Go_cons (szOf : Str → Nat → Option Nat) (equOk : Str → Bool)
    (st : Pass1State) (l : Str) (rest : List Str) :
    pass1Go szOf equOk st (l :: rest) =
      (match pass1Line szOf equOk st l with
       | some st1 => pass1Go szOf equOk st1 rest
       | none => (false, st)) := rfl

theorem pass2Go_cons (szOf : Str → Nat → Option Nat)
    (st : Pass2State) (l : Str) (rest : List Str) :
    pass2Go szOf st (l :: rest) =
      (match pass2Line szOf st l with
       | some st1 => pass2Go szOf st1 rest
       | none => (false, st)) := rfl

/-- C5 counterexample: on `a:`, `a:`, `b:` the first pass stops at the
second line — the result is failure with only label `a` collected; label
`b` on the following line is never defined, where the specified behaviour
(report, continue, fail at phase end) would have collected it. -/
theorem C5_counterexample :
    firstPass (fun _ _ => some 2) (fun _ => true) 2147483648
        [['a', ':'], ['a', ':'], ['b', ':']] =
      (false, ⟨2147483648, 2147483648, [(['a'], 2147483648)], []⟩) ∧
    (((firstPass (fun _ _ => some 2) (fun _ => true) 2147483648
        [['a', ':'], ['a', ':'], ['b', ':']]).2.labels.map Prod.fst).contains
      ['b']) = false := by
  decide

/-- C5 (amended): _first_pass aborts immediately on a duplicate label —
whatever the remaining lines are, the pass returns failure with the state
reached before the offending line, so no later labels are collected. -/
theorem C5_duplicate_label_aborts (szOf : Str → Nat → Option Nat)
    (equOk : Str → Bool) (st : Pass1State) (line : Str)
    (labelPart instrPart : Str)
    (hnh : ((pyStrip line).head? == some '#') = false)
    (hno : orgStarts (pyStrip line) = false)
    (hne : isEquLine (pyStrip line) = false)
    (hsplit : labelSplit (pyStrip line) = some (labelPart, instrPart))
    (hvalid : validLabelName (pyStrip labelPart) = true)
    (hdup : (st.labels.map Prod.fst).contains (pyStrip labelPart) = true) :
    ∀ rest, pass1Go szOf equOk st (line :: rest) = (false, st) := by
  have hline : pass1LineCore szOf equOk st (pyStrip line) = none := by
    cases hl : pyStrip line with
    | nil =>
      rw [hl] at hsplit
      exact absurd hsplit (by simp [labelSplit])
    | cons c r =>
      rw [hl] at hsplit hnh hno hne
      have hcs : (c == ';') = false := by
        rcases h : (c == ';') with _ | _
        · rfl
        · have hce : c = ';' := eq_of_beq h
          rw [labelSplit_cons, if_pos hce] at hsplit
          exact absurd hsplit (by simp)
      have hnh2 : (c == '#') = false := by
        rw [show ((c :: r).head? == some '#') = (c == '#') from rfl] at hnh
        exact hnh
      have hskip : ((c :: r).isEmpty || ((c :: r).head? == some ';') ||
          ((c :: r).head? == some '#')) = false := by
        show (false || (c == ';') || (c == '#')) = false
        rw [hcs, hnh2]
        rfl
      unfold pass1LineCore
      rw [if_neg (neTrue hskip), if_neg (neTrue hno), if_neg (neTrue hne), hsplit]
      show (if validLabelName (pyStrip labelPart) = false then none
        else if ((st.labels.map Prod.fst).contains (pyStrip labelPart)) = true then none
        else _) = none
      rw [if_neg (by rw [hvalid]; exact (by decide : ¬(true = false))), if_pos hdup]
  intro rest
  have hline2 : pass1Line szOf equOk st line = none := hline
  rw [pass1Go_cons, hline2]

theorem C5_witness :
    validLabelName ['a'] = true ∧
    pass1Go (fun _ _ => some 2) (fun _ => true)
      ⟨2147483650, 2147483648, [(['a'], 2147483648)], []⟩
      [['a', ':'], ['b', ':']] =
      (false, ⟨2147483650, 2147483648, [(['a'], 2147483648)], []⟩) :=
  ⟨by decide,
   C5_duplicate_label_aborts (fun _ _ => some 2) (fun _ => true)
     ⟨2147483650, 2147483648, [(['a'], 2147483648)], []⟩
     ['a', ':'] ['a'] [] (by decide) (by decide) (by decide) (by decide)
     (by decide) (by decide) [['b', ':']]⟩

end TASM

namespace TASM

theorem pass1Go_append (szOf : Str → Nat → Option Nat) (equOk : Str → Bool)
    (xs ys : List Str) : ∀ st : Pass1State,
    pass1Go szOf equOk st (xs ++ ys) =
      (if (pass1Go szOf equOk st xs).1 = true then
        pass1Go szOf equOk (pass1Go szOf equOk st xs).2 ys
      else pass1Go szOf equOk st xs) := by
  induction xs with
  | nil =>
    intro st
    show pass1Go szOf equOk st ys = _
    rw [show pass1Go szOf equOk st [] = (true, st) from rfl]
    rw [if_pos rfl]
  | cons l xs ih =>
    intro st
    rw [List.cons_append, pass1Go_cons, pass1Go_cons]
    cases h : pass1Line szOf equOk st l with
    | some st1 =>
      show pass1Go szOf equOk st1 (xs ++ ys) = _
      exact ih st1
    | none =>
      show (false, st) = _
      rw [if_neg (by decide : ¬(false = true))]

theorem pass2Go_append (szOf : Str → Nat → Option Nat)
    (xs ys : List Str) : ∀ st : Pass2State,
    pass2Go szOf st (xs ++ ys) =
      (if (pass2Go szOf st xs).1 = true then
        pass2Go szOf (pass2Go szOf st xs).2 ys
      else pass2Go szOf st xs) := by
  induction xs with
  | nil =>
    intro st
    show pass2Go szOf st ys = _
    rw [show pass2Go szOf st [] = (true, st) from rfl]
    rw [if_pos rfl]
  | cons l xs ih =>
    intro st
    rw [List.cons_append, pass2Go_cons, pass2Go_cons]
    cases h : pass2Line szOf st l with
    | some st1 =>
      show pass2Go szOf st1 (xs ++ ys) = _
      exact ih st1
    | none =>
      show (false, st) = _
      rw [if_neg (by decide : ¬(false = true))]

theorem orgStarts_head (v : Str) (h : orgStarts v = true) : ∃ r, v = '.' :: r := by
  cases v with
  | nil => exact absurd h (by decide)
  | cons c r =>
    refine ⟨r, ?_⟩
    have h1 : ('.' == upperCh c) = true := by
      rw [show orgStarts (c :: r) =
        (('.' == upperCh c) && strStarts ['O', 'R', 'G'] (pyUpper r)) from rfl] at h
      exact ((Bool.and_eq_true _ _).mp h).1
    have h2 : upperCh c = '.' := (eq_of_beq h1).symm
    unfold upperCh at h2
    by_cases hc : 'a' ≤ c ∧ c ≤ 'z'
    · rw [if_pos hc] at h2
      exfalso
      have hge := charLe_toNat hc.1
      have hle := charLe_toNat hc.2
      have hlo : 97 ≤ c.toNat := hge
      have hhi : c.toNat ≤ 122 := hle
      have hv : (Char.ofNat (c.toNat - 32)).toNat = c.toNat - 32 :=
        charOfNat_toNat _ (by omega)
      rw [h2] at hv
      rw [show ('.' : Char).toNat = 46 from rfl] at hv
      omega
    · rw [if_neg hc] at h2
      rw [h2]

/-- The origin value a line contributes: its parsed .ORG address, if any. -/
def orgVal (l : Str) : Option Nat :=
  if orgStarts (pyStrip l) then orgParse (pyStrip l) else none

/-- The last .ORG value of a line block (later lines win). -/
def lastOrg : List Str → Option Nat
  | [] => none
  | l :: r =>
    match lastOrg r with
    | some a => some a
    | none => orgVal l

end TASM

namespace TASM

theorem passLineCore_aligned (szOf : Str → Nat → Option Nat) (equOk : Str → Bool)
    (st1 : Pass1State) (st2 : Pass2State) (v : Str)
    (ha : st1.address = st2.addr) (he : st2.emitted = st1.emitted)
    (hno : orgStarts v = false)
    (hnh : (v.head? == some '#') = false)
    (hsz : ∀ s a sz, szOf s a = some sz → 0 < sz) :
    ∀ st1', pass1LineCore szOf equOk st1 v = some st1' →
      ∃ st2', pass2LineCore szOf st2 v = some st2' ∧
        st1'.address = st2'.addr ∧ st2'.emitted = st1'.emitted ∧
        st1'.curAddr = st1.curAddr := by
  intro st1' h1
  cases v with
  | nil =>
    rw [show pass1LineCore szOf equOk st1 [] = some st1 from rfl] at h1
    injection h1 with h1
    exact ⟨st2, rfl, by rw [← h1]; exact ha, by rw [← h1]; exact he, by rw [← h1]⟩
  | cons c r =>
    have hnh2 : (c == '#') = false := hnh
    rcases hsemi : (c == ';') with _ | _
    · -- not a comment line
      have hskip1 : ((c :: r).isEmpty || ((c :: r).head? == some ';') ||
          ((c :: r).head? == some '#')) = false := by
        show (false || (c == ';') || (c == '#')) = false
        rw [hsemi, hnh2]
        rfl
      have hskip2 : ((c :: r).isEmpty || ((c :: r).head? == some ';')) = false := by
        show (false || (c == ';')) = false
        rw [hsemi]
        rfl
      rcases hequ : isEquLine (c :: r) with _ | _
      · -- plain label/instruction line
        have hc1 : pass1LineCore szOf equOk st1 (c :: r) =
            (match labelSplit (c :: r) with
             | some (labelPart, instrPart) =>
               if validLabelName (pyStrip labelPart) = false then none
               else if (st1.labels.map Prod.fst).contains (pyStrip labelPart) then none
               else if (pyStrip instrPart).isEmpty ||
                   ((pyStrip instrPart).head? == some ';') then
                 some (Pass1State.mk st1.address st1.curAddr
                   (st1.labels ++ [(pyStrip labelPart, st1.address)]) st1.emitted)
               else
                 match szOf (pyStrip instrPart) st1.address with
                 | some sz =>
                   some (Pass1State.mk (st1.address + sz) st1.curAddr
                     (st1.labels ++ [(pyStrip labelPart, st1.address)])
                     (st1.emitted ++ [st1.address]))
                 | none => none
             | none =>
               match szOf (c :: r) st1.address with
               | some sz =>
                 some (Pass1State.mk (st1.address + sz) st1.curAddr st1.labels
                   (st1.emitted ++ [st1.address]))
               | none => none) := by
          unfold pass1LineCore
          rw [if_neg (neTrue hskip1), if_neg (neTrue hno), if_neg (neTrue hequ)]
        have hc2 : pass2LineCore szOf st2 (c :: r) =
            (match labelSplit (c :: r) with
             | some (_, instrPart) =>
               if (pyStrip instrPart).isEmpty ||
                   ((pyStrip instrPart).head? == some ';') then some st2
               else
                 match szOf (pyStrip instrPart) st2.addr with
                 | some sz =>
                   some (Pass2State.mk (st2.addr + sz) st2.curAddr
                     (if 0 < sz then st2.emitted ++ [st2.addr] else st2.emitted))
                 | none => none
             | none =>
               match szOf (c :: r) st2.addr with
               | some sz =>
                 some (Pass2State.mk (st2.addr + sz) st2.curAddr
                   (if 0 < sz then st2.emitted ++ [st2.addr] else st2.emitted))
               | none => none) := by
          unfold pass2LineCore
          rw [if_neg (neTrue hskip2), if_neg (neTrue hno), if_neg (neTrue hequ)]
        cases hls : labelSplit (c :: r) with
        | none =>
          have hv1 : pass1LineCore szOf equOk st1 (c :: r) =
              (match szOf (c :: r) st1.address with
               | some sz =>
                 some (Pass1State.mk (st1.address + sz) st1.curAddr st1.labels
                   (st1.emitted ++ [st1.address]))
               | none => none) := by rw [hc1, hls]
          have hv2 : pass2LineCore szOf st2 (c :: r) =
              (match szOf (c :: r) st1.address with
               | some sz =>
                 some (Pass2State.mk (st1.address + sz) st2.curAddr
                   (if 0 < sz then st2.emitted ++ [st1.address] else st2.emitted))
               | none => none) := by rw [hc2, hls, ← ha]
          cases hsf : szOf (c :: r) st1.address with
          | none =>
            rw [hv1, hsf] at h1
            exact absurd h1 (by simp)
          | some sz =>
            rw [hv1, hsf] at h1
            injection h1 with h1
            refine ⟨_, by rw [hv2, hsf], ?_, ?_, ?_⟩
            · rw [← h1]
            · rw [← h1]
              show (if 0 < sz then st2.emitted ++ [st1.address] else st2.emitted) = _
              rw [if_pos (hsz _ _ _ hsf), he]
            · rw [← h1]
        | some p =>
          obtain ⟨labelPart, instrPart⟩ := p
          have hv1 : pass1LineCore szOf equOk st1 (c :: r) =
              (if validLabelName (pyStrip labelPart) = false then none
               else if (st1.labels.map Prod.fst).contains (pyStrip labelPart) then none
               else if (pyStrip instrPart).isEmpty ||
                   ((pyStrip instrPart).head? == some ';') then
                 some (Pass1State.mk st1.address st1.curAddr
                   (st1.labels ++ [(pyStrip labelPart, st1.address)]) st1.emitted)
               else
                 match szOf (pyStrip instrPart) st1.address with
                 | some sz =>
                   some (Pass1State.mk (st1.address + sz) st1.curAddr
                     (st1.labels ++ [(pyStrip labelPart, st1.address)])
                     (st1.emitted ++ [st1.address]))
                 | none => none) := by rw [hc1, hls]
          have hv2 : pass2LineCore szOf st2 (c :: r) =
              (if (pyStrip instrPart).isEmpty ||
                  ((pyStrip instrPart).head? == some ';') then some st2
               else
                 match szOf (pyStrip instrPart) st1.address with
                 | some sz =>
                   some (Pass2State.mk (st1.address + sz) st2.curAddr
                     (if 0 < sz then st2.emitted ++ [st1.address] else st2.emitted))
                 | none => none) := by rw [hc2, hls, ← ha]
          rcases hvn : validLabelName (pyStrip labelPart) with _ | _
          · rw [hv1, if_pos hvn] at h1
            exact absurd h1 (by simp)
          · rw [hv1, if_neg (by rw [hvn]; exact (by decide : ¬(true = false)))] at h1
            rcases hct : ((st1.labels.map Prod.fst).contains (pyStrip labelPart)) with _ | _
            · rw [if_neg (neTrue hct)] at h1
              rcases hip : ((pyStrip instrPart).isEmpty ||
                  ((pyStrip instrPart).head? == some ';')) with _ | _
              · rw [if_neg (neTrue hip)] at h1
                cases hsf : szOf (pyStrip instrPart) st1.address with
                | none =>
                  rw [hsf] at h1
                  exact absurd h1 (by simp)
                | some sz =>
                  rw [hsf] at h1
                  injection h1 with h1
                  refine ⟨_, by rw [hv2, if_neg (neTrue hip), hsf], ?_, ?_, ?_⟩
                  · rw [← h1]
                  · rw [← h1]
                    show (if 0 < sz then st2.emitted ++ [st1.address] else st2.emitted) = _
                    rw [if_pos (hsz _ _ _ hsf), he]
                  · rw [← h1]
              · rw [if_pos hip] at h1
                injection h1 with h1
                refine ⟨st2, by rw [hv2, if_pos hip], ?_, ?_, ?_⟩
                · rw [← h1]
                  exact ha
                · rw [← h1]
                  exact he
                · rw [← h1]
            · rw [if_pos hct] at h1
              exact absurd h1 (by simp)
      · -- EQU line: pass 1 runs process_equ, pass 2 skips
        have hv1 : pass1LineCore szOf equOk st1 (c :: r) =
            (if equOk (c :: r) then some st1 else none) := by
          unfold pass1LineCore
          rw [if_neg (neTrue hskip1), if_neg (neTrue hno), if_pos hequ]
        have hv2 : pass2LineCore szOf st2 (c :: r) = some st2 := by
          unfold pass2LineCore
          rw [if_neg (neTrue hskip2), if_neg (neTrue hno), if_pos hequ]
        rcases heo : equOk (c :: r) with _ | _
        · rw [hv1, if_neg (neTrue heo)] at h1
          exact absurd h1 (by simp)
        · rw [hv1, if_pos heo] at h1
          injection h1 with h1
          exact ⟨st2, hv2, by rw [← h1]; exact ha, by rw [← h1]; exact he, by rw [← h1]⟩
    · -- comment line: both skip
      have hsk1 : ((c :: r).isEmpty || ((c :: r).head? == some ';') ||
          ((c :: r).head? == some '#')) = true := by
        show (false || (c == ';') || (c == '#')) = true
        rw [hsemi]
        rfl
      have hsk2 : ((c :: r).isEmpty || ((c :: r).head? == some ';')) = true := by
        show (false || (c == ';')) = true
        rw [hsemi]
        rfl
      have hv1 : pass1LineCore szOf equOk st1 (c :: r) = some st1 := by
        unfold pass1LineCore
        rw [if_pos hsk1]
      have hv2 : pass2LineCore szOf st2 (c :: r) = some st2 := by
        unfold pass2LineCore
        rw [if_pos hsk2]
      rw [hv1] at h1
      injection h1 with h1
      exact ⟨st2, hv2, by rw [← h1]; exact ha, by rw [← h1]; exact he, by rw [← h1]⟩

end TASM


namespace TASM

/-- A line the first pass handles without consuming code: blank, `;`
comment, .ORG, or EQU. -/
def preLine (l : Str) : Bool :=
  (pyStrip l).isEmpty || ((pyStrip l).head? == some ';') ||
  orgStarts (pyStrip l) || isEquLine (pyStrip l)

theorem pass1Go_cons_some {szOf : Str → Nat → Option Nat} {equOk : Str → Bool}
    {st st1 : Pass1State} {l : Str} (h : pass1Line szOf equOk st l = some st1)
    (rest : List Str) :
    pass1Go szOf equOk st (l :: rest) = pass1Go szOf equOk st1 rest := by
  rw [pass1Go_cons, h]

theorem pass2Go_cons_some {szOf : Str → Nat → Option Nat}
    {st st1 : Pass2State} {l : Str} (h : pass2Line szOf st l = some st1)
    (rest : List Str) :
    pass2Go szOf st (l :: rest) = pass2Go szOf st1 rest := by
  rw [pass2Go_cons, h]

theorem isEquLine_eval (l : Str) : isEquLine l =
    (!(((pyUpper l).dropWhile isPySpace).takeWhile wordChar).isEmpty &&
     !((((pyUpper l).dropWhile isPySpace).dropWhile wordChar).takeWhile
         isPySpace).isEmpty &&
     strStarts ['E', 'Q', 'U'] ((((pyUpper l).dropWhile isPySpace).dropWhile
         wordChar).dropWhile isPySpace) &&
     (match (((((pyUpper l).dropWhile isPySpace).dropWhile
         wordChar).dropWhile isPySpace).drop 3).head? with
      | some c => isPySpace c
      | none => false)) := rfl

theorem isEquLine_hash (r : Str) : isEquLine ('#' :: r) = false := by
  rw [isEquLine_eval,
    show pyUpper ('#' :: r) = '#' :: pyUpper r from rfl,
    List.dropWhile_cons,
    show isPySpace '#' = false from by decide, if_neg (by decide : ¬(false = true)),
    List.takeWhile_cons,
    show wordChar '#' = false from by decide, if_neg (by decide : ¬(false = true))]
  rfl

theorem preLineCore_step (szOf : Str → Nat → Option Nat) (equOk : Str → Bool)
    (st1 : Pass1State) (st2 : Pass2State) (v : Str)
    (hp : (v.isEmpty || (v.head? == some ';') || orgStarts v || isEquLine v) = true) :
    ∀ st1', pass1LineCore szOf equOk st1 v = some st1' →
      st1'.labels = st1.labels ∧ st1'.emitted = st1.emitted ∧
      st1'.address = (if orgStarts v then orgParse v else none).getD st1.address ∧
      st1'.curAddr = (if orgStarts v then orgParse v else none).getD st1.curAddr ∧
      pass2LineCore szOf st2 v =
        some (Pass2State.mk
          ((if orgStarts v then orgParse v else none).getD st2.addr)
          ((if orgStarts v then orgParse v else none).getD st2.curAddr)
          st2.emitted) := by
  intro st1' h1
  cases v with
  | nil =>
    rw [show pass1LineCore szOf equOk st1 [] = some st1 from rfl] at h1
    injection h1 with h1
    rw [← h1]
    exact ⟨rfl, rfl, rfl, rfl, rfl⟩
  | cons c r =>
    rcases hsemi : (c == ';') with _ | _
    · -- not a comment line
      rcases horg : orgStarts (c :: r) with _ | _
      · -- must be an EQU line
        have hequ : isEquLine (c :: r) = true := by
          have h' := hp
          rw [show ((c :: r).isEmpty || ((c :: r).head? == some ';') ||
              orgStarts (c :: r) || isEquLine (c :: r)) =
            (false || (c == ';') || orgStarts (c :: r) || isEquLine (c :: r)) from rfl,
            hsemi, horg] at h'
          simpa using h'
        have hhash : (c == '#') = false := by
          rcases hh : (c == '#') with _ | _
          · rfl
          · have hce : c = '#' := eq_of_beq hh
            rw [hce, isEquLine_hash] at hequ
            exact Bool.noConfusion hequ
        have hskip1 : ((c :: r).isEmpty || ((c :: r).head? == some ';') ||
            ((c :: r).head? == some '#')) = false := by
          show (false || (c == ';') || (c == '#')) = false
          rw [hsemi, hhash]
          rfl
        have hskip2 : ((c :: r).isEmpty || ((c :: r).head? == some ';')) = false := by
          show (false || (c == ';')) = false
          rw [hsemi]
          rfl
        have hv1 : pass1LineCore szOf equOk st1 (c :: r) =
            (if equOk (c :: r) then some st1 else none) := by
          unfold pass1LineCore
          rw [if_neg (neTrue hskip1), if_neg (neTrue horg), if_pos hequ]
        have hv2 : pass2LineCore szOf st2 (c :: r) = some st2 := by
          unfold pass2LineCore
          rw [if_neg (neTrue hskip2), if_neg (neTrue horg), if_pos hequ]
        rcases heo : equOk (c :: r) with _ | _
        · rw [hv1, if_neg (neTrue heo)] at h1
          exact absurd h1 (by simp)
        · rw [hv1, if_pos heo] at h1
          injection h1 with h1
          rw [← h1, if_neg (by decide : ¬(false = true))]
          exact ⟨rfl, rfl, rfl, rfl, by rw [hv2]; rfl⟩
      · -- a .ORG line
        obtain ⟨r', hv⟩ := orgStarts_head _ horg
        have hcd : c = '.' := by injection hv with h1v h2v
        subst hcd
        have hskip1 : (('.' :: r).isEmpty || (('.' :: r).head? == some ';') ||
            (('.' :: r).head? == some '#')) = false := by
          show (false || ('.' == ';') || ('.' == '#')) = false
          decide
        have hskip2 : (('.' :: r).isEmpty || (('.' :: r).head? == some ';')) = false := by
          show (false || ('.' == ';')) = false
          decide
        have hv1 : pass1LineCore szOf equOk st1 ('.' :: r) =
            (match orgParse ('.' :: r) with
             | some a => some (Pass1State.mk a a st1.labels st1.emitted)
             | none => none) := by
          unfold pass1LineCore
          rw [if_neg (neTrue hskip1), if_pos horg]
        cases hop : orgParse ('.' :: r) with
        | none =>
          rw [hv1, hop] at h1
          exact absurd h1 (by simp)
        | some a =>
          rw [hv1, hop] at h1
          injection h1 with h1
          have hv2 : pass2LineCore szOf st2 ('.' :: r) =
              some (Pass2State.mk a a st2.emitted) := by
            unfold pass2LineCore
            rw [if_neg (neTrue hskip2), if_pos horg, hop]
          rw [← h1]
          exact ⟨rfl, rfl, rfl, rfl, by rw [hv2]; rfl⟩
    · -- comment line: both passes skip it
      have hce : c = ';' := eq_of_beq hsemi
      subst hce
      have horg : orgStarts (';' :: r) = false := rfl
      have hsk1 : ((';' :: r).isEmpty || ((';' :: r).head? == some ';') ||
          ((';' :: r).head? == some '#')) = true := by
        show (false || (';' == ';') || (';' == '#')) = true
        decide
      have hsk2 : ((';' :: r).isEmpty || ((';' :: r).head? == some ';')) = true := by
        show (false || (';' == ';')) = true
        decide
      have hv1 : pass1LineCore szOf equOk st1 (';' :: r) = some st1 := by
        unfold pass1LineCore
        rw [if_pos hsk1]
      have hv2 : pass2LineCore szOf st2 (';' :: r) = some st2 := by
        unfold pass2LineCore
        rw [if_pos hsk2]
      rw [hv1] at h1
      injection h1 with h1
      rw [← h1, if_neg (neTrue horg)]
      exact ⟨rfl, rfl, rfl, rfl, by rw [hv2]; rfl⟩

end TASM

namespace TASM

theorem lastOrg_cons_getD (l : Str) (pre : List Str) (X Y : Nat)
    (hY : Y = (orgVal l).getD X) :
    (lastOrg (l :: pre)).getD X = (lastOrg pre).getD Y := by
  show (match lastOrg pre with | some a => some a | none => orgVal l).getD X = _
  cases hlo : lastOrg pre with
  | some b => rfl
  | none =>
    rw [hY]
    rfl

theorem getD_getD (o : Option Nat) (d : Nat) : o.getD (o.getD d) = o.getD d := by
  cases o <;> rfl

theorem preGo_aligned (szOf : Str → Nat → Option Nat) (equOk : Str → Bool) :
    ∀ (pre : List Str) (st1 : Pass1State) (st2 : Pass2State),
    (∀ l ∈ pre, preLine l = true) →
    st1.address = st1.curAddr →
    (pass1Go szOf equOk st1 pre).1 = true →
    (pass1Go szOf equOk st1 pre).2 =
      Pass1State.mk ((lastOrg pre).getD st1.address) ((lastOrg pre).getD st1.address)
        st1.labels st1.emitted ∧
    pass2Go szOf st2 pre =
      (true, Pass2State.mk ((lastOrg pre).getD st2.addr)
        ((lastOrg pre).getD st2.curAddr) st2.emitted) := by
  intro pre
  induction pre with
  | nil =>
    intro st1 st2 hall hinv hok
    constructor
    · show st1 = _
      obtain ⟨ad, ca, lb, em⟩ := st1
      show Pass1State.mk ad ca lb em = Pass1State.mk ad ad lb em
      have hin : ad = ca := hinv
      rw [hin]
    · show (true, st2) = _
      obtain ⟨a2, c2, e2⟩ := st2
      rfl
  | cons l pre ih =>
    intro st1 st2 hall hinv hok
    have hpl : preLine l = true := hall l (List.mem_cons_self _ _)
    cases h1l : pass1Line szOf equOk st1 l with
    | none =>
      rw [pass1Go_cons, h1l] at hok
      exact Bool.noConfusion hok
    | some st1' =>
      obtain ⟨hlb, hem, had, hcu, h2l⟩ :=
        preLineCore_step szOf equOk st1 st2 (pyStrip l) hpl st1' h1l
      have hadO : st1'.address = (orgVal l).getD st1.address := had
      have hcuO : st1'.curAddr = (orgVal l).getD st1.curAddr := hcu
      have hinv' : st1'.address = st1'.curAddr := by rw [hadO, hcuO, hinv]
      have hok' : (pass1Go szOf equOk st1' pre).1 = true := by
        rw [pass1Go_cons_some h1l] at hok
        exact hok
      obtain ⟨ihA, ihB⟩ := ih st1'
        (Pass2State.mk ((orgVal l).getD st2.addr) ((orgVal l).getD st2.curAddr)
          st2.emitted)
        (fun x hx => hall x (List.mem_cons_of_mem _ hx)) hinv' hok'
      have hrw : (lastOrg (l :: pre)).getD st1.address =
          (lastOrg pre).getD st1'.address :=
        lastOrg_cons_getD l pre st1.address st1'.address hadO
      constructor
      · rw [pass1Go_cons_some h1l, ihA, hlb, hem, hrw]
      · have h2l' : pass2Line szOf st2 l =
            some (Pass2State.mk ((orgVal l).getD st2.addr)
              ((orgVal l).getD st2.curAddr) st2.emitted) := h2l
        have hrw2 : (lastOrg (l :: pre)).getD st2.addr =
            (lastOrg pre).getD ((orgVal l).getD st2.addr) :=
          lastOrg_cons_getD l pre st2.addr _ rfl
        have hrw3 : (lastOrg (l :: pre)).getD st2.curAddr =
            (lastOrg pre).getD ((orgVal l).getD st2.curAddr) :=
          lastOrg_cons_getD l pre st2.curAddr _ rfl
        rw [pass2Go_cons_some h2l', ihB, hrw2, hrw3]

theorem postGo_aligned (szOf : Str → Nat → Option Nat) (equOk : Str → Bool)
    (hsz : ∀ s a sz, szOf s a = some sz → 0 < sz) :
    ∀ (post : List Str) (st1 : Pass1State) (st2 : Pass2State),
    (∀ l ∈ post, orgStarts (pyStrip l) = false ∧
      ((pyStrip l).head? == some '#') = false) →
    st1.address = st2.addr → st2.emitted = st1.emitted →
    (pass1Go szOf equOk st1 post).1 = true →
    (pass2Go szOf st2 post).1 = true ∧
    (pass2Go szOf st2 post).2.emitted = (pass1Go szOf equOk st1 post).2.emitted ∧
    (pass1Go szOf equOk st1 post).2.curAddr = st1.curAddr := by
  intro post
  induction post with
  | nil =>
    intro st1 st2 hall ha he hok
    exact ⟨rfl, he, rfl⟩
  | cons l post ih =>
    intro st1 st2 hall ha he hok
    obtain ⟨hno, hnh⟩ := hall l (List.mem_cons_self _ _)
    cases h1l : pass1Line szOf equOk st1 l with
    | none =>
      rw [pass1Go_cons, h1l] at hok
      exact Bool.noConfusion hok
    | some st1' =>
      obtain ⟨st2', h2l, ha', he', hcu⟩ :=
        passLineCore_aligned szOf equOk st1 st2 (pyStrip l) ha he hno hnh hsz st1' h1l
      have hok' : (pass1Go szOf equOk st1' post).1 = true := by
        rw [pass1Go_cons_some h1l] at hok
        exact hok
      obtain ⟨r1, r2, r3⟩ := ih st1' st2'
        (fun x hx => hall x (List.mem_cons_of_mem _ hx)) ha' he' hok'
      refine ⟨?_, ?_, ?_⟩
      · rw [pass2Go_cons_some h2l]
        exact r1
      · rw [pass2Go_cons_some h2l, pass1Go_cons_some h1l]
        exact r2
      · rw [pass1Go_cons_some h1l, r3, hcu]

end TASM

namespace TASM

/-- C6 (amended): the two passes assign the same address to every
code-producing line under two conditions the spec does not state: no .ORG
directive follows a code line (the sources split as `pre ++ post` with
`pre` only blank/comment/.ORG/EQU lines and `post` free of .ORG and of `#`
lines, which only pass 1 skips), and the pass-1 sizing (find_instruction
by mnemonic and operand count alone, `szOf`) agrees line by line with the
pass-2 sizing (encode_instruction's operand-driven selection, `szOf2`).
All instruction sizes positive; pass 1 assumed to succeed. -/
theorem C6_two_pass_addresses (szOf szOf2 : Str → Nat → Option Nat)
    (equOk : Str → Bool) (origin : Nat) (pre post : List Str)
    (hagree : ∀ s a, szOf s a = szOf2 s a)
    (hsz : ∀ s a sz, szOf s a = some sz → 0 < sz)
    (hpre : ∀ l ∈ pre, preLine l = true)
    (hpost : ∀ l ∈ post, orgStarts (pyStrip l) = false ∧
      ((pyStrip l).head? == some '#') = false)
    (hok : (firstPass szOf equOk origin (pre ++ post)).1 = true) :
    (secondPass szOf2 (firstPass szOf equOk origin (pre ++ post)).2.curAddr
        (pre ++ post)).1 = true ∧
    (secondPass szOf2 (firstPass szOf equOk origin (pre ++ post)).2.curAddr
        (pre ++ post)).2.emitted =
      (firstPass szOf equOk origin (pre ++ post)).2.emitted := by
  have hfe : szOf2 = szOf := funext (fun s => funext (fun a => (hagree s a).symm))
  subst szOf2
  have hsplit1 := pass1Go_append szOf equOk pre post ⟨origin, origin, [], []⟩
  rcases hp1 : (pass1Go szOf equOk ⟨origin, origin, [], []⟩ pre).1 with _ | _
  · exfalso
    have hok' : (pass1Go szOf equOk ⟨origin, origin, [], []⟩ (pre ++ post)).1 =
        true := hok
    rw [hsplit1, if_neg (by rw [hp1]; exact (by decide : ¬(false = true))), hp1] at hok'
    exact Bool.noConfusion hok'
  · obtain ⟨hA, hB⟩ := preGo_aligned szOf equOk pre ⟨origin, origin, [], []⟩
      ⟨(lastOrg pre).getD origin, (lastOrg pre).getD origin, []⟩ hpre rfl hp1
    have hok2 : (pass1Go szOf equOk
        (Pass1State.mk ((lastOrg pre).getD origin) ((lastOrg pre).getD origin) [] [])
        post).1 = true := by
      have hok' : (pass1Go szOf equOk ⟨origin, origin, [], []⟩ (pre ++ post)).1 =
          true := hok
      rw [hsplit1, if_pos hp1, hA] at hok'
      exact hok'
    obtain ⟨q1, q2, q3⟩ := postGo_aligned szOf equOk hsz post
      (Pass1State.mk ((lastOrg pre).getD origin) ((lastOrg pre).getD origin) [] [])
      (Pass2State.mk ((lastOrg pre).getD origin) ((lastOrg pre).getD origin) [])
      hpost rfl rfl hok2
    have hfull : firstPass szOf equOk origin (pre ++ post) =
        pass1Go szOf equOk
          (Pass1State.mk ((lastOrg pre).getD origin) ((lastOrg pre).getD origin) [] [])
          post := by
      show pass1Go szOf equOk ⟨origin, origin, [], []⟩ (pre ++ post) = _
      rw [hsplit1, if_pos hp1, hA]
    have hS : (firstPass szOf equOk origin (pre ++ post)).2.curAddr =
        (lastOrg pre).getD origin := by
      rw [hfull, q3]
    have hsp : secondPass szOf
        (firstPass szOf equOk origin (pre ++ post)).2.curAddr (pre ++ post) =
        pass2Go szOf
          (Pass2State.mk ((lastOrg pre).getD origin) ((lastOrg pre).getD origin) [])
          post := by
      show pass2Go szOf
        ⟨(firstPass szOf equOk origin (pre ++ post)).2.curAddr,
         (firstPass szOf equOk origin (pre ++ post)).2.curAddr, []⟩ (pre ++ post) = _
      rw [hS, pass2Go_append szOf pre post
        ⟨(lastOrg pre).getD origin, (lastOrg pre).getD origin, []⟩, hB,
        if_pos (rfl : (true, Pass2State.mk
          ((lastOrg pre).getD ((lastOrg pre).getD origin))
          ((lastOrg pre).getD ((lastOrg pre).getD origin)) []).1 = true)]
      show pass2Go szOf
        (Pass2State.mk ((lastOrg pre).getD ((lastOrg pre).getD origin))
          ((lastOrg pre).getD ((lastOrg pre).getD origin)) []) post = _
      rw [getD_getD]
    refine ⟨?_, ?_⟩
    · rw [hsp]
      exact q1
    · rw [hsp, hfull]
      exact q2

theorem C6_witness :
    (∀ l ∈ [['.', 'O', 'R', 'G', ' ', '$', '1', '0', '0']], preLine l = true) ∧
    (secondPass (fun _ _ => some 2)
        (firstPass (fun _ _ => some 2) (fun _ => true) 2147483648
          ([['.', 'O', 'R', 'G', ' ', '$', '1', '0', '0']] ++
           [['m', 'o', 'v']])).2.curAddr
        ([['.', 'O', 'R', 'G', ' ', '$', '1', '0', '0']] ++ [['m', 'o', 'v']])).2.emitted =
      (firstPass (fun _ _ => some 2) (fun _ => true) 2147483648
        ([['.', 'O', 'R', 'G', ' ', '$', '1', '0', '0']] ++ [['m', 'o', 'v']])).2.emitted :=
  ⟨by decide,
   (C6_two_pass_addresses (fun _ _ => some 2) (fun _ _ => some 2) (fun _ => true)
     2147483648 [['.', 'O', 'R', 'G', ' ', '$', '1', '0', '0']] [['m', 'o', 'v']]
     (fun _ _ => rfl)
     (fun s a sz h => by injection h with h; omega)
     (by decide) (by decide) (by decide)).2⟩

end TASM

namespace TASM

def lbrace : Char := Char.ofNat 123

def rbrace : Char := Char.ofNat 125

/-- `pat in s` (Python substring test). -/
def strHasSub (pat : Str) : Str → Bool
  | [] => strStarts pat []
  | c :: r => strStarts pat (c :: r) || strHasSub pat r

/-- Case-insensitive prefix test against an already-lowercase pattern. -/
def strStartsCI : Str → Str → Bool
  | [], _ => true
  | _ :: _, [] => false
  | c :: p, d :: s => c == lowerCh d && strStartsCI p s

/-- Value of a run of decimal digits. -/
def natOfDigits (d : Str) : Nat := d.foldl (fun a c => a * 10 + (c.toNat - 48)) 0

/-- Python str.split(',') — empty fields kept. -/
def splitComma : Str → List Str
  | [] => [[]]
  | c :: r =>
    if c = ',' then [] :: splitComma r
    else
      match splitComma r with
      | h :: t => (c :: h) :: t
      | [] => [[c]]

/-- Python s.split(None, 1): first whitespace-delimited word and the rest
(leading whitespace of the rest consumed); none when s is all whitespace. -/
def splitWs1 (s : Str) : Option (Str × Str) :=
  match s.dropWhile isPySpace with
  | [] => none
  | c :: r =>
    some ((c :: r).takeWhile (fun d => !isPySpace d),
      ((c :: r).dropWhile (fun d => !isPySpace d)).dropWhile isPySpace)

/-- One step machine of `re.sub(r'\x7b[^\x7d]+\x7d', '', s)`: drop each
brace group with non-empty content, keep unmatched braces. -/
def removeBracesF : Nat → Str → Str
  | 0, s => s
  | _ + 1, [] => []
  | f + 1, c :: r =>
    if c = lbrace then
      match r.takeWhile (fun d => !(d == rbrace)), r.dropWhile (fun d => !(d == rbrace)) with
      | inside, _ :: rest =>
        if inside = [] then c :: removeBracesF f r else removeBracesF f rest
      | _, [] => c :: removeBracesF f r
    else c :: removeBracesF f r

def removeBraces (s : Str) : Str := removeBracesF s.length s

/-- `re.search(r'\x7b([^\x7d]+)\x7d', s)`: first brace group — its content
and the text before the match. -/
def findBraceF : Nat → Str → Str → Option (Str × Str)
  | 0, _, _ => none
  | _ + 1, _, [] => none
  | f + 1, acc, c :: r =>
    if c = lbrace then
      match r.takeWhile (fun d => !(d == rbrace)), r.dropWhile (fun d => !(d == rbrace)) with
      | inside, _ :: _ =>
        if inside = [] then findBraceF f (c :: acc) r else some (inside, acc.reverse)
      | _, [] => findBraceF f (c :: acc) r
    else findBraceF f (c :: acc) r

def findBrace (s : Str) : Option (Str × Str) := findBraceF s.length [] s

/-- `re.findall(r'\[(\d+):(\d+)\]', s)`: all [hi:lo] windows in order. -/
def parseFieldsF : Nat → Str → List (Nat × Nat)
  | 0, _ => []
  | _ + 1, [] => []
  | f + 1, c :: r =>
    if c = '[' then
      match r.takeWhile isDigitCh, r.dropWhile isDigitCh with
      | d1@(_ :: _), ':' :: r2 =>
        (match r2.takeWhile isDigitCh, r2.dropWhile isDigitCh with
         | d2@(_ :: _), ']' :: r4 =>
           (natOfDigits d1, natOfDigits d2) :: parseFieldsF f r4
         | _, _ => parseFieldsF f r)
      | _, _ => parseFieldsF f r
    else parseFieldsF f r

def parseFields (s : Str) : List (Nat × Nat) := parseFieldsF s.length s

/-- The `(off|imm|disp|const|rel)(\d+)` width keywords, in alternation order. -/
def widthKws : List Str :=
  [['o', 'f', 'f'], ['i', 'm', 'm'], ['d', 'i', 's', 'p'],
   ['c', 'o', 'n', 's', 't'], ['r', 'e', 'l']]

/-- Try the width keywords at the current position. -/
def tryKw (s : Str) : Option Nat :=
  (widthKws.filterMap (fun kw =>
    if strStartsCI kw s then
      match (s.drop kw.length).takeWhile isDigitCh with
      | [] => none
      | ds => some (natOfDigits ds)
    else none)).head?

/-- `re.search(r'(off|imm|disp|const|rel)(\d+)', s, re.IGNORECASE)`. -/
def searchWidth : Str → Option Nat
  | [] => none
  | c :: r =>
    match tryKw (c :: r) with
    | some w => some w
    | none => searchWidth r

end TASM

namespace TASM

/-- An instruction table row as the selector sees it: mnemonic, syntax
string, opcode size in bits, operand count, and the five
(op_pos, op_len) pairs backing get_operand_info. -/
structure IDef where
  instruction : Str
  syn : Str
  opcodeSize : Nat
  operandCount : Nat
  opInfo : List (Nat × Nat)
  deriving DecidableEq, Repr

/-- InstructionDefinition.get_operand_info (1-based; out of range → (0,0)). -/
def getOperandInfo (d : IDef) (n : Nat) : Nat × Nat :=
  if 1 ≤ n ∧ n ≤ 5 then d.opInfo.getD (n - 1) (0, 0) else (0, 0)

/-- The brace-stripped, comma-split, per-piece-stripped operand patterns of
a syntax string (used identically by loader and encoder; [] when the syntax
has no operand part). -/
def operandPatterns (syn : Str) : List Str :=
  match splitWs1 syn with
  | none => []
  | some (_, rest) =>
    if rest = [] then []
    else (splitComma (removeBraces rest)).map pyStrip

/-- InstructionDefinition.get_operand_bit_width: split-field sum from a
brace spec in the raw comma-split pattern, else the first
(off|imm|disp|const|rel)N keyword, else the stored op_len. All brace
windows in the tables considered satisfy hi ≥ lo. -/
def getOperandBitWidth (d : IDef) (operandNum : Nat) : Nat :=
  match splitWs1 d.syn with
  | none => (getOperandInfo d operandNum).2
  | some (_, rest) =>
    if rest = [] then (getOperandInfo d operandNum).2
    else
      let pats := (splitComma rest).map pyStrip
      if pats.length < operandNum then (getOperandInfo d operandNum).2
      else
        let pattern := pats.getD (operandNum - 1) []
        match findBrace pattern with
        | some (content, _) =>
          (parseFields content).foldl (fun acc hl => acc + (hl.1 - hl.2 + 1)) 0
        | none =>
          match searchWidth pattern with
          | some w => w
          | none => (getOperandInfo d operandNum).2

def regLetterCI (c : Char) : Bool := ['d', 'a', 'e', 'p', 'c'].contains (lowerCh c)

/-- _is_specific_register_syntax: (is_specific, reg_type, reg_number). -/
def isSpecificRegisterSyntax (s : Str) : Bool × Option Char × Option Nat :=
  match s with
  | c0 :: c1 :: r =>
    if regLetterCI c0 && c1 = '[' then
      match r.takeWhile isDigitCh, r.dropWhile isDigitCh with
      | _ :: _, ']' :: _ =>
        (true, some (upperCh c0), some (natOfDigits (r.takeWhile isDigitCh)))
      | _, _ =>
        match r with
        | x :: ']' :: _ =>
          if isAsciiAlpha x then (false, some (upperCh c0), none) else (false, none, none)
        | _ => (false, none, none)
    else (false, none, none)
  | _ => (false, none, none)

/-- What _extract_register_info returns: nothing, a (type, number) pair, or
the odd ((type, n1), n2) nested tuple of the compound "[x1]2" branch. -/
inductive RegInfo
  | noReg
  | reg (t : Char) (n : Nat)
  | comp (t : Char) (n1 n2 : Nat)
  deriving DecidableEq, Repr

/-- `^\[([DAEPCaepc][0-9]+)\](\d+)$` (note: no lowercase d in the class). -/
def matchCompound (s : Str) : Option RegInfo :=
  match s with
  | '[' :: c :: rest =>
    if ['D', 'A', 'E', 'P', 'C', 'a', 'e', 'p', 'c'].contains c then
      match rest.takeWhile isDigitCh, rest.dropWhile isDigitCh with
      | d1@(_ :: _), ']' :: r2 =>
        (match r2.takeWhile isDigitCh, r2.dropWhile isDigitCh with
         | d2@(_ :: _), [] => some (RegInfo.comp (upperCh c) (natOfDigits d1) (natOfDigits d2))
         | _, _ => none)
      | _, _ => none
    else none
  | _ => none

/-- `\[([DAEPC])\[(\d+)\]\]` prefix, case-insensitive. -/
def matchDoubleBr (s : Str) : Option RegInfo :=
  match s with
  | '[' :: c :: '[' :: rest =>
    if regLetterCI c then
      match rest.takeWhile isDigitCh, rest.dropWhile isDigitCh with
      | d1@(_ :: _), ']' :: ']' :: _ => some (RegInfo.reg (upperCh c) (natOfDigits d1))
      | _, _ => none
    else none
  | _ => none

/-- `([DAEPC])\[(\d+)\]` prefix, case-insensitive. -/
def matchTypeBr (s : Str) : Option RegInfo :=
  match s with
  | c :: '[' :: rest =>
    if regLetterCI c then
      match rest.takeWhile isDigitCh, rest.dropWhile isDigitCh with
      | d1@(_ :: _), ']' :: _ => some (RegInfo.reg (upperCh c) (natOfDigits d1))
      | _, _ => none
    else none
  | _ => none

/-- `\[([DAEPC])(\d+)\]` prefix, case-insensitive. -/
def matchBrTypeNum (s : Str) : Option RegInfo :=
  match s with
  | '[' :: c :: rest =>
    if regLetterCI c then
      match rest.takeWhile isDigitCh, rest.dropWhile isDigitCh with
      | d1@(_ :: _), ']' :: _ => some (RegInfo.reg (upperCh c) (natOfDigits d1))
      | _, _ => none
    else none
  | _ => none

/-- `([DAEPC])(\d+)` prefix, case-insensitive. -/
def matchTypeNum (s : Str) : Option RegInfo :=
  match s with
  | c :: rest =>
    if regLetterCI c then
      match rest.takeWhile isDigitCh with
      | d1@(_ :: _) => some (RegInfo.reg (upperCh c) (natOfDigits d1))
      | _ => none
    else none
  | _ => none

/-- _extract_register_info, with its pattern cascade. -/
def extractRegisterInfo (operand : Str) : RegInfo :=
  let s := pyStrip operand
  match matchCompound s with
  | some i => i
  | none =>
    match matchDoubleBr s with
    | some i => i
    | none =>
      match matchTypeBr s with
      | some i => i
      | none =>
        match matchBrTypeNum s with
        | some i => i
        | none =>
          match matchTypeNum s with
          | some i => i
          | none => RegInfo.noReg

/-- _operand_matches_syntax_register. -/
def operandMatchesSyntaxRegister (operand syntaxPart : Str) : Bool :=
  match extractRegisterInfo operand with
  | RegInfo.noReg => true
  | info =>
    match isSpecificRegisterSyntax syntaxPart with
    | (_, none, _) => true
    | (isSpec, some synType, synNum) =>
      match info with
      | RegInfo.reg t n =>
        if t == synType then (if isSpec then synNum == some n else true) else false
      | RegInfo.comp _ _ _ => false
      | RegInfo.noReg => true

end TASM

namespace TASM

/-- Operand type labels used by find_instruction. -/
inductive OpType
  | regD
  | regA
  | regE
  | regP
  | imm
  deriving DecidableEq, Repr

/-- _classify_operand_type_simple. -/
def classifyOperandTypeSimple (op : Str) : OpType :=
  let clean := ((pyStrip op).filter
    (fun c => !(c == '[' || c == ']' || c == '#'))).map lowerCh
  match clean with
  | c :: _ =>
    if c = 'd' then OpType.regD
    else if c = 'a' then OpType.regA
    else if c = 'e' then OpType.regE
    else if c = 'p' then OpType.regP
    else OpType.imm
  | [] => OpType.imm

def regOfLetter (t : Char) : OpType :=
  if t = 'D' then OpType.regD
  else if t = 'A' then OpType.regA
  else if t = 'E' then OpType.regE
  else OpType.regP

/-- `^\[([DAEP])\[(\d+)\]\]` on the uppercased pattern. -/
def matchFixedRegPattern (u : Str) : Option OpType :=
  match u with
  | '[' :: t :: '[' :: rest =>
    if ['D', 'A', 'E', 'P'].contains t then
      match rest.takeWhile isDigitCh, rest.dropWhile isDigitCh with
      | _ :: _, ']' :: ']' :: _ => some (regOfLetter t)
      | _, _ => none
    else none
  | _ => none

/-- `^([DAEP])\s*\[` on the uppercased pattern. -/
def matchRegPattern (u : Str) : Option OpType :=
  match u with
  | t :: r =>
    if ['D', 'A', 'E', 'P'].contains t && ((r.dropWhile isPySpace).head? == some '[') then
      some (regOfLetter t)
    else none
  | [] => none

/-- InstructionDefinition._parse_syntax_operand_types. -/
def parseSyntaxOperandTypes (syn : Str) : List OpType :=
  (operandPatterns syn).map (fun pattern =>
    let u := pyUpper (pyStrip pattern)
    match matchFixedRegPattern u with
    | some t => t
    | none =>
      match matchRegPattern u with
      | some t => t
      | none => OpType.imm)

/-- The operand-value classification of _find_best_variant_by_operand_range:
registers (first cleaned character a/d/e/p) become None, everything else is
parse_numeric (None again on failure). -/
def operandValue (s : Str) : Option Int :=
  let clean := pyStrip s
  let inner := pyStrip (clean.filter (fun c => !(c == '[' || c == ']' || c == '#')))
  match inner with
  | [] => nparseSigned (pyStrip (clean.filter (fun c => !(c == '#'))))
  | c :: _ =>
    if lowerCh c == 'a' || lowerCh c == 'd' || lowerCh c == 'e' || lowerCh c == 'p' then none
    else nparseSigned (pyStrip (clean.filter (fun c => !(c == '#'))))

/-- `re.search(r'\boff\d+\b', s, re.IGNORECASE)` as a boundary-aware scan. -/
def searchOffWordF : Option Char → Str → Bool
  | _, [] => false
  | prev, c :: r =>
    let boundary := match prev with
      | none => true
      | some p => !wordChar p
    if boundary && strStartsCI ['o', 'f', 'f'] (c :: r) then
      let after := (c :: r).drop 3
      match after.takeWhile isDigitCh, (after.dropWhile isDigitCh).head? with
      | _ :: _, none => true
      | _ :: _, some x => if wordChar x then searchOffWordF (some c) r else true
      | [], _ => searchOffWordF (some c) r
    else searchOffWordF (some c) r

def searchOffWord (s : Str) : Bool := searchOffWordF none s

/-- LD.W / ST.W / LD.A / LEA: word-aligned mnemonics with implicit /4. -/
def wordAligned : List Str :=
  [['L', 'D', '.', 'W'], ['S', 'T', '.', 'W'], ['L', 'D', '.', 'A'], ['L', 'E', 'A']]

/-- The /4, /2 and implicit word-offset scaling applied to a value before
the range check (Python // = floor division). -/
def scaledValue (mnem : Str) (syntaxOp : Str) (v : Int) : Int :=
  if strHasSub ['/', '4'] syntaxOp then Int.fdiv v 4
  else if strHasSub ['/', '2'] syntaxOp then Int.fdiv v 2
  else if strHasSub ['o', 'f', 'f'] (syntaxOp.map lowerCh) &&
      !strHasSub ['/', '4'] syntaxOp then
    if wordAligned.contains mnem then
      if searchOffWord syntaxOp then Int.fdiv v 4 else v
    else v
  else v

/-- The per-variant fit loop of _find_best_variant_by_operand_range. -/
def canFit (d : IDef) (operands : List Str) (operandValues : List (Option Int)) : Bool :=
  let syntaxOps := operandPatterns d.syn
  (List.range operandValues.length).all (fun i =>
    match operandValues.getD i none with
    | none =>
      if i < syntaxOps.length && i < operands.length then
        let parsedOp := operands.getD i []
        let cleanOp := (pyStrip parsedOp).filter (fun c => !(c == '[' || c == ']' || c == '#'))
        let isReg := match cleanOp with
          | c :: _ => ['a', 'd', 'e', 'p'].contains (lowerCh c)
          | [] => false
        if isReg then operandMatchesSyntaxRegister parsedOp (syntaxOps.getD i []) else true
      else true
    | some orig =>
      let opLen := getOperandBitWidth d (i + 1)
      if opLen = 0 then true
      else
        let value := if i < syntaxOps.length then
          scaledValue d.instruction (syntaxOps.getD i []) orig else orig
        let maxS : Int := 2 ^ (opLen - 1) - 1
        let minS : Int := -(2 ^ (opLen - 1) : Int)
        let maxU : Int := 2 ^ opLen - 1
        decide ((minS ≤ value ∧ value ≤ maxS) ∨ (0 ≤ value ∧ value ≤ maxU)))

/-- calculate_non_specific_matches. -/
def calcNonSpecific (d : IDef) (operands : List Str) : Nat :=
  (List.zip (operandPatterns d.syn) operands).foldl (fun acc p =>
    if (isSpecificRegisterSyntax p.1).1 then acc
    else
      match extractRegisterInfo p.2 with
      | RegInfo.noReg => acc
      | RegInfo.reg _ _ => acc + 1
      | RegInfo.comp _ _ _ => acc + 1) 0

/-- Lexicographic comparison of (non_specific_matches, size key). -/
def keyLt (a b : Nat × Int) : Bool := a.1 < b.1 || (a.1 == b.1 && a.2 < b.2)

/-- `sorted(vs, key)[0]`: the first element with minimal key (Python sort
is stable). -/
def pickBest (key : IDef → Nat × Int) : List IDef → Option IDef
  | [] => none
  | v :: vs => some (vs.foldl (fun best y => if keyLt (key y) (key best) then y else best) v)

/-- _find_best_variant_by_operand_range (src/src/instruction_loader.py
lines 1037-1258), including its vacuous `i < len(operand_values)` guard in
has_labels. -/
def findBestVariantByOperandRange (variants : List IDef) (operands : List Str) :
    Option IDef :=
  let operandValues := operands.map operandValue
  let suitable := variants.filter (fun v => canFit v operands operandValues)
  if suitable = [] then none
  else
    let hasLabels := operandValues.enum.any (fun p =>
      decide (p.2 = none) && decide (p.1 < operandValues.length))
    if hasLabels then
      pickBest (fun v => (calcNonSpecific v operands, -(v.opcodeSize : Int))) suitable
    else
      pickBest (fun v => (calcNonSpecific v operands, (v.opcodeSize : Int))) suitable

end TASM

namespace TASM

/-- `^%?[dDaAeEpP](\d+|\\d+\\])$` — the LOOP-case register test. -/
def loopRegMatch (s : Str) : Bool :=
  let t := match s with
    | '%' :: r => r
    | _ => s
  match t with
  | c :: r =>
    if ['d', 'a', 'e', 'p'].contains (lowerCh c) then
      (!r.isEmpty && r.all isDigitCh) ||
      (match r with
       | '\\' :: r2 =>
         (!(r2.takeWhile (fun d => d == 'd')).isEmpty &&
          r2.dropWhile (fun d => d == 'd') == ['\\', ']'])
       | _ => false)
    else false
  | [] => false

/-- `sort(key=opcode_size, reverse=True)[0]`: first element of maximal size. -/
def pickMaxSize : List IDef → Option IDef
  | [] => none
  | v :: vs =>
    some (vs.foldl (fun best y => if best.opcodeSize < y.opcodeSize then y else best) v)

/-- `sort(key=opcode_size)[0]`: first element of minimal size. -/
def pickMinSize : List IDef → Option IDef
  | [] => none
  | v :: vs =>
    some (vs.foldl (fun best y => if y.opcodeSize < best.opcodeSize then y else best) v)

/-- The no_implicit filter: syntax must not mention a[10]/a[15]/a10/a15. -/
def noImplicitOk (v : IDef) : Bool :=
  let ls := v.syn.map lowerCh
  !(strHasSub ['a', '[', '1', '0', ']'] ls || strHasSub ['a', '[', '1', '5', ']'] ls ||
    strHasSub ['a', '1', '0'] ls || strHasSub ['a', '1', '5'] ls)

/-- `^([DAEP])\[(\d+)\]` on the uppercased syntax operand. -/
def specRegPrefix (u : Str) : Option (Char × Nat) :=
  match u with
  | t :: '[' :: r =>
    if ['D', 'A', 'E', 'P'].contains t then
      match r.takeWhile isDigitCh, r.dropWhile isDigitCh with
      | d1@(_ :: _), ']' :: _ => some (t, natOfDigits d1)
      | _, _ => none
    else none
  | _ => none

/-- `^([DAEP])(\d+)$` on the cleaned uppercased operand. -/
def fullRegMatch (u : Str) : Option (Char × Nat) :=
  match u with
  | t :: r =>
    if ['D', 'A', 'E', 'P'].contains t && !r.isEmpty && r.all isDigitCh then
      some (t, natOfDigits r)
    else none
  | [] => none

/-- The specific-register compatibility filter inside find_instruction:
a variant demanding D[15] is dropped unless the operand is exactly D15. -/
def variantCompatible (v : IDef) (operands : List Str) : Bool :=
  match splitWs1 v.syn with
  | none => true
  | some (_, rest) =>
    if rest = [] then true
    else
      let sol := (splitComma (removeBraces (pyStrip rest))).map pyStrip
      (List.zip sol operands).all (fun p =>
        match specRegPrefix (pyUpper p.1) with
        | none => true
        | some (rt, rn) =>
          let ac := pyUpper ((pyStrip p.2).filter (fun c => !(c == '[' || c == ']')))
          match fullRegMatch ac with
          | none => true
          | some (at2, an) => at2 == rt && an == rn)

/-- InstructionSetLoader.find_instruction (src/src/instruction_loader.py
lines 519-673) for string operands: LOOP special case, count filter,
force_32bit / no_implicit filters, single-variant shortcut, exact type
match with the specific-register compatibility check, range-based
selection among multiple matches (largest variant if it fails), smallest
variant as the final fallback. -/
def findInstruction (force32 noImplicit : Bool) (variants : List IDef)
    (mnemonic : Str) (operandCount : Nat) (operands : List Str) : Option IDef :=
  let loopCase : Option IDef :=
    if pyUpper mnemonic == ['L', 'O', 'O', 'P'] && !operands.isEmpty then
      let hasLabel := operands.any (fun op =>
        let oc := pyStrip op
        !loopRegMatch oc && !(oc.head? == some '#'))
      if hasLabel then
        let mbc := variants.filter (fun v => v.operandCount == operandCount)
        if 1 < mbc.length then pickMaxSize mbc else none
      else none
    else none
  match loopCase with
  | some v => some v
  | none =>
    let mv0 := variants.filter (fun v => v.operandCount == operandCount)
    if mv0 = [] then none
    else
      let mv1 := if force32 then mv0.filter (fun v => 32 ≤ v.opcodeSize) else mv0
      if mv1 = [] then none
      else
        let mv2 := if noImplicit then mv1.filter noImplicitOk else mv1
        if mv2 = [] then none
        else if mv2.length = 1 then mv2.head?
        else if !operands.isEmpty then
          let operandTypes := operands.map classifyOperandTypeSimple
          let typeMatched := mv2.filter (fun v =>
            parseSyntaxOperandTypes v.syn == operandTypes && variantCompatible v operands)
          if typeMatched ≠ [] then
            if 1 < typeMatched.length then
              match findBestVariantByOperandRange typeMatched operands with
              | some b => some b
              | none => pickMaxSize typeMatched
            else typeMatched.head?
          else pickMinSize mv2
        else pickMinSize mv2

end TASM

namespace TASM

/-- 16-bit `MOV D[a], const4` table row. -/
def mv16 : IDef :=
  ⟨"MOV".toList, "MOV D[a], const4".toList, 16, 2,
   [(8, 4), (12, 4), (0, 0), (0, 0), (0, 0)]⟩

/-- 32-bit `MOV D[c], const16` table row. -/
def mv32 : IDef :=
  ⟨"MOV".toList, "MOV D[c], const16".toList, 32, 2,
   [(28, 4), (12, 16), (0, 0), (0, 0), (0, 0)]⟩

/-- 16-bit `MOV D[15], const8` table row (fixed-register variant). -/
def mvSpec : IDef :=
  ⟨"MOV".toList, "MOV D[15], const8".toList, 16, 2,
   [(8, 8), (0, 0), (0, 0), (0, 0), (0, 0)]⟩

/-- C2: for `MOV d4, 2` — a register plus an immediate that fits the 4-bit
slot of the 16-bit variant, with no label operand — the range selector and
find_instruction return the 32-bit variant: the has_labels test counts the
register operand (whose parsed value is None) as a label because its
`i < len(operand_values)` guard is vacuous, and the larger-first ordering
then wins. The 16-bit variant alone is accepted as suitable, so the choice
of the 32-bit one is purely the has_labels ordering. -/
theorem C2_register_operand_defeats_size_optimization :
    extractRegisterInfo ("d4").toList = RegInfo.reg 'D' 4 ∧
    operandValue ("2").toList = some 2 ∧
    findBestVariantByOperandRange [mv16] [("d4").toList, ("2").toList] = some mv16 ∧
    findBestVariantByOperandRange [mv16, mv32] [("d4").toList, ("2").toList] =
      some mv32 ∧
    findInstruction false false [mv16, mv32] ("mov").toList 2
      [("d4").toList, ("2").toList] = some mv32 := by
  decide

/-- C3: with both the fixed-register `MOV D[15], const8` variant and the
generic `MOV D[a], const4` variant in the table (either order), operand
D15 selects the fixed variant and every other Dn (n < 16) selects the
generic one. -/
theorem C3_fixed_register_preference : ∀ r : Nat, r < 16 →
    findInstruction false false [mvSpec, mv16] ("mov").toList 2
      ['d' :: natDigits 10 r, ("#3").toList] =
      some (if r = 15 then mvSpec else mv16) ∧
    findInstruction false false [mv16, mvSpec] ("mov").toList 2
      ['d' :: natDigits 10 r, ("#3").toList] =
      some (if r = 15 then mvSpec else mv16) := by
  decide

theorem C3_witness :
    (15 : Nat) < 16 ∧ (4 : Nat) < 16 ∧
    findInstruction false false [mvSpec, mv16] ("mov").toList 2
      [('d' :: natDigits 10 15), ("#3").toList] = some mvSpec ∧
    findInstruction false false [mvSpec, mv16] ("mov").toList 2
      [('d' :: natDigits 10 4), ("#3").toList] = some mv16 := by
  refine ⟨by decide, by decide, ?_, ?_⟩
  · have h := (C3_fixed_register_preference 15 (by decide)).1
    rw [h]
    rfl
  · have h := (C3_fixed_register_preference 4 (by decide)).1
    rw [h]
    rfl

end TASM

namespace TASM

/-- _parse_split_operand_syntax: first brace group's [hi:lo] windows and
the 1-based operand position (commas before the brace + 1). -/
def parseSplitOperandSyntax (syn : Str) : Nat × List (Nat × Nat) :=
  match findBrace syn with
  | none => (0, [])
  | some (content, before) => (before.count ',' + 1, parseFields content)

/-- One iteration of the _encode_split_operand_instruction operand loop.
The state is (instr_def_operand_num, binary_value); none = `return None`.
Python's `x & (2^k - 1)` is `Int.emod x (2^k)` and `>>` on ints is
`Int.fdiv` by a power of two; every OR'd contribution is non-negative, so
the accumulator lives in Nat. -/
def encodeSplitStep (d : IDef) (splitIdx : Nat) (ranges : List (Nat × Nat))
    (syntaxOps : List Str) (vals : List Int)
    (st : Option (Nat × Nat)) (parsedIdx : Nat) : Option (Nat × Nat) :=
  match st with
  | none => none
  | some (num, acc) =>
    if parsedIdx = splitIdx then
      let v0 := vals.getD parsedIdx 0
      let v := if parsedIdx < syntaxOps.length &&
          strHasSub ['/', '2'] (syntaxOps.getD parsedIdx []) then
        Int.fdiv v0 2
      else v0
      let totalBits := ranges.foldl (fun a hl => a + (hl.1 - hl.2 + 1)) 0
      let maxValue : Int := 2 ^ totalBits - 1
      if maxValue < v ∧ v < 2 ^ 32 then none
      else
        some (num + ranges.length, (ranges.enum).foldl (fun b p =>
          let partValue := (Int.fdiv v (2 ^ p.2.2)).emod (2 ^ (p.2.1 - p.2.2 + 1))
          let info := getOperandInfo d (num + p.1)
          b ||| ((partValue.emod (2 ^ info.2)).toNat <<< info.1)) acc)
    else
      let v := vals.getD parsedIdx 0
      let info := getOperandInfo d num
      if 0 < info.2 then
        if (2 ^ info.2 - 1 : Int) < v then none
        else some (num + 1, acc ||| ((v.emod (2 ^ info.2)).toNat <<< info.1))
      else some (num + 1, acc)

/-- _encode_split_operand_instruction (src/src/instruction_encoder.py lines
490-709) with the per-operand parse_operand_value results supplied as
`vals` (its ValueError path corresponds to a failed parse, outside this
seam). -/
def encodeSplitOperand (d : IDef) (baseOpcode : Nat) (vals : List Int) : Option Nat :=
  match parseSplitOperandSyntax d.syn with
  | (splitPos, ranges) =>
    if ranges = [] || splitPos = 0 then none
    else
      ((List.range vals.length).foldl
        (encodeSplitStep d (splitPos - 1) ranges (operandPatterns d.syn) vals)
        (some (1, baseOpcode))).map Prod.snd

/-- A representative split-operand row: LEA-style syntax whose third
operand carries the windows [9:6][15:10][5:0], destination slots 3-5 at
positions 16/22/28. -/
def leaSyn : Str :=
  ("LEA A[a],A[b],off16 ").toList ++ [lbrace] ++ ("[9:6][15:10][5:0]").toList ++ [rbrace]

def leaDef : IDef :=
  ⟨"LEA".toList, leaSyn, 32, 3,
   [(8, 4), (12, 4), (16, 4), (22, 6), (28, 6)]⟩

end TASM

namespace TASM

theorem encodeSplitStep_some (d : IDef) (si : Nat) (rgs : List (Nat × Nat))
    (so : List Str) (vals : List Int) (num acc pIdx : Nat) :
    encodeSplitStep d si rgs so vals (some (num, acc)) pIdx =
      (if pIdx = si then
        (if (2 ^ (rgs.foldl (fun a hl => a + (hl.1 - hl.2 + 1)) 0) - 1 : Int) <
            (if pIdx < so.length && strHasSub ['/', '2'] (so.getD pIdx []) then
              Int.fdiv (vals.getD pIdx 0) 2 else vals.getD pIdx 0) ∧
            (if pIdx < so.length && strHasSub ['/', '2'] (so.getD pIdx []) then
              Int.fdiv (vals.getD pIdx 0) 2 else vals.getD pIdx 0) < 2 ^ 32 then none
         else
           some (num + rgs.length, rgs.enum.foldl (fun b p =>
             b ||| ((((Int.fdiv
                 (if pIdx < so.length && strHasSub ['/', '2'] (so.getD pIdx []) then
                   Int.fdiv (vals.getD pIdx 0) 2 else vals.getD pIdx 0)
                 (2 ^ p.2.2)).emod (2 ^ (p.2.1 - p.2.2 + 1))).emod
                 (2 ^ (getOperandInfo d (num + p.1)).2)).toNat <<<
                 (getOperandInfo d (num + p.1)).1)) acc))
      else
        (if 0 < (getOperandInfo d num).2 then
          (if (2 ^ (getOperandInfo d num).2 - 1 : Int) < vals.getD pIdx 0 then none
           else
             some (num + 1, acc |||
               (((vals.getD pIdx 0).emod (2 ^ (getOperandInfo d num).2)).toNat <<<
                 (getOperandInfo d num).1)))
         else some (num + 1, acc))) := rfl

theorem encodeSplitStep_reg (d : IDef) (si : Nat) (rgs : List (Nat × Nat))
    (so : List Str) (vals : List Int) (num acc pIdx pos len : Nat)
    (hne : pIdx ≠ si) (hinfo : getOperandInfo d num = (pos, len)) (hlen : 0 < len)
    (hfit : ¬((2 ^ len - 1 : Int) < vals.getD pIdx 0)) :
    encodeSplitStep d si rgs so vals (some (num, acc)) pIdx =
      some (num + 1, acc ||| (((vals.getD pIdx 0).emod (2 ^ len)).toNat <<< pos)) := by
  rw [encodeSplitStep_some, if_neg hne, hinfo, if_pos hlen, if_neg hfit]

theorem encodeSplitStep_split_none (d : IDef) (si : Nat) (rgs : List (Nat × Nat))
    (so : List Str) (vals : List Int) (num acc pIdx total : Nat)
    (hpe : pIdx = si)
    (hs2 : (pIdx < so.length && strHasSub ['/', '2'] (so.getD pIdx [])) = false)
    (htotal : rgs.foldl (fun a hl => a + (hl.1 - hl.2 + 1)) 0 = total)
    (hbig : (2 ^ total - 1 : Int) < vals.getD pIdx 0)
    (hlt : vals.getD pIdx 0 < 2 ^ 32) :
    encodeSplitStep d si rgs so vals (some (num, acc)) pIdx = none := by
  rw [encodeSplitStep_some, if_pos hpe, hs2, if_neg (by decide : ¬(false = true)),
    htotal, if_pos ⟨hbig, hlt⟩]

theorem encodeSplitStep_split_ok (d : IDef) (si : Nat) (rgs : List (Nat × Nat))
    (so : List Str) (vals : List Int) (num acc pIdx total : Nat)
    (hpe : pIdx = si)
    (hs2 : (pIdx < so.length && strHasSub ['/', '2'] (so.getD pIdx [])) = false)
    (htotal : rgs.foldl (fun a hl => a + (hl.1 - hl.2 + 1)) 0 = total)
    (hfit : ¬((2 ^ total - 1 : Int) < vals.getD pIdx 0 ∧ vals.getD pIdx 0 < 2 ^ 32)) :
    encodeSplitStep d si rgs so vals (some (num, acc)) pIdx =
      some (num + rgs.length, rgs.enum.foldl (fun b p =>
        b ||| ((((Int.fdiv (vals.getD pIdx 0) (2 ^ p.2.2)).emod
            (2 ^ (p.2.1 - p.2.2 + 1))).emod
            (2 ^ (getOperandInfo d (num + p.1)).2)).toNat <<<
            (getOperandInfo d (num + p.1)).1)) acc) := by
  rw [encodeSplitStep_some, if_pos hpe, hs2, if_neg (by decide : ¬(false = true)),
    htotal, if_neg hfit]

end TASM

namespace TASM

theorem fdiv_emod_toNat (v k m : Nat) :
    ((Int.fdiv (v : Int) ((2 : Int) ^ k)) % ((2 : Int) ^ m)).toNat =
      (v >>> k) % 2 ^ m := by
  have h1 : Int.fdiv (v : Int) ((2 : Int) ^ k) = ((v / 2 ^ k : Nat) : Int) := by
    rw [show ((2 : Int) ^ k) = ((2 ^ k : Nat) : Int) from by push_cast; rfl,
      ← Int.ofNat_fdiv]
  rw [h1, show ((2 : Int) ^ m) = ((2 ^ m : Nat) : Int) from by push_cast; rfl]
  show (((v / 2 ^ k : Nat) : Int) % ((2 ^ m : Nat) : Int)).toNat = v >>> k % 2 ^ m
  rw [← Int.natCast_mod, Int.toNat_natCast, Nat.shiftRight_eq_div_pow]

theorem emod_toNat_small (a n : Nat) (h : a < 2 ^ n) :
    (((a : Int)) % ((2 : Int) ^ n)).toNat = a := by
  rw [show ((2 : Int) ^ n) = ((2 ^ n : Nat) : Int) from by push_cast; rfl]
  show (((a : Nat) : Int) % ((2 ^ n : Nat) : Int)).toNat = a
  rw [← Int.natCast_mod, Int.toNat_natCast, Nat.mod_eq_of_lt h]

end TASM

namespace TASM

theorem emod_emod_same (x : Int) (n : Nat) :
    (x % ((2 : Int) ^ n)) % ((2 : Int) ^ n) = x % ((2 : Int) ^ n) :=
  Int.emod_emod_of_dvd x dvd_rfl

/-- C4: on the split-operand row `leaDef` (windows [9:6][15:10][5:0] on
the third operand, slots 3-5 at positions 16/22/28), the encoder (a)
rejects the split value exactly through the summed window width 16
(value > 2^16-1, with the code's extra value < 2^32 conjunct), and (b)
on success ORs `(value >> lo) & (2^(hi-lo+1) - 1)` of each window into
the sequential slots, the two register operands going to their own slots
normally. -/
theorem C4_split_field_encoding (base a b off : Nat) (ha : a ≤ 15) (hb : b ≤ 15) :
    ((2 ^ 16 - 1 : Int) < (off : Int) → (off : Int) < 2 ^ 32 →
      encodeSplitOperand leaDef base [(a : Int), (b : Int), (off : Int)] = none) ∧
    (off ≤ 2 ^ 16 - 1 →
      encodeSplitOperand leaDef base [(a : Int), (b : Int), (off : Int)] =
        some (base ||| a <<< 8 ||| b <<< 12 |||
          ((off >>> 6) % 2 ^ 4) <<< 16 ||| ((off >>> 10) % 2 ^ 6) <<< 22 |||
          ((off >>> 0) % 2 ^ 6) <<< 28)) := by
  have hunf : encodeSplitOperand leaDef base [(a : Int), (b : Int), (off : Int)] =
      (encodeSplitStep leaDef 2 [(9, 6), (15, 10), (5, 0)]
        [("A[a]").toList, ("A[b]").toList, ("off16").toList]
        [(a : Int), (b : Int), (off : Int)]
        (encodeSplitStep leaDef 2 [(9, 6), (15, 10), (5, 0)]
          [("A[a]").toList, ("A[b]").toList, ("off16").toList]
          [(a : Int), (b : Int), (off : Int)]
          (encodeSplitStep leaDef 2 [(9, 6), (15, 10), (5, 0)]
            [("A[a]").toList, ("A[b]").toList, ("off16").toList]
            [(a : Int), (b : Int), (off : Int)] (some (1, base)) 0) 1) 2).map
        Prod.snd := rfl
  have hs0 := encodeSplitStep_reg leaDef 2 [(9, 6), (15, 10), (5, 0)]
    [("A[a]").toList, ("A[b]").toList, ("off16").toList]
    [(a : Int), (b : Int), (off : Int)] 1 base 0 8 4
    (by decide) rfl (by decide)
    (by
      show ¬((2 ^ 4 - 1 : Int) < (a : Int))
      push_cast
      omega)
  constructor
  · intro h1 h2
    rw [hunf, hs0]
    rw [encodeSplitStep_reg leaDef 2 [(9, 6), (15, 10), (5, 0)]
      [("A[a]").toList, ("A[b]").toList, ("off16").toList]
      [(a : Int), (b : Int), (off : Int)] 2 _ 1 12 4
      (by decide) rfl (by decide)
      (by
        show ¬((2 ^ 4 - 1 : Int) < (b : Int))
        push_cast
        omega)]
    rw [encodeSplitStep_split_none leaDef 2 [(9, 6), (15, 10), (5, 0)]
      [("A[a]").toList, ("A[b]").toList, ("off16").toList]
      [(a : Int), (b : Int), (off : Int)] 3 _ 2 16
      rfl (by decide) (by decide) h1 h2]
    rfl
  · intro hoff
    rw [hunf, hs0]
    rw [encodeSplitStep_reg leaDef 2 [(9, 6), (15, 10), (5, 0)]
      [("A[a]").toList, ("A[b]").toList, ("off16").toList]
      [(a : Int), (b : Int), (off : Int)] 2 _ 1 12 4
      (by decide) rfl (by decide)
      (by
        show ¬((2 ^ 4 - 1 : Int) < (b : Int))
        push_cast
        omega)]
    rw [encodeSplitStep_split_ok leaDef 2 [(9, 6), (15, 10), (5, 0)]
      [("A[a]").toList, ("A[b]").toList, ("off16").toList]
      [(a : Int), (b : Int), (off : Int)] 3 _ 2 16
      rfl (by decide) (by decide)
      (by
        rintro ⟨hcon, -⟩
        have hcon2 : (2 ^ 16 - 1 : Int) < (off : Int) := hcon
        push_cast at hcon2
        omega)]
    show some (base ||| ((((a : Int)) % ((2 : Int) ^ 4)).toNat <<< 8) |||
        ((((b : Int)) % ((2 : Int) ^ 4)).toNat <<< 12) |||
        ((((Int.fdiv (off : Int) ((2 : Int) ^ 6)) % ((2 : Int) ^ 4)) %
          ((2 : Int) ^ 4)).toNat <<< 16) |||
        ((((Int.fdiv (off : Int) ((2 : Int) ^ 10)) % ((2 : Int) ^ 6)) %
          ((2 : Int) ^ 6)).toNat <<< 22) |||
        ((((Int.fdiv (off : Int) ((2 : Int) ^ 0)) % ((2 : Int) ^ 6)) %
          ((2 : Int) ^ 6)).toNat <<< 28)) =
      some (base ||| a <<< 8 ||| b <<< 12 |||
        ((off >>> 6) % 2 ^ 4) <<< 16 ||| ((off >>> 10) % 2 ^ 6) <<< 22 |||
        ((off >>> 0) % 2 ^ 6) <<< 28)
    rw [emod_emod_same (Int.fdiv (off : Int) ((2 : Int) ^ 6)) 4,
      emod_emod_same (Int.fdiv (off : Int) ((2 : Int) ^ 10)) 6,
      emod_emod_same (Int.fdiv (off : Int) ((2 : Int) ^ 0)) 6,
      emod_toNat_small a 4 (by omega), emod_toNat_small b 4 (by omega),
      fdiv_emod_toNat off 6 4, fdiv_emod_toNat off 10 6, fdiv_emod_toNat off 0 6]

end TASM

namespace TASM

theorem C4_witness :
    (10 : Nat) ≤ 15 ∧ (11 : Nat) ≤ 15 ∧ (4660 : Nat) ≤ 2 ^ 16 - 1 ∧
    encodeSplitOperand leaDef 197
        [((10 : Nat) : Int), ((11 : Nat) : Int), ((4660 : Nat) : Int)] =
      some (197 ||| (10 : Nat) <<< 8 ||| (11 : Nat) <<< 12 |||
        (((4660 : Nat) >>> 6) % 2 ^ 4) <<< 16 |||
        (((4660 : Nat) >>> 10) % 2 ^ 6) <<< 22 |||
        (((4660 : Nat) >>> 0) % 2 ^ 6) <<< 28) :=
  ⟨by decide, by decide, by decide,
   (C4_split_field_encoding 197 10 11 4660 (by decide) (by decide)).2 (by decide)⟩

end TASM

namespace TASM

/-- C6 counterexample: two independent failures of two-pass address
agreement. (i) With `mov` (sized 2) followed by `.ORG $100`, pass 1
assigns the line address 0x80000000, but _handle_org_directive has mutated
self.current_address to 0x100 by the end of pass 1, so pass 2 — which
starts from self.current_address, not from the pass-1 start origin —
assigns the same line 0x100. (ii) With no .ORG at all, the two passes size
lines by different functions: pass 1 calls find_instruction with the
mnemonic and operand count but no operands (assembler.py line 376),
getting the smallest variant — here `MOV D[a], const4`, 2 bytes — while
pass 2 takes the variant encode_instruction selects from the operands
(assembler.py line 510), for `mov d5, #76` the 4-byte `MOV D[c], const16`;
with two such lines the passes already disagree on the second address. -/
theorem C6_counterexample :
    (firstPass (fun _ _ => some 2) (fun _ => true) 2147483648
        [['m', 'o', 'v'], ['.', 'O', 'R', 'G', ' ', '$', '1', '0', '0']] =
      (true, ⟨256, 256, [], [2147483648]⟩) ∧
     secondPass (fun _ _ => some 2)
        (firstPass (fun _ _ => some 2) (fun _ => true) 2147483648
          [['m', 'o', 'v'], ['.', 'O', 'R', 'G', ' ', '$', '1', '0', '0']]).2.curAddr
        [['m', 'o', 'v'], ['.', 'O', 'R', 'G', ' ', '$', '1', '0', '0']] =
      (true, ⟨256, 256, [256]⟩) ∧
     (256 : Nat) ≠ 2147483648) ∧
    (findInstruction false false [mv16, mv32] ("mov").toList 2 [] = some mv16 ∧
     findInstruction false false [mv16, mv32] ("mov").toList 2
        [("d5").toList, ("#76").toList] = some mv32 ∧
     mv16.opcodeSize / 8 = 2 ∧ mv32.opcodeSize / 8 = 4 ∧
     (firstPass (fun _ _ => some 2) (fun _ => true) 2147483648
        [("mov d5, #76").toList, ("mov d5, #76").toList]).2.emitted =
       [2147483648, 2147483650] ∧
     (secondPass (fun _ _ => some 4)
        (firstPass (fun _ _ => some 2) (fun _ => true) 2147483648
          [("mov d5, #76").toList, ("mov d5, #76").toList]).2.curAddr
        [("mov d5, #76").toList, ("mov d5, #76").toList]).2.emitted =
       [2147483648, 2147483652] ∧
     (2147483650 : Nat) ≠ 2147483652) := by
  decide

end TASM
